import Mathlib

/-!
# External merge sort of the MapReduce library (`include/detail/mergesort.hpp`)

A shallow embedding of `merge_sort<Record>`, `detail::do_file_merge`,
`detail::delete_file` and `detail::temporary_file_manager`.

Modelling conventions.

* A file is its content, a list of bytes (`List Char`); the disk maps a path to the
  content of the file stored there, if any.
* An input stream carries the bytes not yet read together with its `eofbit` and
  `failbit`; `std::getline` is embedded on that state.  Device errors in the middle of
  a read or a write are not modelled (`badbit` is never set); failures to open, to
  remove and to rename a file are, through the oracles of `Env`.
* Exceptions are explicit: a stateful operation returns its outcome together with the
  world it leaves behind, so that the destructor of the temporary file manager can be
  run on every path out of `merge_sort`.
* Loops that need not terminate in the source take a fuel argument and answer
  `Outcome.out_of_fuel` when it is used up.
* The addresses that `std::make_shared` hands out are a parameter `addr`: `addr i` is the
  address of the stream object that `do_file_merge` buffers for the `i`-th run file.
* The name supplier `platform::get_temporary_filename` is a parameter `tmp`: `tmp k` is the
  path returned by its `k`-th call.
-/

namespace MapReduce

/-! ## Streams -/

/-- A path name (`std::string`, `char const *`). -/
abbrev Path := List Char

/-- State of a `std::ifstream` opened in binary mode. -/
structure ifstream where
  is_open : Bool
  buf : List Char
  eofbit : Bool
  failbit : Bool
deriving DecidableEq

/-- Extraction of characters up to the delimiter `'\r'`: the characters stored, and the
rest of the buffer after the discarded delimiter (`none` when the end of the buffer is
reached first). -/
def scan_line : List Char → List Char × Option (List Char)
  | [] => ([], none)
  | c :: cs =>
    if c = '\r' then ([], some cs)
    else ((c :: (scan_line cs).1), (scan_line cs).2)

/-- The call `std::getline(is, str, '\r')`.  When the stream is not good the sentry fails:
`failbit` is set and `str` is left as it was.  Otherwise `str` is erased and characters
are extracted up to the delimiter, which is discarded; reaching the end of the buffer sets
`eofbit`, and `failbit` too when nothing at all was extracted. -/
def getline (s : ifstream) (str : List Char) : ifstream × List Char :=
  if s.eofbit || s.failbit then ({ s with failbit := true }, str)
  else
    match scan_line s.buf with
    | (l, some rest) => ({ s with buf := rest }, l)
    | (l, none) => ({ s with buf := [], eofbit := true, failbit := l.isEmpty }, l)

/-! ## Records -/

/-- What `merge_sort<Record>` requires of `Record`: `operator<`, stream extraction
(`l >> *record` on a default-constructed record) and stream insertion
(`file << *record`). -/
structure RecordOps (R : Type) where
  lt : R → R → Bool
  extract : List Char → R
  insert : R → List Char

/-- The comparison `shared_ptr_indirect_less<Record>::operator()`: `*left < *right`. -/
def shared_ptr_indirect_less {R : Type} (ops : RecordOps R) (left right : R) : Bool :=
  ops.lt left right

/-- The statement `++lines.insert(std::make_pair(record,0U)).first->second` on the
`std::map` of a chunk, kept as the list of its entries in key order.  A record equivalent
to a key already present leaves the key alone and increments its `unsigned` counter. -/
def lines_insert {R : Type} (ops : RecordOps R) (record : R) :
    List (R × Nat) → List (R × Nat)
  | [] => [(record, 1)]
  | (k, c) :: rest =>
    if shared_ptr_indirect_less ops record k then (record, 1) :: (k, c) :: rest
    else if shared_ptr_indirect_less ops k record then (k, c) :: lines_insert ops record rest
    else (k, (c + 1) % 4294967296) :: rest

/-- The inner reading loop of `merge_sort`,
`for (unsigned loop=0; !infile.eof() && loop<max_lines; ++loop)`, with `n` the number of
passes still allowed (`max_lines - loop`).  The `Option` is `none` when the loop throws
"An error occurred reading the input file." -/
def read_chunk {R : Type} (ops : RecordOps R) :
    Nat → ifstream → List (R × Nat) → Option (ifstream × List (R × Nat))
  | 0, infile, lines => some (infile, lines)
  | n + 1, infile, lines =>
    if infile.eofbit then some (infile, lines)
    else if infile.failbit then none
    else
      let r := getline infile []
      if r.2.length > 0 then read_chunk ops n r.1 (lines_insert ops (ops.extract r.2) lines)
      else read_chunk ops n r.1 lines

/-- The bytes that the writing loop of `merge_sort` sends to the run file:
`file << *it->first << "\r"` repeated `it->second` times for every entry in key order. -/
def run_content {R : Type} (ops : RecordOps R) : List (R × Nat) → List Char
  | [] => []
  | (r, c) :: rest => (List.replicate c (ops.insert r ++ ['\r'])).flatten ++ run_content ops rest

/-! ## The file system -/

/-- The disk: the content of the file at each path, if there is one. -/
abbrev Disk := Path → Option (List Char)

/-- The world a call acts on: the disk, and the trace of the paths handed to
`boost::filesystem::remove` so far (a ghost field, used to speak about attempts). -/
structure World where
  disk : Disk
  removes : List Path

/-- Failure oracles of the environment. -/
structure Env where
  readable : Path → Bool
  writable : Path → Bool
  remove_fails : Path → Bool
  rename_fails : Path → Path → Bool

/-- Exceptions that cross the functions of the embedding. -/
inductive Exn where
  | unable_to_open_file
  | read_error
  | write_error
  | filesystem_error
deriving DecidableEq

/-- How a call ends. -/
inductive Outcome where
  | returned (b : Bool)
  | threw (e : Exn)
  | assertion_failed
  | out_of_fuel
deriving DecidableEq

/-- A stream just opened on a file with the given content. -/
def opened (content : List Char) : ifstream :=
  { is_open := true, buf := content, eofbit := false, failbit := false }

/-- A stream whose file could not be opened: `failbit` is set. -/
def not_opened : ifstream :=
  { is_open := false, buf := [], eofbit := false, failbit := true }

/-- Construction of `std::ifstream(path, in | binary)`. -/
def ifstream_open (env : Env) (w : World) (path : Path) : ifstream :=
  match w.disk path with
  | some content => if env.readable path then opened content else not_opened
  | none => not_opened

/-- Construction of `std::ofstream(path, out | binary)`: on success the file exists and is
empty.  The result tells whether the stream is good. -/
def ofstream_open (env : Env) (w : World) (path : Path) : Bool × World :=
  if env.writable path then (true, { w with disk := Function.update w.disk path (some []) })
  else (false, w)

/-- Closing a `std::ofstream`: the bytes inserted while the stream was good reach the file. -/
def ofstream_close (w : World) (path : Path) (good : Bool) (bytes : List Char) : World :=
  if good then { w with disk := Function.update w.disk path (some bytes) } else w

/-- The call `boost::filesystem::remove(p)`: `false` when there is no such file, an
exception on an error, `true` after removing the file. -/
def remove (env : Env) (w : World) (p : Path) : Except Exn Bool × World :=
  let w1 : World := { w with removes := w.removes ++ [p] }
  if env.remove_fails p then (.error .filesystem_error, w1)
  else
    match w.disk p with
    | none => (.ok false, w1)
    | some _ => (.ok true, { w1 with disk := Function.update w.disk p none })

/-- The call `boost::filesystem::rename(old_p, new_p)`. -/
def rename (env : Env) (w : World) (old_p new_p : Path) : Except Exn Unit × World :=
  match w.disk old_p with
  | none => (.error .filesystem_error, w)
  | some content =>
    if env.rename_fails old_p new_p then (.error .filesystem_error, w)
    else (.ok (), { w with disk := Function.update (Function.update w.disk old_p none) new_p (some content) })

/-- The function `detail::delete_file`. -/
def delete_file (env : Env) (w : World) (pathname : Path) : Except Exn Bool × World :=
  if pathname.isEmpty then (.ok true, w)
  else
    match remove env w pathname with
    | (.ok success, w1) => (.ok success, w1)
    | (.error _, w1) => (.ok false, w1)

/-- The call `std::for_each(filenames_.begin(), filenames_.end(), delete_file)`: an
exception leaving `delete_file` would end the traversal. -/
def for_each_delete_file (env : Env) : List Path → World → Except Exn Unit × World
  | [], w => (.ok (), w)
  | p :: ps, w =>
    match delete_file env w p with
    | (.ok _, w1) => for_each_delete_file env ps w1
    | (.error e, w1) => (.error e, w1)

/-- The destructor `temporary_file_manager::~temporary_file_manager`. -/
def temporary_file_manager_destroy (env : Env) (filenames : List Path) (w : World) :
    Except Exn Unit × World :=
  match for_each_delete_file env filenames w with
  | (.ok u, w1) => (.ok u, w1)
  | (.error _, w1) => (.ok (), w1)

/-! ## The k-way merge -/

/-- Build configuration: whether `_DEBUG` is defined (the cap of ten files per pass), and
whether `assert` is compiled in (`NDEBUG` not defined). -/
structure Build where
  debug : Bool
  asserts : Bool

/-- An element of `file_lines_t`, a `std::pair<std::shared_ptr<std::ifstream>, std::string>`:
the address the shared pointer holds, the state of the stream it points to, and the
buffered line. -/
structure file_line where
  ptr : Nat
  file : ifstream
  line : List Char
deriving DecidableEq

/-- The relation `operator<` of `std::string`: lexicographic on the bytes. -/
def string_lt : List Char → List Char → Bool
  | _, [] => false
  | [], _ :: _ => true
  | a :: as, b :: bs =>
    if a.toNat < b.toNat then true
    else if b.toNat < a.toNat then false
    else string_lt as bs

/-- The relation `operator<` of `std::pair` on two elements of `file_lines_t`:
`x.first < y.first || (!(y.first < x.first) && x.second < y.second)`, where `operator<` of
`std::shared_ptr` compares the addresses held. -/
def pair_lt (x y : file_line) : Bool :=
  decide (x.ptr < y.ptr) || (!decide (y.ptr < x.ptr) && string_lt x.line y.line)

/-- The comparison `detail::less_2nd`, which looks at the second components only. -/
def less_2nd (x y : file_line) : Bool :=
  string_lt x.line y.line

/-- The scan of `std::min_element` after its first element: `smallest` is the position of
the least element met so far, `best` its value, `i` the position of the head of the list. -/
def min_element_from {α : Type} (less : α → α → Bool) : List α → α → Nat → Nat → Nat
  | [], _, smallest, _ => smallest
  | x :: xs, best, smallest, i =>
    if less x best then min_element_from less xs x i (i + 1)
    else min_element_from less xs best smallest (i + 1)

/-- The position returned by `std::min_element(first, last)`: the first of the least
elements under `less`. -/
def min_element {α : Type} (less : α → α → Bool) : List α → Nat
  | [] => 0
  | x :: xs => min_element_from less xs x 0 1

/-- The choice of `it` in the merge loop of `do_file_merge`. -/
def select_line (file_lines : List file_line) : Nat :=
  if file_lines.length = 1 then 0 else min_element pair_lt file_lines

/-- The loop `while (file_lines.size() > 0)` of `do_file_merge` for a given choice of `it`
at each pass; `written` is the sequence of lines sent to `outfile` so far, each followed by
`"\r"` in the file.  The answer is `none` when the fuel runs out or `it` is not an element. -/
def merge_loop (select : List file_line → Nat) :
    Nat → List file_line → List (List Char) → Option (List (List Char))
  | _, [], written => some written
  | 0, _ :: _, _ => none
  | fuel + 1, e0 :: es, written =>
    let i := select (e0 :: es)
    match (e0 :: es).get? i with
    | none => none
    | some e =>
      let r := getline e.file e.line
      if r.1.eofbit then merge_loop select fuel ((e0 :: es).eraseIdx i) (written ++ [e.line])
      else merge_loop select fuel ((e0 :: es).set i { e with file := r.1, line := r.2 })
        (written ++ [e.line])

/-- The loop `for (; first!=last; ++first)` of `do_file_merge`: `pos` is the position of
`first` in the range of run files, and the stream object that is pushed for the file at
position `pos` lives at the address `addr pos`.  It answers the lines buffered, the files
not yet consumed (`first` to `last`) and the position reached. -/
def open_files (env : Env) (build : Build) (addr : Nat → Nat) (w : World) :
    List Path → Nat → List file_line → List file_line × List Path × Nat
  | [], pos, file_lines => (file_lines, [], pos)
  | p :: ps, pos, file_lines =>
    let file := ifstream_open env w p
    if !file.is_open then (file_lines, p :: ps, pos)
    else if build.debug && file_lines.length == 10 then (file_lines, p :: ps, pos)
    else
      let r := getline file []
      open_files env build addr w ps (pos + 1)
        (file_lines ++ [{ ptr := addr pos, file := r.1, line := r.2 }])

/-- The loop `while (first!=last)` of `do_file_merge`.  With `assert` compiled in, `count` is
incremented and checked at each pass; without it the statement `++count` is not evaluated. -/
def do_file_merge_loop (env : Env) (build : Build) (addr : Nat → Nat) (w : World) :
    Nat → List Path → Nat → Nat → List (List Char) → Outcome × List (List Char)
  | _, [], _, _, written => (.returned true, written)
  | 0, _ :: _, _, _, written => (.out_of_fuel, written)
  | fuel + 1, p :: ps, count, pos, written =>
    if build.asserts && (count + 1 != 1) then (.assertion_failed, written)
    else
      let opened := open_files env build addr w (p :: ps) pos []
      match merge_loop select_line fuel opened.1 written with
      | none => (.out_of_fuel, written)
      | some written1 =>
        do_file_merge_loop env build addr w fuel opened.2.1
          (if build.asserts then count + 1 else count) opened.2.2 written1

/-- The bytes of a sequence of lines each followed by `"\r"`. -/
def lines_bytes (written : List (List Char)) : List Char :=
  (written.map (fun l => l ++ ['\r'])).flatten

/-- The function `detail::do_file_merge(first, last, outfilename)`.  The output stream is
closed when the function returns; after a failed assertion or without fuel the file is left
as the opening made it. -/
def do_file_merge (env : Env) (build : Build) (addr : Nat → Nat) (fuel : Nat)
    (files : List Path) (outfilename : Path) (w : World) : Outcome × World :=
  let o := ofstream_open env w outfilename
  let r := do_file_merge_loop env build addr o.2 fuel files 0 0 []
  match r.1 with
  | .returned b => (.returned b, ofstream_close o.2 outfilename o.1 (lines_bytes r.2))
  | other => (other, o.2)

/-! ## merge_sort -/

/-- The locals of `merge_sort` that outlive a pass of its reading loop: the world, the
deque `temporary_files`, and the number of calls of `platform::get_temporary_filename`. -/
structure SortState where
  world : World
  temporary_files : List Path
  names : Nat

/-- The loop `while (!infile.eof())` of `merge_sort`.  The name supplier
`platform::get_temporary_filename` is the parameter `tmp`: `tmp k` is the path its `k`-th
call returns.  The first component is `none` when the loop ends normally. -/
def read_loop {R : Type} (env : Env) (ops : RecordOps R) (tmp : Nat → Path) (max_lines : Nat) :
    Nat → ifstream → SortState → Option Outcome × SortState
  | 0, infile, st => if infile.eofbit then (none, st) else (some .out_of_fuel, st)
  | fuel + 1, infile, st =>
    if infile.eofbit then (none, st)
    else
      match read_chunk ops max_lines infile [] with
      | none => (some (.threw .read_error), st)
      | some (infile1, lines) =>
        let temp_filename := tmp st.names
        let o := ofstream_open env st.world temp_filename
        let st1 : SortState :=
          { world := o.2, temporary_files := st.temporary_files ++ [temp_filename],
            names := st.names + 1 }
        if !o.1 && !lines.isEmpty then (some (.threw .write_error), st1)
        else
          read_loop env ops tmp max_lines fuel infile1
            { st1 with world := ofstream_close o.2 temp_filename o.1 (run_content ops lines) }

/-- The body of `merge_sort`, up to the point where its locals are destroyed. -/
def merge_sort_body {R : Type} (env : Env) (build : Build) (ops : RecordOps R)
    (tmp : Nat → Path) (addr : Nat → Nat) (fuel : Nat) (inp out : Path) (max_lines : Nat)
    (w : World) : Outcome × SortState :=
  let st0 : SortState := { world := w, temporary_files := [], names := 0 }
  let infile := ifstream_open env w inp
  if !infile.is_open then (.threw .unable_to_open_file, st0)
  else
    match read_loop env ops tmp max_lines fuel infile st0 with
    | (some o, st) => (o, st)
    | (none, st) =>
      if st.temporary_files.length = 1 then
        let d := delete_file env st.world out
        match rename env d.2 (st.temporary_files.headD []) out with
        | (.error e, w1) => (.threw e, { st with world := w1 })
        | (.ok _, w1) => (.returned true, { st with world := w1, temporary_files := [] })
      else
        let m := do_file_merge env build addr fuel st.temporary_files out st.world
        match m.1 with
        | .returned _ => (.returned true, { st with world := m.2 })
        | other => (other, { st with world := m.2 })

/-- The function `merge_sort<Record>(in, out, max_lines)`.  When it returns or throws, the
destructor of `tfm` runs on what `temporary_files` then holds; a failed assertion aborts
the process and nothing is destroyed. -/
def merge_sort {R : Type} (env : Env) (build : Build) (ops : RecordOps R)
    (tmp : Nat → Path) (addr : Nat → Nat) (fuel : Nat) (inp out : Path) (max_lines : Nat)
    (w : World) : Outcome × World :=
  let r := merge_sort_body env build ops tmp addr fuel inp out max_lines w
  match r.1 with
  | .returned b =>
    (.returned b, (temporary_file_manager_destroy env r.2.temporary_files r.2.world).2)
  | .threw e =>
    (.threw e, (temporary_file_manager_destroy env r.2.temporary_files r.2.world).2)
  | other => (other, r.2.world)

/-- The paths `merge_sort` obtained from `platform::get_temporary_filename` during a call. -/
def temporary_paths {R : Type} (env : Env) (build : Build) (ops : RecordOps R)
    (tmp : Nat → Path) (addr : Nat → Nat) (fuel : Nat) (inp out : Path) (max_lines : Nat)
    (w : World) : List Path :=
  (List.range (merge_sort_body env build ops tmp addr fuel inp out max_lines w).2.names).map tmp

/-! ## Reading a file back -/

/-- The lines of a file: its content split at each `'\r'`.  A content that ends with the
delimiter has no further, empty, line after it. -/
def split_lines : List Char → List (List Char)
  | [] => []
  | c :: cs =>
    if c = '\r' then [] :: split_lines cs
    else
      match split_lines cs with
      | [] => [[c]]
      | l :: ls => (c :: l) :: ls

/-- The records read back from a file: the content is split at `'\r'`, blank lines are
skipped and every other line goes through the stream extraction of the record type. -/
def parse_file {R : Type} (ops : RecordOps R) (content : List Char) : List R :=
  ((split_lines content).filter (fun l => !l.isEmpty)).map ops.extract

/-- No element of the sequence is followed by a smaller one under `less`. -/
def no_descent {α : Type} (less : α → α → Bool) : List α → Bool
  | [] => true
  | [_] => true
  | a :: b :: rest => !less b a && no_descent less (b :: rest)

/-- A sequence of records is non-decreasing under `operator<`: no record is followed by a
smaller one. -/
def non_decreasing {R : Type} (ops : RecordOps R) (rs : List R) : Bool :=
  no_descent ops.lt rs

/-- A sequence of lines is sorted in the order of `std::string`. -/
def textually_sorted (ls : List (List Char)) : Bool :=
  no_descent string_lt ls

/-- Two records are equivalent under `operator<` when neither is less than the other: the
sense in which `std::map` takes a record for a duplicate. -/
def equivalent {R : Type} (ops : RecordOps R) (a b : R) : Bool :=
  !ops.lt a b && !ops.lt b a

/-- The number of records of a sequence that are equivalent to `x`. -/
def occurrences {R : Type} (ops : RecordOps R) (x : R) (rs : List R) : Nat :=
  rs.countP (fun y => equivalent ops x y)

/-- The requirement of `std::map` on its comparison: a strict weak ordering. -/
structure StrictWeakOrder {R : Type} (lt : R → R → Bool) : Prop where
  irrefl : ∀ a, lt a a = false
  trans : ∀ a b c, lt a b = true → lt b c = true → lt a c = true
  incomp_trans : ∀ a b c, lt a b = false → lt b a = false → lt b c = false → lt c b = false →
    lt a c = false ∧ lt c a = false

/-- The records a chunk map stands for: every key as many times as its counter says. -/
def expand {R : Type} : List (R × Nat) → List R
  | [] => []
  | (r, c) :: rest => List.replicate c r ++ expand rest

/-! ## Integer records -/

/-- The classification `std::isspace` in the "C" locale. -/
def isspace (c : Char) : Bool :=
  c = ' ' || c = '\t' || c = '\n' || c = '\x0b' || c = '\x0c' || c = '\r'

/-- The value of a run of decimal digits, read from the left with `acc` the value so far. -/
def digits_value : List Char → Nat → Nat
  | [], acc => acc
  | c :: cs, acc => digits_value cs (10 * acc + (c.toNat - 48))

/-- Formatted extraction `l >> i` for a default-constructed 32-bit `int`: leading white
space is skipped, then an optional sign and the longest run of decimal digits are read.
Without a digit the value is 0; a value out of range is clamped. -/
def int_extract (line : List Char) : Int :=
  let s := line.dropWhile isspace
  let negative := s.head? = some '-'
  let body := if s.head? = some '-' ∨ s.head? = some '+' then s.tail else s
  let ds := body.takeWhile Char.isDigit
  if ds.isEmpty then 0
  else if negative then max (-(digits_value ds 0 : Int)) (-2147483648)
  else min (digits_value ds 0 : Int) 2147483647

/-- Formatted insertion `file << i` for an `int`. -/
def int_insert (i : Int) : List Char :=
  if i < 0 then '-' :: Nat.toDigits 10 i.natAbs else Nat.toDigits 10 i.natAbs

/-- The record operations of `int`. -/
def int_record : RecordOps Int :=
  { lt := fun a b => decide (a < b), extract := int_extract, insert := int_insert }

/-! ## Comparing address assignments -/

/-- The element of `file_lines_t` for the run file at a given position, at the address the
assignment `a` gives to that position. -/
def at_address (a : Nat → Nat) (e : Nat × ifstream × List Char) : file_line :=
  { ptr := a e.1, file := e.2.1, line := e.2.2 }

/-- Two address assignments order the first `n` positions alike. -/
def same_order (n : Nat) (a b : Nat → Nat) : Prop :=
  ∀ i j, i < n → j < n → (a i < a j ↔ b i < b j)

/-! ## A setting without faults, for the worked examples -/

/-- An environment in which every file can be opened, removed and renamed. -/
def no_faults : Env :=
  { readable := fun _ => true, writable := fun _ => true, remove_fails := fun _ => false,
    rename_fails := fun _ _ => false }

/-- An environment in which the file at `path` cannot be opened for writing and nothing
else fails. -/
def write_protected (path : Path) : Env :=
  { readable := fun _ => true, writable := fun p => decide (p ≠ path),
    remove_fails := fun _ => false, rename_fails := fun _ _ => false }

/-- A build with neither `_DEBUG` nor `assert`. -/
def release : Build :=
  { debug := false, asserts := false }

/-- A supplier of temporary names: `run`, `run_`, `run__`, ... -/
def run_name (k : Nat) : Path :=
  'r' :: 'u' :: 'n' :: List.replicate k '_'

/-- A world whose disk holds the listed files and nothing else. -/
def disk_of (files : List (Path × List Char)) : World :=
  { disk := fun p => (files.find? (fun f => decide (f.1 = p))).map Prod.snd, removes := [] }

/-- The address assignment that gives the listed addresses to the first positions. -/
def addresses (l : List Nat) : Nat → Nat :=
  fun k => l.getD k 0

/-! ## Views of a stream used in the statements -/

/-- The lines that one pass of the inner reading loop of `merge_sort` takes from the stream,
blank ones included, in the order read; `n` is the number of passes still allowed. -/
def chunk_lines : Nat → ifstream → List (List Char)
  | 0, _ => []
  | n + 1, infile =>
    if infile.eofbit then []
    else if infile.failbit then []
    else (getline infile []).2 :: chunk_lines n (getline infile []).1

/-- The keys of the map of a chunk are in strictly increasing order. -/
def keys_increasing {R : Type} (ops : RecordOps R) (m : List (R × Nat)) : Prop :=
  (m.map Prod.fst).Pairwise (fun a b => ops.lt a b = true)

/-- The records still to be read from an input stream: none once `eofbit` is set. -/
def pending_records {R : Type} (ops : RecordOps R) (s : ifstream) : List R :=
  if s.eofbit then [] else parse_file ops s.buf

/-- The lines still to be read from a run file being merged: none once `eofbit` is set. -/
def rest_lines (s : ifstream) : List (List Char) :=
  if s.eofbit then [] else split_lines s.buf

/-- The lines an element of `file_lines_t` still has to contribute: the buffered one and
those not yet read. -/
def entry_lines (e : file_line) : List (List Char) :=
  e.line :: rest_lines e.file

/-- The lines all the elements of `file_lines_t` still have to contribute. -/
def pending_lines (file_lines : List file_line) : List (List Char) :=
  (file_lines.map entry_lines).flatten

/-- The content of a stream is a sequence of lines without `'\r'`, each followed by `'\r'`,
and the stream has hit neither the end nor a failure; or the stream is at its end. -/
def well_formed (s : ifstream) : Prop :=
  s.eofbit = true ∨
    (s.failbit = false ∧ ∃ ls : List (List Char), (∀ l ∈ ls, '\r' ∉ l) ∧ s.buf = lines_bytes ls)

/-- The lines of a sequence that are not blank. -/
def nonblank (ls : List (List Char)) : List (List Char) :=
  ls.filter (fun l => !l.isEmpty)

/-- The lines of the files at the listed paths, file after file. -/
def all_lines (w : World) (paths : List Path) : List (List Char) :=
  (paths.map (fun p => split_lines ((w.disk p).getD []))).flatten

/-- The file at `p` can be opened for reading and is a sequence of lines without `'\r'`,
each followed by `'\r'`: what the writing loop of `merge_sort` produces. -/
def run_file (env : Env) (w : World) (p : Path) : Prop :=
  env.readable p = true ∧
    ∃ ls : List (List Char), (∀ l ∈ ls, '\r' ∉ l) ∧ w.disk p = some (lines_bytes ls)

/-- The lines a run file has to contribute to the merged output: its lines, or one blank
line when the file is empty. -/
def contribution (w : World) (p : Path) : List (List Char) :=
  match split_lines ((w.disk p).getD []) with
  | [] => [[]]
  | l :: ls => l :: ls

/-- A bound on the number of steps `do_file_merge` takes on the listed files. -/
def merge_bound (w : World) (paths : List Path) : Nat :=
  (paths.map (fun p => ((w.disk p).getD []).length + 2)).sum

/-- The stream has not failed unless it is at its end: the state of a stream that was
opened successfully and then only read by `getline`. -/
def sane (s : ifstream) : Prop :=
  s.eofbit = false → s.failbit = false

/-! ## Small record types for the examples -/

/-- The record operations of a one-bit record, written as `0` or `1`. -/
def bit_record : RecordOps Bool :=
  { lt := fun a b => !a && b,
    extract := fun l => decide (l = ['1']),
    insert := fun b => if b then ['1'] else ['0'] }

/-- The record operations of a record without content, whose stream insertion writes
nothing. -/
def silent_record : RecordOps Unit :=
  { lt := fun _ _ => false, extract := fun _ => (), insert := fun _ => [] }

/-- The record operations of a record without content, whose stream insertion writes two
fields separated by the delimiter `'\r'`. -/
def two_line_record : RecordOps Unit :=
  { lt := fun _ _ => false, extract := fun _ => (), insert := fun _ => ['a', '\r', 'b'] }

/-- A world for the examples with eleven run files: the first ten hold the line `b`, the
eleventh holds the line `a`. -/
def eleven_runs : World :=
  disk_of ((List.range 10).map (fun k => (run_name k, "b\r".toList)) ++
    [(run_name 10, "a\r".toList)])

/-! ## The prime number example (`examples/prime/prime.cpp`)

Values of type `long` are integers between `LONG_MIN` and `LONG_MAX` (64 bits).  An
arithmetic expression whose value does not fit has undefined behaviour in the source: the
embedding gives it no result. -/

/-- The largest value of type `long`. -/
def LONG_MAX : Int := 9223372036854775807

/-- The smallest value of type `long`. -/
def LONG_MIN : Int := -9223372036854775808

/-- The result of an arithmetic expression of type `long` whose mathematical value is `x`:
none on signed overflow. -/
def long_value (x : Int) : Option Int :=
  if LONG_MIN ≤ x ∧ x ≤ LONG_MAX then some x else none

/-- The loop `for (long i = 3; i < sqrt_number; i+=2)` of `is_prime`, entered with the
current value of `i`; the answer is `none` when the fuel runs out. -/
def is_prime_loop (n sqrt_number : Int) : Nat → Int → Option Bool
  | 0, i => if i < sqrt_number then none else some true
  | fuel + 1, i =>
    if i < sqrt_number then
      if n % i = 0 then some false else is_prime_loop n sqrt_number fuel (i + 2)
    else some true

/-- The function `is_prime(number)`.  The conversion
`static_cast<long>(std::sqrt(static_cast<double>(n)))` is the integer square root of `n` for
every `n` below 2^52: such an `n` is held exactly by a `double`, and the correctly rounded
root of a number that is not a square stays below the next integer.  From 2^52 on the
rounding of `double` can reach the next integer; the embedding gives no answer there. -/
def is_prime (number : Int) : Option Bool :=
  if number > 2 then
    if number % 2 = 0 then some false
    else if 4503599627370496 ≤ number then none
    else
      is_prime_loop number.natAbs (Nat.sqrt number.natAbs) (Nat.sqrt number.natAbs) 3
  else if number = 0 ∨ number = 1 then some false
  else some true

/-- The state of a `number_source`. -/
structure number_source where
  sequence_ : Int
  step_ : Int
  last_ : Int
  first_ : Int
deriving DecidableEq

/-- The constructor `number_source(first, last, step)`. -/
def number_source.create (first last step : Int) : number_source :=
  { sequence_ := 0, first_ := first, last_ := last, step_ := step }

/-- The member function `number_source::setup_key`: `key = sequence_++;
return (key * step_ <= last_);`.  It answers the value returned, the key handed out and the
new state. -/
def setup_key (src : number_source) : Option (Bool × Int × number_source) :=
  match long_value (src.sequence_ + 1), long_value (src.sequence_ * src.step_) with
  | some next, some product =>
    some (decide (product ≤ src.last_), src.sequence_, { src with sequence_ := next })
  | _, _ => none

/-- The result of `n` successive calls of `setup_key`: the value returned and the key handed
out by each call, and the state after the last one. -/
def setup_keys : Nat → number_source → Option (List (Bool × Int) × number_source)
  | 0, src => some ([], src)
  | n + 1, src =>
    match setup_key src with
    | none => none
    | some (b, key, src1) =>
      match setup_keys n src1 with
      | none => none
      | some (rs, src2) => some ((b, key) :: rs, src2)

/-- The member function `number_source::get_data`: `val.first = first_ + (key * step_);
val.second = std::min(val.first + step_ - 1, last_);`.  It answers the value returned, the
range stored in `value` and the state it leaves. -/
def get_data (src : number_source) (key : Int) : Option (Bool × (Int × Int) × number_source) :=
  match long_value (key * src.step_) with
  | none => none
  | some product =>
    match long_value (src.first_ + product) with
    | none => none
    | some val_first =>
      match long_value (val_first + src.step_) with
      | none => none
      | some sum =>
        match long_value (sum - 1) with
        | none => none
        | some upper => some (true, (val_first, min upper src.last_), src)

/-- The loop `for (key_type loop=value.first; loop<=value.second; ++loop)` of
`map_task::operator()`, entered with the current value of `loop`: the pairs passed to
`emit_intermediate`, in order. -/
def map_task_loop (second : Int) : Nat → Int → List (Option Bool × Int)
  | 0, _ => []
  | fuel + 1, loop =>
    if loop ≤ second then (is_prime loop, loop) :: map_task_loop second fuel (loop + 1)
    else []

/-- The call of `map_task::operator()` on a range: the fuel is the number of values from
`value.first` to `value.second`, which the loop uses up exactly. -/
def map_task (value : Int × Int) : List (Option Bool × Int) :=
  map_task_loop value.2 (value.2 - value.1 + 1).toNat value.1

/-! ## Deleting files -/

theorem delete_file_ok (env : Env) (w : World) (p : Path) :
    ∃ b, (delete_file env w p).1 = .ok b := by
  unfold delete_file
  split
  · exact ⟨true, rfl⟩
  · split
    · exact ⟨_, rfl⟩
    · exact ⟨false, rfl⟩

theorem delete_file_removes (env : Env) (w : World) (p : Path) :
    (delete_file env w p).2.removes = w.removes ++ (if p = [] then [] else [p]) := by
  unfold delete_file
  cases p with
  | nil => simp
  | cons c cs =>
    simp only [List.isEmpty_cons, Bool.false_eq_true, if_false, reduceCtorEq]
    have hr : (remove env w (c :: cs)).2.removes = w.removes ++ [c :: cs] := by
      unfold remove
      simp only
      split
      · rfl
      · split <;> rfl
    split
    · rename_i h; rw [h] at hr; exact hr
    · rename_i h; rw [h] at hr; exact hr

theorem delete_file_disk (env : Env) (w : World) (p q : Path) :
    (delete_file env w p).2.disk q = w.disk q ∨ ((delete_file env w p).2.disk q = none ∧ q = p) := by
  unfold delete_file
  split
  · left; rfl
  · have hr : (remove env w p).2.disk q = w.disk q ∨ ((remove env w p).2.disk q = none ∧ q = p) := by
      unfold remove
      simp only
      split
      · left; rfl
      · split
        · left; rfl
        · by_cases hq : q = p
          · right; subst hq; simp
          · left; simp [Function.update, hq]
    split
    · rename_i h; rw [h] at hr; exact hr
    · rename_i h; rw [h] at hr; exact hr

theorem delete_file_gone (env : Env) (w : World) (p : Path) (hp : p ≠ []) (hf : env.remove_fails p = false) :
    (delete_file env w p).2.disk p = none := by
  unfold delete_file remove
  cases p with
  | nil => exact absurd rfl hp
  | cons c cs =>
    simp only [List.isEmpty_cons, Bool.false_eq_true, if_false, hf]
    cases h : w.disk (c :: cs) with
    | none => simpa using h
    | some x => simp

theorem for_each_delete_file_spec (env : Env) (ps : List Path) (w : World) :
    (for_each_delete_file env ps w).1 = .ok () ∧
    (for_each_delete_file env ps w).2.removes = w.removes ++ ps.filter (fun p => !p.isEmpty) ∧
    (∀ q, (for_each_delete_file env ps w).2.disk q = w.disk q ∨
      ((for_each_delete_file env ps w).2.disk q = none ∧ q ∈ ps)) ∧
    (∀ q ∈ ps, q ≠ [] → env.remove_fails q = false → (for_each_delete_file env ps w).2.disk q = none) := by
  induction ps generalizing w with
  | nil => simp [for_each_delete_file]
  | cons p ps ih =>
    obtain ⟨b, hb⟩ := delete_file_ok env w p
    have hrm := delete_file_removes env w p
    have hdk := delete_file_disk env w p
    have hgone := delete_file_gone env w p
    have hstep : for_each_delete_file env (p :: ps) w = for_each_delete_file env ps (delete_file env w p).2 := by
      rw [for_each_delete_file]
      generalize delete_file env w p = r at hb
      obtain ⟨r1, r2⟩ := r
      simp only at hb
      subst hb
      rfl
    rw [hstep]
    obtain ⟨h1, h2, h3, h4⟩ := ih (delete_file env w p).2
    refine ⟨h1, ?_, ?_, ?_⟩
    · rw [h2, hrm]
      cases p <;> simp
    · intro q
      rcases h3 q with h | ⟨h, hq⟩
      · rcases hdk q with h' | ⟨h', hq'⟩
        · left; rw [h, h']
        · right; exact ⟨by rw [h, h'], by simp [hq']⟩
      · right; exact ⟨h, List.mem_cons_of_mem _ hq⟩
    · intro q hq hne hf
      rcases h3 q with h | ⟨h, _⟩
      · rcases List.mem_cons.mp hq with rfl | hq'
        · rw [h]; exact hgone hne hf
        · exact h4 q hq' hne hf
      · exact h


/-! ## The merge depends on the addresses through their order only -/

theorem pair_lt_at_address {n : Nat} {a b : Nat → Nat} (h : same_order n a b)
    (x y : Nat × ifstream × List Char) (hx : x.1 < n) (hy : y.1 < n) :
    pair_lt (at_address a x) (at_address a y) = pair_lt (at_address b x) (at_address b y) := by
  simp only [pair_lt, at_address]
  have h1 := h x.1 y.1 hx hy
  have h2 := h y.1 x.1 hy hx
  simp only [h1, h2]

theorem min_element_from_congr {α β : Type} (less : α → α → Bool) (f g : β → α) :
    ∀ (l : List β) (best : β) (s i : Nat),
      (∀ x ∈ best :: l, ∀ y ∈ best :: l, less (f x) (f y) = less (g x) (g y)) →
      min_element_from less (l.map f) (f best) s i = min_element_from less (l.map g) (g best) s i := by
  intro l
  induction l with
  | nil => intro best s i _; rfl
  | cons x xs ih =>
    intro best s i h
    simp only [List.map_cons, min_element_from]
    rw [h x (by simp) best (by simp)]
    split
    · apply ih
      intro u hu v hv
      exact h u (by simp at hu ⊢; tauto) v (by simp at hv ⊢; tauto)
    · apply ih
      intro u hu v hv
      exact h u (by simp at hu ⊢; tauto) v (by simp at hv ⊢; tauto)

theorem select_line_congr {n : Nat} {a b : Nat → Nat} (h : same_order n a b)
    (l : List (Nat × ifstream × List Char)) (hl : ∀ x ∈ l, x.1 < n) :
    select_line (l.map (at_address a)) = select_line (l.map (at_address b)) := by
  unfold select_line
  simp only [List.length_map]
  split
  · rfl
  · cases l with
    | nil => rfl
    | cons x xs =>
      simp only [List.map_cons, min_element]
      apply min_element_from_congr
      intro u hu v hv
      exact pair_lt_at_address h u v (hl u hu) (hl v hv)

theorem map_eraseIdx {α β : Type} (f : α → β) :
    ∀ (l : List α) (i : Nat), (l.map f).eraseIdx i = (l.eraseIdx i).map f := by
  intro l
  induction l with
  | nil => intro i; rfl
  | cons x xs ih =>
    intro i
    cases i with
    | zero => rfl
    | succ i => simp only [List.map_cons, List.eraseIdx_cons_succ, ih]

theorem merge_loop_nil (select : List file_line → Nat) (fuel : Nat) (written : List (List Char)) :
    merge_loop select fuel [] written = some written := by
  cases fuel <;> rfl

theorem merge_loop_step (select : List file_line → Nat) (fuel : Nat) (fl : List file_line)
    (written : List (List Char)) (hne : fl ≠ []) :
    merge_loop select (fuel + 1) fl written =
      match fl[select fl]? with
      | none => none
      | some e =>
        if (getline e.file e.line).1.eofbit then
          merge_loop select fuel (fl.eraseIdx (select fl)) (written ++ [e.line])
        else
          merge_loop select fuel
            (fl.set (select fl)
              { ptr := e.ptr, file := (getline e.file e.line).1, line := (getline e.file e.line).2 })
            (written ++ [e.line]) := by
  cases fl with
  | nil => exact absurd rfl hne
  | cons e0 es =>
    simp only [merge_loop, List.get?_eq_getElem?]

theorem merge_loop_congr {n : Nat} {a b : Nat → Nat} (h : same_order n a b) :
    ∀ (fuel : Nat) (l : List (Nat × ifstream × List Char)) (written : List (List Char)),
      (∀ x ∈ l, x.1 < n) →
      merge_loop select_line fuel (l.map (at_address a)) written =
        merge_loop select_line fuel (l.map (at_address b)) written := by
  intro fuel
  induction fuel with
  | zero =>
    intro l written _
    cases l <;> rfl
  | succ fuel ih =>
    intro l written hl
    by_cases hne : l = []
    · subst hne; rfl
    · rw [merge_loop_step _ _ _ _ (by simpa using hne), merge_loop_step _ _ _ _ (by simpa using hne),
        select_line_congr h l hl]
      generalize select_line (l.map (at_address b)) = i
      rw [List.getElem?_map, List.getElem?_map]
      cases hget : l[i]? with
      | none => rfl
      | some e =>
        have hmem : e ∈ l := List.getElem?_mem hget
        simp only [Option.map_some']
        have hfile : (at_address a e).file = (at_address b e).file := rfl
        have hline : (at_address a e).line = (at_address b e).line := rfl
        rw [hfile, hline]
        split
        · rw [map_eraseIdx, map_eraseIdx]
          apply ih
          intro x hx
          exact hl x (List.mem_of_mem_eraseIdx hx)
        · have ha : ∀ (c : Nat → Nat) (f : ifstream) (s : List Char),
              ({ ptr := (at_address c e).ptr, file := f, line := s } : file_line)
                = at_address c (e.1, f, s) := fun _ _ _ => rfl
          rw [ha, ha, ← List.map_set, ← List.map_set]
          apply ih
          intro x hx
          rcases List.mem_or_eq_of_mem_set hx with hx | rfl
          · exact hl x hx
          · exact hl e hmem
theorem open_files_congr (env : Env) (build : Build) (w : World) {n : Nat} (a b : Nat → Nat) :
    ∀ (ps : List Path) (pos : Nat) (l : List (Nat × ifstream × List Char)),
      (∀ x ∈ l, x.1 < n) → pos + ps.length ≤ n →
      ∃ (l1 : List (Nat × ifstream × List Char)) (rest : List Path) (pos1 : Nat),
        open_files env build a w ps pos (l.map (at_address a)) = (l1.map (at_address a), rest, pos1) ∧
        open_files env build b w ps pos (l.map (at_address b)) = (l1.map (at_address b), rest, pos1) ∧
        (∀ x ∈ l1, x.1 < n) ∧ pos1 + rest.length ≤ n := by
  intro ps
  induction ps with
  | nil =>
    intro pos l hl hn
    exact ⟨l, [], pos, rfl, rfl, hl, hn⟩
  | cons p ps ih =>
    intro pos l hl hn
    simp only [open_files, List.length_map]
    split
    · exact ⟨l, p :: ps, pos, rfl, rfl, hl, hn⟩
    · split
      · exact ⟨l, p :: ps, pos, rfl, rfl, hl, hn⟩
      · have hpos : pos < n := by simp only [List.length_cons] at hn; omega
        have hl1 : ∀ x ∈ l ++ [(pos, (getline (ifstream_open env w p) []).1,
            (getline (ifstream_open env w p) []).2)], x.1 < n := by
          intro x hx
          rcases List.mem_append.mp hx with hx | hx
          · exact hl x hx
          · simp only [List.mem_singleton] at hx
            subst hx
            exact hpos
        obtain ⟨l1, rest, pos1, h1, h2, h3, h4⟩ := ih (pos + 1) _ hl1
          (by simp only [List.length_cons] at hn; omega)
        refine ⟨l1, rest, pos1, ?_, ?_, h3, h4⟩
        · rw [← h1]; simp [at_address]
        · rw [← h2]; simp [at_address]

theorem do_file_merge_loop_congr (env : Env) (build : Build) (w : World) {n : Nat}
    {a b : Nat → Nat} (h : same_order n a b) :
    ∀ (fuel : Nat) (ps : List Path) (count pos : Nat) (written : List (List Char)),
      pos + ps.length ≤ n →
      do_file_merge_loop env build a w fuel ps count pos written =
        do_file_merge_loop env build b w fuel ps count pos written := by
  intro fuel
  induction fuel with
  | zero =>
    intro ps count pos written _
    cases ps <;> rfl
  | succ fuel ih =>
    intro ps count pos written hn
    cases ps with
    | nil => rfl
    | cons p ps =>
      simp only [do_file_merge_loop]
      split
      · rfl
      · obtain ⟨l1, rest, pos1, h1, h2, h3, h4⟩ :=
          open_files_congr env build w a b (p :: ps) pos [] (by simp) hn
        simp only [List.map_nil] at h1 h2
        rw [h1, h2]
        simp only
        rw [merge_loop_congr h fuel l1 written h3]
        split
        · rfl
        · exact ih _ _ _ _ h4

theorem do_file_merge_congr (env : Env) (build : Build) {n : Nat} {a b : Nat → Nat}
    (h : same_order n a b) (fuel : Nat) (files : List Path) (outfilename : Path) (w : World)
    (hn : files.length ≤ n) :
    do_file_merge env build a fuel files outfilename w =
      do_file_merge env build b fuel files outfilename w := by
  unfold do_file_merge
  simp only
  rw [do_file_merge_loop_congr env build _ h fuel files 0 0 [] (by omega)]

theorem merge_sort_congr {R : Type} (env : Env) (build : Build) (ops : RecordOps R)
    (tmp : Nat → Path) {n : Nat} {a b : Nat → Nat} (h : same_order n a b) (fuel : Nat)
    (inp out : Path) (max_lines : Nat) (w : World)
    (hn : (read_loop env ops tmp max_lines fuel (ifstream_open env w inp)
      { world := w, temporary_files := [], names := 0 }).2.temporary_files.length ≤ n) :
    merge_sort env build ops tmp a fuel inp out max_lines w =
      merge_sort env build ops tmp b fuel inp out max_lines w := by
  have hbody : merge_sort_body env build ops tmp a fuel inp out max_lines w =
      merge_sort_body env build ops tmp b fuel inp out max_lines w := by
    unfold merge_sort_body
    simp only
    split
    · rfl
    · split
      · rfl
      · rename_i st hst
        rw [hst] at hn
        simp only at hn
        rw [do_file_merge_congr env build h fuel st.temporary_files out st.world hn]
  unfold merge_sort
  rw [hbody]

theorem same_order_rank (n : Nat) (a : Nat → Nat) :
    same_order n a (fun i => ((Finset.range n).filter (fun k => a k < a i)).card) := by
  intro i j hi hj
  simp only
  constructor
  · intro hlt
    apply Finset.card_lt_card
    rw [Finset.ssubset_iff_of_subset]
    · exact ⟨i, by simp [hi, hlt], by simp⟩
    · intro k hk
      simp only [Finset.mem_filter, Finset.mem_range] at hk ⊢
      exact ⟨hk.1, by omega⟩
  · intro hlt
    by_contra hnot
    have hle : a j ≤ a i := by omega
    have : ((Finset.range n).filter (fun k => a k < a j)).card ≤
        ((Finset.range n).filter (fun k => a k < a i)).card := by
      apply Finset.card_le_card
      intro k hk
      simp only [Finset.mem_filter, Finset.mem_range] at hk ⊢
      exact ⟨hk.1, by omega⟩
    omega

theorem rank_lt (n : Nat) (a : Nat → Nat) (i : Nat) (hi : i < n) :
    ((Finset.range n).filter (fun k => a k < a i)).card < n := by
  have h1 : ((Finset.range n).filter (fun k => a k < a i)) ⊂ Finset.range n := by
    rw [Finset.ssubset_iff_of_subset (Finset.filter_subset _ _)]
    exact ⟨i, by simp [hi], by simp⟩
  have := Finset.card_lt_card h1
  simpa using this

theorem same_order_trans {n : Nat} {a b c : Nat → Nat} (h1 : same_order n a b)
    (h2 : same_order n b c) : same_order n a c :=
  fun i j hi hj => (h1 i j hi hj).trans (h2 i j hi hj)

/-- Every assignment of addresses to two positions orders them like one with values
below 2. -/
theorem same_order_two (a : Nat → Nat) :
    ∃ r0, r0 < 2 ∧ ∃ r1, r1 < 2 ∧ same_order 2 a (addresses [r0, r1]) := by
  refine ⟨_, rank_lt 2 a 0 (by omega), _, rank_lt 2 a 1 (by omega), ?_⟩
  apply same_order_trans (same_order_rank 2 a)
  intro i j hi hj
  interval_cases i <;> interval_cases j <;> simp [addresses]

/-- Every assignment of addresses to three positions orders them like one with values
below 3. -/
theorem same_order_three (a : Nat → Nat) :
    ∃ r0, r0 < 3 ∧ ∃ r1, r1 < 3 ∧ ∃ r2, r2 < 3 ∧
      same_order 3 a (addresses [r0, r1, r2]) := by
  refine ⟨_, rank_lt 3 a 0 (by omega), _, rank_lt 3 a 1 (by omega), _,
    rank_lt 3 a 2 (by omega), ?_⟩
  apply same_order_trans (same_order_rank 3 a)
  intro i j hi hj
  interval_cases i <;> interval_cases j <;> simp [addresses]

/-! ## The temporary file manager -/

/-- C8.  Destroying the temporary file manager never fails and never stops early: whatever
the list of owned paths and whatever each deletion does (the environment decides which
removals raise an error, the disk which paths are absent), no exception leaves the
destructor, `boost::filesystem::remove` is attempted on every non-empty path of the list in
order, also after one whose removal failed, and every owned path whose removal does not
fail is gone afterwards.  `delete_file` itself never throws, and returns `true` for an
empty path name without touching anything. -/
theorem temporary_file_manager_never_fails (env : Env) (filenames : List Path) (w : World) :
    (temporary_file_manager_destroy env filenames w).1 = .ok () ∧
    (temporary_file_manager_destroy env filenames w).2.removes =
      w.removes ++ filenames.filter (fun p => !p.isEmpty) ∧
    (∀ q ∈ filenames, q ≠ [] → env.remove_fails q = false →
      (temporary_file_manager_destroy env filenames w).2.disk q = none) ∧
    (∀ p, ∃ b, (delete_file env w p).1 = .ok b) ∧
    delete_file env w [] = (.ok true, w) := by
  obtain ⟨h1, h2, _, h4⟩ := for_each_delete_file_spec env filenames w
  have hd : (temporary_file_manager_destroy env filenames w).2 =
      (for_each_delete_file env filenames w).2 := by
    unfold temporary_file_manager_destroy
    split <;> rename_i h <;> rw [h]
  refine ⟨?_, ?_, ?_, ?_, rfl⟩
  · unfold temporary_file_manager_destroy
    split <;> rfl
  · rw [hd]; exact h2
  · rw [hd]; exact h4
  · exact fun p => delete_file_ok env w p

/-! ## Failure to open the input -/

/-- C9.  When the input path cannot be opened for reading (no such file, or it is not
readable), `merge_sort` throws the exception "Unable to open file"; it has asked for no
temporary name, and it leaves the world exactly as it found it: no file is created,
modified or removed, the one at the output path included, and no removal is attempted. -/
theorem merge_sort_input_open_failure {R : Type} (env : Env) (build : Build)
    (ops : RecordOps R) (tmp : Nat → Path) (addr : Nat → Nat) (fuel : Nat) (inp out : Path)
    (max_lines : Nat) (w : World) (h : w.disk inp = none ∨ env.readable inp = false) :
    merge_sort env build ops tmp addr fuel inp out max_lines w
      = (.threw .unable_to_open_file, w) ∧
    temporary_paths env build ops tmp addr fuel inp out max_lines w = [] := by
  have hopen : (ifstream_open env w inp).is_open = false := by
    unfold ifstream_open
    rcases h with h | h
    · rw [h]; rfl
    · cases w.disk inp <;> simp [h, not_opened]
  have hbody : merge_sort_body env build ops tmp addr fuel inp out max_lines w =
      (.threw .unable_to_open_file, { world := w, temporary_files := [], names := 0 }) := by
    unfold merge_sort_body
    simp [hopen]
  constructor
  · unfold merge_sort
    rw [hbody]
    rfl
  · unfold temporary_paths
    rw [hbody]
    rfl

/-- An instance of `merge_sort_input_open_failure`: sorting a file that does not exist on an
empty disk. -/
theorem merge_sort_input_open_failure_witness :
    ((disk_of []).disk ['i', 'n'] = none ∨ no_faults.readable ['i', 'n'] = false) ∧
    merge_sort no_faults release int_record run_name id 32 ['i', 'n'] ['o', 'u', 't'] 2
        (disk_of []) = (.threw .unable_to_open_file, disk_of []) ∧
    temporary_paths no_faults release int_record run_name id 32 ['i', 'n'] ['o', 'u', 't'] 2
        (disk_of []) = [] :=
  ⟨Or.inl rfl, merge_sort_input_open_failure no_faults release int_record run_name id 32
    ['i', 'n'] ['o', 'u', 't'] 2 (disk_of []) (Or.inl rfl)⟩

/-! ## The merge follows the addresses, not the lines -/

theorem same_order_ne {n : Nat} {a b : Nat → Nat} (h : same_order n a b) {i j : Nat}
    (hi : i < n) (hj : j < n) (hne : a i ≠ a j) : b i ≠ b j := by
  have h1 := h i j hi hj
  have h2 := h j i hj hi
  omega

set_option maxRecDepth 100000 in
theorem sort_2121_by_two_small : ∀ r0, r0 < 2 → ∀ r1, r1 < 2 → r0 ≠ r1 →
    (merge_sort no_faults release int_record run_name (addresses [r0, r1]) 32 ['i', 'n']
      ['o', 'u', 't'] 2 (disk_of [(['i', 'n'], "2\r1\r2\r1".toList)])).1 = .returned true ∧
    (merge_sort no_faults release int_record run_name (addresses [r0, r1]) 32 ['i', 'n']
      ['o', 'u', 't'] 2 (disk_of [(['i', 'n'], "2\r1\r2\r1".toList)])).2.disk ['o', 'u', 't']
        = some "1\r2\r1\r2\r".toList := by
  decide

/-- The outcome and the output of sorting `"2\r1\r2\r1"` two lines at a time, for any two
distinct addresses of the two stream objects. -/
theorem sort_2121_by_two (addr : Nat → Nat) (h : addr 0 ≠ addr 1) :
    (merge_sort no_faults release int_record run_name addr 32 ['i', 'n']
      ['o', 'u', 't'] 2 (disk_of [(['i', 'n'], "2\r1\r2\r1".toList)])).1 = .returned true ∧
    (merge_sort no_faults release int_record run_name addr 32 ['i', 'n']
      ['o', 'u', 't'] 2 (disk_of [(['i', 'n'], "2\r1\r2\r1".toList)])).2.disk ['o', 'u', 't']
        = some "1\r2\r1\r2\r".toList := by
  obtain ⟨r0, h0, r1, h1, hso⟩ := same_order_two addr
  have hne : r0 ≠ r1 := same_order_ne hso (by omega) (by omega) h
  rw [merge_sort_congr no_faults release int_record run_name hso 32 _ _ 2 _ (by decide)]
  exact sort_2121_by_two_small r0 h0 r1 h1 hne

/-- C1 (fails on the code).  Sorting the file `"2\r1\r2\r1"` of integer records with
`max_lines = 2` produces two runs, both `"1\r2\r"`.  Whatever the two (distinct) addresses
of the stream objects are, `merge_sort` returns `true` and leaves `"1\r2\r1\r2\r"` at the
output path: the records read back are 1, 2, 1, 2, which is not non-decreasing. -/
theorem merge_sort_output_not_sorted (addr : Nat → Nat) (h : addr 0 ≠ addr 1) :
    (merge_sort no_faults release int_record run_name addr 32 ['i', 'n']
      ['o', 'u', 't'] 2 (disk_of [(['i', 'n'], "2\r1\r2\r1".toList)])).1 = .returned true ∧
    (merge_sort no_faults release int_record run_name addr 32 ['i', 'n']
      ['o', 'u', 't'] 2 (disk_of [(['i', 'n'], "2\r1\r2\r1".toList)])).2.disk ['o', 'u', 't']
        = some "1\r2\r1\r2\r".toList ∧
    parse_file int_record "1\r2\r1\r2\r".toList = [1, 2, 1, 2] ∧
    non_decreasing int_record (parse_file int_record "1\r2\r1\r2\r".toList) = false :=
  ⟨(sort_2121_by_two addr h).1, (sort_2121_by_two addr h).2, by decide, by decide⟩

/-- The instance of `merge_sort_output_not_sorted` where the first stream object has the
lower address. -/
theorem merge_sort_output_not_sorted_witness :
    addresses [0, 1] 0 ≠ addresses [0, 1] 1 ∧
    (merge_sort no_faults release int_record run_name (addresses [0, 1]) 32 ['i', 'n']
      ['o', 'u', 't'] 2 (disk_of [(['i', 'n'], "2\r1\r2\r1".toList)])).1 = .returned true ∧
    (merge_sort no_faults release int_record run_name (addresses [0, 1]) 32 ['i', 'n']
      ['o', 'u', 't'] 2 (disk_of [(['i', 'n'], "2\r1\r2\r1".toList)])).2.disk ['o', 'u', 't']
        = some "1\r2\r1\r2\r".toList ∧
    parse_file int_record "1\r2\r1\r2\r".toList = [1, 2, 1, 2] ∧
    non_decreasing int_record (parse_file int_record "1\r2\r1\r2\r".toList) = false :=
  ⟨by decide, merge_sort_output_not_sorted (addresses [0, 1]) (by decide)⟩

set_option maxRecDepth 100000 in
theorem example_5331_small : ∀ r0, r0 < 3 → ∀ r1, r1 < 3 → ∀ r2, r2 < 3 →
    (merge_sort no_faults release int_record run_name (addresses [r0, r1, r2]) 32
      ['i', 'n'] ['o', 'u', 't'] 2 (disk_of [(['i', 'n'], "5\r3\r3\r1\r".toList)])).1
        = .returned true ∧
    (merge_sort no_faults release int_record run_name (addresses [r0, r1, r2]) 32
      ['i', 'n'] ['o', 'u', 't'] 2 (disk_of [(['i', 'n'], "5\r3\r3\r1\r".toList)])).2.disk
        ['o', 'u', 't'] ≠ some "1\r3\r3\r5\r".toList := by
  decide

/-- C3 (fails on the code).  On the input `"5\r3\r3\r1\r"` with `max_lines = 2` and integer
records, the reading loop of `merge_sort` ends normally after creating three run files, not
two: `"3\r5\r"`, `"1\r3\r"` and an empty one, because end of file is only noticed by the
read that follows the last delimiter.  Whatever the addresses of the stream objects,
`merge_sort` then returns `true` with an output that is not `"1\r3\r3\r5\r"`; with
increasing addresses the output is `"3\r5\r1\r3\r\r"`. -/
theorem worked_example_three_runs (addr : Nat → Nat) :
    (read_loop no_faults int_record run_name 2 32
      (ifstream_open no_faults (disk_of [(['i', 'n'], "5\r3\r3\r1\r".toList)]) ['i', 'n'])
      { world := disk_of [(['i', 'n'], "5\r3\r3\r1\r".toList)], temporary_files := [],
        names := 0 }).1 = none ∧
    (read_loop no_faults int_record run_name 2 32
      (ifstream_open no_faults (disk_of [(['i', 'n'], "5\r3\r3\r1\r".toList)]) ['i', 'n'])
      { world := disk_of [(['i', 'n'], "5\r3\r3\r1\r".toList)], temporary_files := [],
        names := 0 }).2.temporary_files = [run_name 0, run_name 1, run_name 2] ∧
    [run_name 0, run_name 1, run_name 2].map (read_loop no_faults int_record run_name 2 32
      (ifstream_open no_faults (disk_of [(['i', 'n'], "5\r3\r3\r1\r".toList)]) ['i', 'n'])
      { world := disk_of [(['i', 'n'], "5\r3\r3\r1\r".toList)], temporary_files := [],
        names := 0 }).2.world.disk
        = [some "3\r5\r".toList, some "1\r3\r".toList, some []] ∧
    (merge_sort no_faults release int_record run_name addr 32
      ['i', 'n'] ['o', 'u', 't'] 2 (disk_of [(['i', 'n'], "5\r3\r3\r1\r".toList)])).1
        = .returned true ∧
    (merge_sort no_faults release int_record run_name addr 32
      ['i', 'n'] ['o', 'u', 't'] 2 (disk_of [(['i', 'n'], "5\r3\r3\r1\r".toList)])).2.disk
        ['o', 'u', 't'] ≠ some "1\r3\r3\r5\r".toList ∧
    (merge_sort no_faults release int_record run_name (addresses [0, 1, 2]) 32
      ['i', 'n'] ['o', 'u', 't'] 2 (disk_of [(['i', 'n'], "5\r3\r3\r1\r".toList)])).2.disk
        ['o', 'u', 't'] = some "3\r5\r1\r3\r\r".toList := by
  obtain ⟨r0, h0, r1, h1, r2, h2, hso⟩ := same_order_three addr
  rw [merge_sort_congr no_faults release int_record run_name hso 32 _ _ 2 _ (by decide)]
  exact ⟨by decide, by decide, by decide, (example_5331_small r0 h0 r1 h1 r2 h2).1,
    (example_5331_small r0 h0 r1 h1 r2 h2).2, by decide⟩

set_option maxRecDepth 100000 in
theorem merge_two_equal_runs_small : ∀ r0, r0 < 2 → ∀ r1, r1 < 2 → r0 ≠ r1 →
    (do_file_merge no_faults release (addresses [r0, r1]) 32 [run_name 0, run_name 1]
      ['o', 'u', 't']
      (disk_of [(run_name 0, "a\rb\r".toList), (run_name 1, "a\rb\r".toList)])).1
        = .returned true ∧
    (do_file_merge no_faults release (addresses [r0, r1]) 32 [run_name 0, run_name 1]
      ['o', 'u', 't']
      (disk_of [(run_name 0, "a\rb\r".toList), (run_name 1, "a\rb\r".toList)])).2.disk
        ['o', 'u', 't'] = some "a\rb\ra\rb\r".toList := by
  decide

/-- C4 (fails on the code).  `operator<` of the pairs in `file_lines` looks at the addresses
first: of two elements with different addresses the one at the lower address is the smaller,
whatever the buffered lines are.  Merging the two run files `"a\rb\r"` and `"a\rb\r"`, each
sorted textually, `do_file_merge` therefore writes `"b"` at its second step while `"a"` is
buffered for the other file, and the output `"a\rb\ra\rb\r"` is not sorted textually. -/
theorem do_file_merge_not_textual_minimum (addr : Nat → Nat) (h : addr 0 ≠ addr 1) :
    (∀ x y : file_line, x.ptr < y.ptr → pair_lt x y = true ∧ pair_lt y x = false) ∧
    textually_sorted (split_lines "a\rb\r".toList) = true ∧
    (do_file_merge no_faults release addr 32 [run_name 0, run_name 1] ['o', 'u', 't']
      (disk_of [(run_name 0, "a\rb\r".toList), (run_name 1, "a\rb\r".toList)])).1
        = .returned true ∧
    (do_file_merge no_faults release addr 32 [run_name 0, run_name 1] ['o', 'u', 't']
      (disk_of [(run_name 0, "a\rb\r".toList), (run_name 1, "a\rb\r".toList)])).2.disk
        ['o', 'u', 't'] = some "a\rb\ra\rb\r".toList ∧
    textually_sorted (split_lines "a\rb\ra\rb\r".toList) = false := by
  obtain ⟨r0, h0, r1, h1, hso⟩ := same_order_two addr
  have hne : r0 ≠ r1 := same_order_ne hso (by omega) (by omega) h
  rw [do_file_merge_congr no_faults release hso 32 _ _ _ (by decide)]
  refine ⟨?_, by decide, (merge_two_equal_runs_small r0 h0 r1 h1 hne).1,
    (merge_two_equal_runs_small r0 h0 r1 h1 hne).2, by decide⟩
  intro x y hxy
  have hyx : ¬ y.ptr < x.ptr := by omega
  simp [pair_lt, hxy, hyx]

/-- The instance of `do_file_merge_not_textual_minimum` where the first stream object has
the higher address. -/
theorem do_file_merge_not_textual_minimum_witness :
    addresses [1, 0] 0 ≠ addresses [1, 0] 1 ∧
    (∀ x y : file_line, x.ptr < y.ptr → pair_lt x y = true ∧ pair_lt y x = false) ∧
    textually_sorted (split_lines "a\rb\r".toList) = true ∧
    (do_file_merge no_faults release (addresses [1, 0]) 32 [run_name 0, run_name 1]
      ['o', 'u', 't']
      (disk_of [(run_name 0, "a\rb\r".toList), (run_name 1, "a\rb\r".toList)])).1
        = .returned true ∧
    (do_file_merge no_faults release (addresses [1, 0]) 32 [run_name 0, run_name 1]
      ['o', 'u', 't']
      (disk_of [(run_name 0, "a\rb\r".toList), (run_name 1, "a\rb\r".toList)])).2.disk
        ['o', 'u', 't'] = some "a\rb\ra\rb\r".toList ∧
    textually_sorted (split_lines "a\rb\ra\rb\r".toList) = false :=
  ⟨by decide, do_file_merge_not_textual_minimum (addresses [1, 0]) (by decide)⟩

set_option maxRecDepth 100000 in
theorem sort_2121_by_four_small : ∀ r0, r0 < 2 → ∀ r1, r1 < 2 →
    (merge_sort no_faults release int_record run_name (addresses [r0, r1]) 32 ['i', 'n']
      ['o', 'u', 't'] 4 (disk_of [(['i', 'n'], "2\r1\r2\r1".toList)])).1 = .returned true ∧
    (merge_sort no_faults release int_record run_name (addresses [r0, r1]) 32 ['i', 'n']
      ['o', 'u', 't'] 4 (disk_of [(['i', 'n'], "2\r1\r2\r1".toList)])).2.disk ['o', 'u', 't']
        = some "1\r1\r2\r2\r".toList := by
  decide

/-- C5 (fails on the code).  The file `"2\r1\r2\r1"` holds four integer records.  With
`max_lines = 4` the reading loop makes one run and the output is `"1\r1\r2\r2\r"`; with
`max_lines = 2` it makes two runs and the output of the merge is `"1\r2\r1\r2\r"`, whatever
the two (distinct) addresses of the stream objects are.  The two outputs differ. -/
theorem single_run_differs_from_multi_run (addr : Nat → Nat) (h : addr 0 ≠ addr 1) :
    (parse_file int_record "2\r1\r2\r1".toList).length = 4 ∧
    (read_loop no_faults int_record run_name 4 32
      (ifstream_open no_faults (disk_of [(['i', 'n'], "2\r1\r2\r1".toList)]) ['i', 'n'])
      { world := disk_of [(['i', 'n'], "2\r1\r2\r1".toList)], temporary_files := [],
        names := 0 }).2.temporary_files.length = 1 ∧
    (read_loop no_faults int_record run_name 2 32
      (ifstream_open no_faults (disk_of [(['i', 'n'], "2\r1\r2\r1".toList)]) ['i', 'n'])
      { world := disk_of [(['i', 'n'], "2\r1\r2\r1".toList)], temporary_files := [],
        names := 0 }).2.temporary_files.length = 2 ∧
    (merge_sort no_faults release int_record run_name addr 32 ['i', 'n']
      ['o', 'u', 't'] 4 (disk_of [(['i', 'n'], "2\r1\r2\r1".toList)])).1 = .returned true ∧
    (merge_sort no_faults release int_record run_name addr 32 ['i', 'n']
      ['o', 'u', 't'] 4 (disk_of [(['i', 'n'], "2\r1\r2\r1".toList)])).2.disk ['o', 'u', 't']
        = some "1\r1\r2\r2\r".toList ∧
    (merge_sort no_faults release int_record run_name addr 32 ['i', 'n']
      ['o', 'u', 't'] 2 (disk_of [(['i', 'n'], "2\r1\r2\r1".toList)])).1 = .returned true ∧
    (merge_sort no_faults release int_record run_name addr 32 ['i', 'n']
      ['o', 'u', 't'] 2 (disk_of [(['i', 'n'], "2\r1\r2\r1".toList)])).2.disk ['o', 'u', 't']
        = some "1\r2\r1\r2\r".toList ∧
    "1\r1\r2\r2\r".toList ≠ "1\r2\r1\r2\r".toList := by
  obtain ⟨r0, h0, r1, h1, hso⟩ := same_order_two addr
  refine ⟨by decide, by decide, by decide, ?_, ?_, (sort_2121_by_two addr h).1,
    (sort_2121_by_two addr h).2, by decide⟩
  · rw [merge_sort_congr no_faults release int_record run_name hso 32 _ _ 4 _ (by decide)]
    exact (sort_2121_by_four_small r0 h0 r1 h1).1
  · rw [merge_sort_congr no_faults release int_record run_name hso 32 _ _ 4 _ (by decide)]
    exact (sort_2121_by_four_small r0 h0 r1 h1).2

/-- The instance of `single_run_differs_from_multi_run` where the first stream object has
the lower address. -/
theorem single_run_differs_from_multi_run_witness :
    addresses [3, 7] 0 ≠ addresses [3, 7] 1 ∧
    (merge_sort no_faults release int_record run_name (addresses [3, 7]) 32 ['i', 'n']
      ['o', 'u', 't'] 4 (disk_of [(['i', 'n'], "2\r1\r2\r1".toList)])).2.disk ['o', 'u', 't']
        = some "1\r1\r2\r2\r".toList ∧
    (merge_sort no_faults release int_record run_name (addresses [3, 7]) 32 ['i', 'n']
      ['o', 'u', 't'] 2 (disk_of [(['i', 'n'], "2\r1\r2\r1".toList)])).2.disk ['o', 'u', 't']
        = some "1\r2\r1\r2\r".toList :=
  ⟨by decide,
    (single_run_differs_from_multi_run (addresses [3, 7]) (by decide)).2.2.2.2.1,
    (single_run_differs_from_multi_run (addresses [3, 7]) (by decide)).2.2.2.2.2.2.1⟩

set_option maxRecDepth 100000 in
theorem sort_21_protected_small : ∀ r0, r0 < 2 → ∀ r1, r1 < 2 →
    (merge_sort (write_protected ['o', 'u', 't']) release int_record run_name
      (addresses [r0, r1]) 32 ['i', 'n'] ['o', 'u', 't'] 1
      (disk_of [(['i', 'n'], "2\r1".toList)])).1 = .returned true ∧
    (merge_sort (write_protected ['o', 'u', 't']) release int_record run_name
      (addresses [r0, r1]) 32 ['i', 'n'] ['o', 'u', 't'] 1
      (disk_of [(['i', 'n'], "2\r1".toList)])).2.disk ['o', 'u', 't'] = none := by
  decide

/-- C10 (fails on the code).  The file `"2\r1"` holds the integer records 2 and 1; with
`max_lines = 1` the reading loop makes two runs.  When the output path cannot be opened for
writing, `do_file_merge` still returns `true` and `merge_sort` returns `true` as well,
whatever the addresses of the stream objects: no failure is reported, and there is no file
at the output path. -/
theorem merge_sort_reports_success_without_output (addr : Nat → Nat) :
    parse_file int_record "2\r1".toList = [2, 1] ∧
    (write_protected ['o', 'u', 't']).writable ['o', 'u', 't'] = false ∧
    (merge_sort (write_protected ['o', 'u', 't']) release int_record run_name addr 32
      ['i', 'n'] ['o', 'u', 't'] 1 (disk_of [(['i', 'n'], "2\r1".toList)])).1
        = .returned true ∧
    (merge_sort (write_protected ['o', 'u', 't']) release int_record run_name addr 32
      ['i', 'n'] ['o', 'u', 't'] 1 (disk_of [(['i', 'n'], "2\r1".toList)])).2.disk
        ['o', 'u', 't'] = none := by
  obtain ⟨r0, h0, r1, h1, hso⟩ := same_order_two addr
  rw [merge_sort_congr (write_protected ['o', 'u', 't']) release int_record run_name hso 32
    _ _ 1 _ (by decide)]
  exact ⟨by decide, by decide, (sort_21_protected_small r0 h0 r1 h1).1,
    (sort_21_protected_small r0 h0 r1 h1).2⟩

/-! ## Lines and streams -/

theorem scan_line_some : ∀ (buf l rest : List Char), scan_line buf = (l, some rest) →
    buf = l ++ '\r' :: rest ∧ '\r' ∉ l := by
  intro buf
  induction buf with
  | nil => intro l rest h; simp [scan_line] at h
  | cons c cs ih =>
    intro l rest h
    unfold scan_line at h
    split at h
    · rename_i hc
      simp only [Prod.mk.injEq, Option.some.injEq] at h
      obtain ⟨rfl, rfl⟩ := h
      subst hc
      simp
    · rename_i hc
      simp only [Prod.mk.injEq] at h
      obtain ⟨rfl, h2⟩ := h
      obtain ⟨h3, h4⟩ := ih (scan_line cs).1 rest (by rw [← h2])
      constructor
      · simp only [List.cons_append, List.cons.injEq, true_and]
        exact h3
      · simp only [List.mem_cons, not_or]
        exact ⟨fun h => hc h.symm, h4⟩

theorem scan_line_none : ∀ (buf l : List Char), scan_line buf = (l, none) →
    buf = l ∧ '\r' ∉ l := by
  intro buf
  induction buf with
  | nil => intro l h; simp [scan_line] at h; subst h; simp
  | cons c cs ih =>
    intro l h
    unfold scan_line at h
    split at h
    · simp at h
    · rename_i hc
      simp only [Prod.mk.injEq] at h
      obtain ⟨rfl, h2⟩ := h
      obtain ⟨h3, h4⟩ := ih (scan_line cs).1 (by rw [← h2])
      constructor
      · simp only [List.cons.injEq, true_and]
        exact h3
      · simp only [List.mem_cons, not_or]
        exact ⟨fun h => hc h.symm, h4⟩

theorem scan_line_append (l rest : List Char) (hl : '\r' ∉ l) :
    scan_line (l ++ '\r' :: rest) = (l, some rest) := by
  induction l with
  | nil => simp [scan_line]
  | cons c cs ih =>
    simp only [List.mem_cons, not_or] at hl
    have hc : c ≠ '\r' := fun h => hl.1 h.symm
    rw [List.cons_append, scan_line, if_neg hc, ih hl.2]

theorem split_lines_append (l rest : List Char) (hl : '\r' ∉ l) :
    split_lines (l ++ '\r' :: rest) = l :: split_lines rest := by
  induction l with
  | nil => simp [split_lines]
  | cons c cs ih =>
    simp only [List.mem_cons, not_or] at hl
    have hc : c ≠ '\r' := fun h => hl.1 h.symm
    rw [List.cons_append, split_lines, if_neg hc, ih hl.2]

theorem split_lines_single (l : List Char) (hl : '\r' ∉ l) (hne : l ≠ []) :
    split_lines l = [l] := by
  induction l with
  | nil => exact absurd rfl hne
  | cons c cs ih =>
    simp only [List.mem_cons, not_or] at hl
    have hc : c ≠ '\r' := fun h => hl.1 h.symm
    cases cs with
    | nil => simp [split_lines, hc]
    | cons d ds =>
      rw [split_lines, if_neg hc, ih hl.2 (by simp)]

theorem lines_bytes_cons (l : List Char) (ls : List (List Char)) :
    lines_bytes (l :: ls) = l ++ '\r' :: lines_bytes ls := by
  simp [lines_bytes]

theorem lines_bytes_append (ls ms : List (List Char)) :
    lines_bytes (ls ++ ms) = lines_bytes ls ++ lines_bytes ms := by
  simp [lines_bytes]

theorem split_lines_lines_bytes (ls : List (List Char)) (h : ∀ l ∈ ls, '\r' ∉ l) :
    split_lines (lines_bytes ls) = ls := by
  induction ls with
  | nil => rfl
  | cons l ls ih =>
    rw [lines_bytes_cons, split_lines_append l _ (h l (by simp)),
      ih (fun x hx => h x (List.mem_cons_of_mem _ hx))]

/-- What one call of `getline` takes from a good stream, in terms of the records still to be
read. -/
theorem getline_records {R : Type} (ops : RecordOps R) (s : ifstream)
    (he : s.eofbit = false) (hf : s.failbit = false) :
    parse_file ops s.buf =
      (if (getline s []).2.length > 0 then [ops.extract (getline s []).2] else []) ++
        pending_records ops (getline s []).1 ∧
    ((getline s []).1.eofbit = false →
      (getline s []).1.failbit = false ∧ (getline s []).1.buf.length < s.buf.length) := by
  rcases hscan : scan_line s.buf with ⟨l, _ | rest⟩
  · obtain ⟨hbuf, hl⟩ := scan_line_none _ _ hscan
    have hg : getline s [] = ({ s with buf := [], eofbit := true, failbit := l.isEmpty }, l) := by
      simp [getline, he, hf, hscan]
    rw [hg]
    simp only [pending_records, if_true, List.append_nil]
    constructor
    · rw [hbuf]
      cases l with
      | nil => simp [parse_file, split_lines]
      | cons c cs =>
        simp only [parse_file]
        rw [split_lines_single _ hl (by simp)]
        simp
    · intro h
      simp at h
  · obtain ⟨hbuf, hl⟩ := scan_line_some _ _ _ hscan
    have hg : getline s [] = ({ s with buf := rest }, l) := by
      simp [getline, he, hf, hscan]
    rw [hg]
    simp only [pending_records, he, Bool.false_eq_true, if_false, hf, true_and]
    constructor
    · rw [hbuf]
      simp only [parse_file]
      rw [split_lines_append l rest hl]
      cases l with
      | nil => simp
      | cons c cs => simp
    · intro _
      rw [hbuf]
      simp only [List.length_append, List.length_cons]
      omega

/-! ## The map of a chunk -/

theorem equivalent_congr {R : Type} {ops : RecordOps R} (hswo : StrictWeakOrder ops.lt)
    {k r : R} (h1 : ops.lt r k = false) (h2 : ops.lt k r = false) (x : R) :
    equivalent ops x k = equivalent ops x r := by
  unfold equivalent
  cases hxk1 : ops.lt x k <;> cases hxk2 : ops.lt k x <;>
    cases hxr1 : ops.lt x r <;> cases hxr2 : ops.lt r x <;> simp
  all_goals first
    | exact absurd (hswo.incomp_trans x k r hxk1 hxk2 h2 h1) (by simp [hxr1, hxr2])
    | exact absurd (hswo.incomp_trans x r k hxr1 hxr2 h1 h2) (by simp [hxk1, hxk2])

theorem occurrences_append {R : Type} (ops : RecordOps R) (x : R) (l1 l2 : List R) :
    occurrences ops x (l1 ++ l2) = occurrences ops x l1 + occurrences ops x l2 := by
  simp [occurrences]

theorem occurrences_replicate {R : Type} (ops : RecordOps R) (x k : R) (c : Nat) :
    occurrences ops x (List.replicate c k) = if equivalent ops x k then c else 0 := by
  simp [occurrences, List.countP_replicate]

theorem expand_length_head {R : Type} (k : R) (c : Nat) (rest : List (R × Nat)) :
    (expand ((k, c) :: rest)).length = c + (expand rest).length := by
  simp [expand]

/-- Inserting a record into the map of a chunk adds one occurrence of its equivalence class
and nothing else, as long as no counter wraps around. -/
theorem lines_insert_occurrences {R : Type} {ops : RecordOps R} (hswo : StrictWeakOrder ops.lt)
    (r : R) : ∀ (m : List (R × Nat)), (expand m).length + 1 < 4294967296 →
      (expand (lines_insert ops r m)).length = (expand m).length + 1 ∧
      ∀ x, occurrences ops x (expand (lines_insert ops r m)) =
        occurrences ops x (expand m) + (if equivalent ops x r then 1 else 0) := by
  intro m
  induction m with
  | nil =>
    intro _
    refine ⟨by simp [lines_insert, expand], fun x => ?_⟩
    simp only [lines_insert, expand, occurrences, List.replicate_one, List.append_nil,
      List.countP_cons, List.countP_nil, Nat.zero_add]
  | cons e rest ih =>
    obtain ⟨k, c⟩ := e
    intro hb
    rw [expand_length_head] at hb
    unfold lines_insert shared_ptr_indirect_less
    split
    · constructor
      · simp [expand]
      · intro x
        simp only [expand, List.replicate_one, List.singleton_append]
        simp only [occurrences, List.countP_cons]
        try omega
    · split
      · obtain ⟨ih1, ih2⟩ := ih (by omega)
        constructor
        · simp only [expand, List.length_append, ih1]; omega
        · intro x
          simp only [expand, occurrences_append, ih2 x]
          omega
      · rename_i h1 h2
        have hmod : (c + 1) % 4294967296 = c + 1 := Nat.mod_eq_of_lt (by omega)
        rw [hmod]
        constructor
        · simp only [expand, List.length_append, List.length_replicate]; omega
        · intro x
          simp only [expand, occurrences_append, occurrences_replicate]
          rw [equivalent_congr hswo (by simpa using h1) (by simpa using h2) x]
          split <;> omega

theorem pending_records_of_good {R : Type} (ops : RecordOps R) (s : ifstream)
    (he : s.eofbit = false) : pending_records ops s = parse_file ops s.buf := by
  simp [pending_records, he]

/-- One pass of the inner reading loop: it does not throw, it moves records from the stream
into the map of the chunk without changing how often each equivalence class occurs, and it
either reaches the end of the stream or shortens what is left of it. -/
theorem read_chunk_spec {R : Type} {ops : RecordOps R} (hswo : StrictWeakOrder ops.lt) :
    ∀ (n : Nat) (s : ifstream) (m : List (R × Nat)),
      (s.eofbit = false → s.failbit = false) → (expand m).length + n < 4294967296 →
      ∃ s1 m1, read_chunk ops n s m = some (s1, m1) ∧
        (s1.eofbit = false → s1.failbit = false) ∧
        (expand m1).length ≤ (expand m).length + n ∧
        (∀ x, occurrences ops x (expand m1) + occurrences ops x (pending_records ops s1) =
          occurrences ops x (expand m) + occurrences ops x (pending_records ops s)) ∧
        (s.eofbit = true → s1 = s ∧ m1 = m) ∧
        (s1.eofbit = true ∨ s1.buf.length ≤ s.buf.length) ∧
        (s.eofbit = false → 0 < n → s1.eofbit = true ∨ s1.buf.length < s.buf.length) := by
  intro n
  induction n with
  | zero =>
    intro s m hs _
    exact ⟨s, m, rfl, hs, by omega, fun _ => rfl, fun _ => ⟨rfl, rfl⟩, Or.inr (le_refl _),
      fun _ h => absurd h (by omega)⟩
  | succ n ih =>
    intro s m hs hb
    cases he : s.eofbit with
    | true =>
      refine ⟨s, m, by simp [read_chunk, he], hs, by omega, fun _ => rfl,
        fun _ => ⟨rfl, rfl⟩, Or.inl he, fun h => by simp at h⟩
    | false =>
      have hf := hs he
      obtain ⟨hrec, hgood⟩ := getline_records ops s he hf
      have hstep : read_chunk ops (n + 1) s m =
          if (getline s []).2.length > 0 then
            read_chunk ops n (getline s []).1 (lines_insert ops (ops.extract (getline s []).2) m)
          else read_chunk ops n (getline s []).1 m := by
        simp [read_chunk, he, hf]
      have hsane : (getline s []).1.eofbit = false → (getline s []).1.failbit = false :=
        fun h => (hgood h).1
      by_cases hlen : (getline s []).2.length > 0
      · obtain ⟨hi1, hi2⟩ := lines_insert_occurrences hswo (ops.extract (getline s []).2) m
          (by omega)
        obtain ⟨s1, m1, h1, h2, h3, h4, h5, h6, _⟩ := ih (getline s []).1
          (lines_insert ops (ops.extract (getline s []).2) m) hsane (by omega)
        refine ⟨s1, m1, by rw [hstep, if_pos hlen, h1], h2, by omega, ?_,
          fun h => by simp at h, ?_, ?_⟩
        · intro x
          rw [h4 x, hi2 x, pending_records_of_good ops s he, hrec, if_pos hlen,
            occurrences_append]
          simp only [occurrences, List.countP_cons, List.countP_nil]
          omega
        · rcases h6 with h6 | h6
          · exact Or.inl h6
          · cases hg : (getline s []).1.eofbit with
            | true => exact Or.inl (by rw [(h5 hg).1]; exact hg)
            | false => exact Or.inr (by have := (hgood hg).2; omega)
        · intro _ _
          rcases h6 with h6 | h6
          · exact Or.inl h6
          · cases hg : (getline s []).1.eofbit with
            | true => exact Or.inl (by rw [(h5 hg).1]; exact hg)
            | false => exact Or.inr (by have := (hgood hg).2; omega)
      · obtain ⟨s1, m1, h1, h2, h3, h4, h5, h6, _⟩ := ih (getline s []).1 m hsane (by omega)
        refine ⟨s1, m1, by rw [hstep, if_neg hlen, h1], h2, by omega, ?_,
          fun h => by simp at h, ?_, ?_⟩
        · intro x
          rw [h4 x, pending_records_of_good ops s he, hrec, if_neg hlen]
          simp
        · rcases h6 with h6 | h6
          · exact Or.inl h6
          · cases hg : (getline s []).1.eofbit with
            | true => exact Or.inl (by rw [(h5 hg).1]; exact hg)
            | false => exact Or.inr (by have := (hgood hg).2; omega)
        · intro _ _
          rcases h6 with h6 | h6
          · exact Or.inl h6
          · cases hg : (getline s []).1.eofbit with
            | true => exact Or.inl (by rw [(h5 hg).1]; exact hg)
            | false => exact Or.inr (by have := (hgood hg).2; omega)

/-! ## Run files -/

theorem run_content_eq {R : Type} (ops : RecordOps R) (m : List (R × Nat)) :
    run_content ops m = lines_bytes ((expand m).map ops.insert) := by
  induction m with
  | nil => rfl
  | cons e rest ih =>
    obtain ⟨r, c⟩ := e
    simp only [run_content, expand, List.map_append, lines_bytes_append, ih]
    congr 1
    simp [lines_bytes]

/-! ## The merge loop conserves the lines -/

theorem perm_cons_eraseIdx {α : Type} : ∀ (l : List α) (i : Nat) (e : α), l[i]? = some e →
    l.Perm (e :: l.eraseIdx i) := by
  intro l
  induction l with
  | nil => intro i e h; simp at h
  | cons x xs ih =>
    intro i e h
    cases i with
    | zero =>
      simp only [List.getElem?_cons_zero, Option.some.injEq] at h
      subst h
      exact List.Perm.refl _
    | succ i =>
      simp only [List.getElem?_cons_succ] at h
      simp only [List.eraseIdx_cons_succ]
      exact ((ih i e h).cons x).trans (List.Perm.swap e x _)

theorem perm_set_eraseIdx {α : Type} : ∀ (l : List α) (i : Nat) (e e1 : α), l[i]? = some e →
    (l.set i e1).Perm (e1 :: l.eraseIdx i) := by
  intro l
  induction l with
  | nil => intro i e e1 h; simp at h
  | cons x xs ih =>
    intro i e e1 h
    cases i with
    | zero => exact List.Perm.refl _
    | succ i =>
      simp only [List.getElem?_cons_succ] at h
      simp only [List.eraseIdx_cons_succ, List.set_cons_succ]
      exact ((ih i e e1 h).cons x).trans (List.Perm.swap e1 x _)

theorem pending_lines_perm {l1 l2 : List file_line} (h : l1.Perm l2) :
    (pending_lines l1).Perm (pending_lines l2) :=
  List.Perm.flatten (h.map entry_lines)

theorem pending_lines_cons (e : file_line) (l : List file_line) :
    pending_lines (e :: l) = e.line :: (rest_lines e.file ++ pending_lines l) := by
  simp [pending_lines, entry_lines]

/-- What refilling an element of `file_lines_t` does to the lines it still has to
contribute. -/
theorem getline_entry (e : file_line) (hwf : well_formed e.file) :
    ((getline e.file e.line).1.eofbit = true → rest_lines e.file = []) ∧
    ((getline e.file e.line).1.eofbit = false →
      well_formed (getline e.file e.line).1 ∧
      (getline e.file e.line).2 :: rest_lines (getline e.file e.line).1 = rest_lines e.file) := by
  cases he : e.file.eofbit with
  | true =>
    have hg : getline e.file e.line = ({ e.file with failbit := true }, e.line) := by
      simp [getline, he]
    rw [hg]
    simp [rest_lines, he]
  | false =>
    rcases hwf with hwf | ⟨hf, ls, hls, hbuf⟩
    · rw [he] at hwf; simp at hwf
    · cases ls with
      | nil =>
        have hb : e.file.buf = [] := by rw [hbuf]; rfl
        have hg : getline e.file e.line =
            ({ e.file with buf := [], eofbit := true, failbit := true }, []) := by
          simp [getline, he, hf, hb, scan_line]
        rw [hg]
        simp [rest_lines, he, hb, split_lines]
      | cons l ls1 =>
        have hl : '\r' ∉ l := hls l (by simp)
        have hb : e.file.buf = l ++ '\r' :: lines_bytes ls1 := by
          rw [hbuf, lines_bytes_cons]
        have hg : getline e.file e.line = ({ e.file with buf := lines_bytes ls1 }, l) := by
          simp [getline, he, hf, hb, scan_line_append l _ hl]
        rw [hg]
        simp only [he, Bool.false_eq_true, false_implies, true_implies, true_and]
        constructor
        · right
          exact ⟨hf, ls1, fun x hx => hls x (List.mem_cons_of_mem _ hx), rfl⟩
        · simp only [rest_lines, he, Bool.false_eq_true, if_false, hb]
          rw [split_lines_append l _ hl]

theorem pending_lines_length_pos (fl : List file_line) (h : fl ≠ []) :
    0 < (pending_lines fl).length := by
  cases fl with
  | nil => exact absurd rfl h
  | cons e es => rw [pending_lines_cons]; simp

/-- The merge loop, for any choice of the element written at each step, ends after as many
steps as there are lines to contribute and writes exactly those lines, in some order. -/
theorem merge_loop_conserves (select : List file_line → Nat)
    (hsel : ∀ fl, fl ≠ [] → select fl < fl.length) :
    ∀ (fuel : Nat) (fl : List file_line) (written : List (List Char)),
      (∀ e ∈ fl, well_formed e.file) → (pending_lines fl).length ≤ fuel →
      ∃ out, merge_loop select fuel fl written = some out ∧
        out.Perm (written ++ pending_lines fl) := by
  intro fuel
  induction fuel with
  | zero =>
    intro fl written _ hlen
    by_cases hne : fl = []
    · subst hne
      exact ⟨written, rfl, by simp [pending_lines]⟩
    · have := pending_lines_length_pos fl hne
      omega
  | succ fuel ih =>
    intro fl written hwf hlen
    by_cases hne : fl = []
    · subst hne
      exact ⟨written, rfl, by simp [pending_lines]⟩
    · have hi := hsel fl hne
      have hget : fl[select fl]? = some fl[select fl] := List.getElem?_eq_getElem hi
      have hmem : fl[select fl] ∈ fl := List.getElem_mem hi
      obtain ⟨h1, h2⟩ := getline_entry fl[select fl] (hwf _ hmem)
      have hperm := pending_lines_perm (perm_cons_eraseIdx fl _ _ hget)
      rw [pending_lines_cons] at hperm
      rw [merge_loop_step select fuel fl written hne, hget]
      simp only
      cases hg : (getline fl[select fl].file fl[select fl].line).1.eofbit with
      | true =>
        rw [h1 hg, List.nil_append] at hperm
        simp only [if_true]
        obtain ⟨out, ho1, ho2⟩ := ih (fl.eraseIdx (select fl)) (written ++ [fl[select fl].line])
          (fun e he => hwf e (List.mem_of_mem_eraseIdx he))
          (by have := hperm.length_eq; simp only [List.length_cons] at this; omega)
        refine ⟨out, ho1, ho2.trans ?_⟩
        rw [List.append_assoc]
        exact List.Perm.append_left _ hperm.symm
      | false =>
        obtain ⟨hwf1, hrest⟩ := h2 hg
        simp only [Bool.false_eq_true, if_false]
        have hperm1 := pending_lines_perm (perm_set_eraseIdx fl (select fl) _
          ({ ptr := fl[select fl].ptr, file := (getline fl[select fl].file fl[select fl].line).1,
             line := (getline fl[select fl].file fl[select fl].line).2 } : file_line) hget)
        rw [pending_lines_cons] at hperm1
        simp only at hperm1
        rw [← List.cons_append, hrest] at hperm1
        have hperm2 : (pending_lines fl).Perm (fl[select fl].line :: pending_lines (fl.set (select fl)
            ({ ptr := fl[select fl].ptr, file := (getline fl[select fl].file fl[select fl].line).1,
               line := (getline fl[select fl].file fl[select fl].line).2 } : file_line))) :=
          hperm.trans (List.Perm.cons _ hperm1.symm)
        obtain ⟨out, ho1, ho2⟩ := ih (fl.set (select fl)
            ({ ptr := fl[select fl].ptr, file := (getline fl[select fl].file fl[select fl].line).1,
               line := (getline fl[select fl].file fl[select fl].line).2 } : file_line))
          (written ++ [fl[select fl].line])
          (fun e he => by
            rcases List.mem_or_eq_of_mem_set he with he | rfl
            · exact hwf e he
            · exact hwf1)
          (by have := hperm2.length_eq; simp only [List.length_cons] at this; omega)
        refine ⟨out, ho1, ho2.trans ?_⟩
        rw [List.append_assoc]
        exact List.Perm.append_left _ hperm2.symm

theorem min_element_from_lt {α : Type} (less : α → α → Bool) :
    ∀ (l : List α) (best : α) (s i : Nat), s < i →
      min_element_from less l best s i < i + l.length := by
  intro l
  induction l with
  | nil => intro best s i h; simpa [min_element_from] using h
  | cons x xs ih =>
    intro best s i h
    simp only [min_element_from, List.length_cons]
    split
    · have := ih x i (i + 1) (by omega); omega
    · have := ih best s (i + 1) (by omega); omega

theorem select_line_lt (fl : List file_line) (h : fl ≠ []) : select_line fl < fl.length := by
  cases fl with
  | nil => exact absurd rfl h
  | cons x xs =>
    unfold select_line
    split
    · simp
    · simp only [min_element, List.length_cons]
      have := min_element_from_lt pair_lt xs x 0 1 (by omega)
      omega

theorem nonblank_append (a b : List (List Char)) : nonblank (a ++ b) = nonblank a ++ nonblank b := by
  simp [nonblank]

theorem pending_lines_append (a b : List file_line) :
    pending_lines (a ++ b) = pending_lines a ++ pending_lines b := by
  simp [pending_lines]

theorem all_lines_cons (w : World) (p : Path) (ps : List Path) :
    all_lines w (p :: ps) = split_lines ((w.disk p).getD []) ++ all_lines w ps := by
  simp [all_lines]

theorem all_lines_append (w : World) (ps qs : List Path) :
    all_lines w (ps ++ qs) = all_lines w ps ++ all_lines w qs := by
  simp [all_lines]

@[simp] theorem opened_eofbit (c : List Char) : (opened c).eofbit = false := rfl

@[simp] theorem opened_failbit (c : List Char) : (opened c).failbit = false := rfl

@[simp] theorem opened_buf (c : List Char) : (opened c).buf = c := rfl

@[simp] theorem opened_is_open (c : List Char) : (opened c).is_open = true := rfl

/-- The element of `file_lines_t` made for a run file when it is opened and its first line
is read. -/
theorem open_entry (ls : List (List Char)) (hls : ∀ l ∈ ls, '\r' ∉ l) (ptr : Nat) :
    ∀ (e : file_line),
      e = ⟨ptr, (getline (opened (lines_bytes ls)) []).1,
        (getline (opened (lines_bytes ls)) []).2⟩ →
      well_formed e.file ∧ nonblank (entry_lines e) = nonblank ls ∧
      (entry_lines e).length ≤ ls.length + 1 ∧ (∀ l ∈ entry_lines e, '\r' ∉ l) := by
  intro e he
  cases ls with
  | nil =>
    have hg : getline (opened (lines_bytes [])) [] =
        ({ is_open := true, buf := [], eofbit := true, failbit := true }, []) := by
      simp [getline, lines_bytes, scan_line]
    rw [hg] at he
    subst he
    simp [well_formed, entry_lines, rest_lines, nonblank]
  | cons l ls1 =>
    have hl : '\r' ∉ l := hls l (by simp)
    have hg : getline (opened (lines_bytes (l :: ls1))) [] =
        ((opened (lines_bytes ls1)), l) := by
      simp [getline, lines_bytes_cons, scan_line_append l _ hl]
      rfl
    rw [hg] at he
    subst he
    have hls1 : ∀ x ∈ ls1, '\r' ∉ x := fun x hx => hls x (List.mem_cons_of_mem _ hx)
    refine ⟨Or.inr ⟨rfl, ls1, hls1, rfl⟩, ?_, ?_, ?_⟩
    · simp [entry_lines, rest_lines, split_lines_lines_bytes ls1 hls1]
    · simp [entry_lines, rest_lines, split_lines_lines_bytes ls1 hls1]
    · simp only [entry_lines, rest_lines, opened_eofbit, opened_buf, Bool.false_eq_true,
        if_false, split_lines_lines_bytes ls1 hls1]
      exact hls

/-- The opening loop of `do_file_merge` on run files: it consumes a prefix of the files,
all of them unless the cap of a `_DEBUG` build stops it, and buffers elements that stand for
the lines of the files consumed, blank lines apart. -/
theorem open_files_spec (env : Env) (build : Build) (addr : Nat → Nat) (w : World) :
    ∀ (ps : List Path) (pos : Nat) (fl : List file_line), (∀ p ∈ ps, run_file env w p) →
      ∃ (new : List file_line) (taken rest : List Path) (pos1 : Nat),
        open_files env build addr w ps pos fl = (fl ++ new, rest, pos1) ∧
        ps = taken ++ rest ∧
        (∀ e ∈ new, well_formed e.file) ∧
        nonblank (pending_lines new) = nonblank (all_lines w taken) ∧
        (pending_lines new).length ≤ (all_lines w taken).length + taken.length ∧
        (∀ l ∈ pending_lines new, '\r' ∉ l) ∧
        (build.debug = false → rest = []) ∧
        (fl.length < 10 → ps ≠ [] → taken ≠ []) := by
  intro ps
  induction ps with
  | nil =>
    intro pos fl _
    exact ⟨[], [], [], pos, by simp [open_files], rfl, by simp, rfl, by simp [pending_lines],
      by simp [pending_lines], fun _ => rfl, fun _ h => absurd rfl h⟩
  | cons p ps ih =>
    intro pos fl hfiles
    obtain ⟨hread, ls, hls, hdisk⟩ := hfiles p (by simp)
    have hopen : ifstream_open env w p =
        (opened (lines_bytes ls)) := by
      simp [ifstream_open, hdisk, hread]
    by_cases hcap : (build.debug && fl.length == 10) = true
    · refine ⟨[], [], p :: ps, pos, ?_, rfl, by simp, rfl, by simp [pending_lines],
        by simp [pending_lines], ?_, ?_⟩
      · simp [open_files, hopen, hcap]
      · intro hd; simp [hd] at hcap
      · intro hlt _
        simp only [Bool.and_eq_true, beq_iff_eq] at hcap
        omega
    · obtain ⟨e, he⟩ : ∃ e : file_line, e = ⟨addr pos, (getline (opened (lines_bytes ls)) []).1,
          (getline (opened (lines_bytes ls)) []).2⟩ := ⟨_, rfl⟩
      obtain ⟨he1, he2, he3, he4⟩ := open_entry ls hls (addr pos) e he
      obtain ⟨new, taken, rest, pos1, h1, h2, h3, h4, h5, h6, h7, _⟩ :=
        ih (pos + 1) (fl ++ [e]) (fun q hq => hfiles q (List.mem_cons_of_mem _ hq))
      have hsplit : split_lines ((w.disk p).getD []) = ls := by
        rw [hdisk]; exact split_lines_lines_bytes ls hls
      have hpend : pending_lines (e :: new) = entry_lines e ++ pending_lines new := rfl
      refine ⟨e :: new, p :: taken, rest, pos1, ?_, by rw [h2]; rfl, ?_, ?_, ?_, ?_, h7,
        fun _ _ => by simp⟩
      · rw [open_files, hopen]
        simp only [opened_is_open, Bool.not_true, Bool.false_eq_true, if_false, hcap]
        rw [← he, h1]
        simp
      · intro x hx
        rcases List.mem_cons.mp hx with rfl | hx
        · exact he1
        · exact h3 x hx
      · rw [all_lines_cons, hsplit, nonblank_append, ← he2, ← h4, ← nonblank_append, hpend]
      · rw [all_lines_cons, hsplit, hpend]
        simp only [List.length_append, List.length_cons]
        omega
      · intro l hl
        rw [hpend] at hl
        rcases List.mem_append.mp hl with hl | hl
        · exact he4 l hl
        · exact h6 l hl

theorem do_file_merge_loop_nil (env : Env) (build : Build) (addr : Nat → Nat) (w : World)
    (fuel count pos : Nat) (written : List (List Char)) :
    do_file_merge_loop env build addr w fuel [] count pos written = (.returned true, written) := by
  cases fuel <;> rfl

theorem nonblank_perm {a b : List (List Char)} (h : a.Perm b) : (nonblank a).Perm (nonblank b) :=
  List.Perm.filter _ h

/-- The outer loop of `do_file_merge` on run files that can all be opened: with enough fuel
it returns `true`, unless `assert` is compiled in and a second pass is needed; and when it
returns, the lines written are those already written and those of the files, blank lines
apart. -/
theorem do_file_merge_loop_spec (env : Env) (build : Build) (addr : Nat → Nat) (w : World) :
    ∀ (fuel : Nat) (ps : List Path) (count pos : Nat) (written : List (List Char)),
      (∀ p ∈ ps, run_file env w p) → (all_lines w ps).length + 2 * ps.length ≤ fuel →
      ((do_file_merge_loop env build addr w fuel ps count pos written).1 = .returned true ∨
        (build.asserts = true ∧
          (do_file_merge_loop env build addr w fuel ps count pos written).1 = .assertion_failed)) ∧
      ((build.asserts = false ∨ (build.debug = false ∧ count = 0)) →
        (do_file_merge_loop env build addr w fuel ps count pos written).1 = .returned true) ∧
      ((do_file_merge_loop env build addr w fuel ps count pos written).1 = .returned true →
        (nonblank (do_file_merge_loop env build addr w fuel ps count pos written).2).Perm
          (nonblank written ++ nonblank (all_lines w ps)) ∧
        ∀ l ∈ (do_file_merge_loop env build addr w fuel ps count pos written).2,
          l ∈ written ∨ '\r' ∉ l) := by
  intro fuel
  induction fuel with
  | zero =>
    intro ps count pos written _ hb
    cases ps with
    | nil =>
      rw [do_file_merge_loop_nil]
      exact ⟨Or.inl rfl, fun _ => rfl, fun _ => ⟨by simp [all_lines, nonblank], fun l hl => Or.inl hl⟩⟩
    | cons p ps => simp only [List.length_cons] at hb; omega
  | succ fuel ih =>
    intro ps count pos written hfiles hb
    cases ps with
    | nil =>
      rw [do_file_merge_loop_nil]
      exact ⟨Or.inl rfl, fun _ => rfl, fun _ => ⟨by simp [all_lines, nonblank], fun l hl => Or.inl hl⟩⟩
    | cons p ps =>
      by_cases hassert : (build.asserts && (count + 1 != 1)) = true
      · have hr : do_file_merge_loop env build addr w (fuel + 1) (p :: ps) count pos written =
            (.assertion_failed, written) := by
          simp only [do_file_merge_loop, hassert, if_true]
        rw [hr]
        simp only [Bool.and_eq_true, bne_iff_ne, ne_eq] at hassert
        refine ⟨Or.inr ⟨hassert.1, rfl⟩, ?_, fun h => by simp at h⟩
        rintro (h | ⟨_, h⟩)
        · rw [hassert.1] at h; simp at h
        · omega
      · obtain ⟨new, taken, rest, pos1, h1, h2, h3, h4, h5, h6, h7, h8⟩ :=
          open_files_spec env build addr w (p :: ps) pos [] hfiles
        have htaken : taken ≠ [] := h8 (by simp) (by simp)
        have hlen : (p :: ps).length = taken.length + rest.length := by rw [h2]; simp
        have hall : all_lines w (p :: ps) = all_lines w taken ++ all_lines w rest := by
          rw [h2, all_lines_append]
        have htl : 0 < taken.length := List.length_pos.mpr htaken
        rw [hall, hlen] at hb
        simp only [List.length_append] at hb
        simp only [List.nil_append] at h1
        obtain ⟨out1, ho1, ho2⟩ := merge_loop_conserves select_line select_line_lt fuel new
          written h3 (by omega)
        have hr : do_file_merge_loop env build addr w (fuel + 1) (p :: ps) count pos written =
            do_file_merge_loop env build addr w fuel rest
              (if build.asserts then count + 1 else count) pos1 out1 := by
          simp only [do_file_merge_loop, hassert, Bool.false_eq_true, if_false, h1, ho1]
        rw [hr]
        obtain ⟨i1, i2, i3⟩ := ih rest (if build.asserts then count + 1 else count) pos1 out1
          (fun q hq => hfiles q (by rw [h2]; exact List.mem_append_right _ hq)) (by omega)
        refine ⟨i1, ?_, ?_⟩
        · rintro (h | ⟨h, _⟩)
          · exact i2 (Or.inl h)
          · rw [h7 h, do_file_merge_loop_nil]
        · intro hret
          obtain ⟨j1, j2⟩ := i3 hret
          constructor
          · refine j1.trans ?_
            rw [hall, nonblank_append, ← h4, ← List.append_assoc,
              ← nonblank_append written (pending_lines new)]
            exact List.Perm.append_right _ (nonblank_perm ho2)
          · intro l hl
            rcases j2 l hl with hl | hl
            · rcases List.mem_append.mp (ho2.subset hl) with hl | hl
              · exact Or.inl hl
              · exact Or.inr (h6 l hl)
            · exact Or.inr hl

/-! ## The reading loop -/

/-- The reading loop of `merge_sort` when every temporary file can be written and the
temporary names are distinct: the chunks it makes do not depend on the fuel (beyond a
bound) nor on the state it starts from; every chunk ends in its own run file; nothing else
on the disk changes; and the records of the chunks are those of the input, class by
class. -/
theorem read_loop_spec {R : Type} {ops : RecordOps R} (hswo : StrictWeakOrder ops.lt)
    (env : Env) (tmp : Nat → Path) (max_lines : Nat) (hmax : 1 ≤ max_lines)
    (hmax2 : max_lines < 4294967296) (hw : ∀ k, env.writable (tmp k) = true)
    (hinj : Function.Injective tmp) :
    ∀ (n : Nat) (s : ifstream), (s.eofbit = false → s.failbit = false) →
      (if s.eofbit then 0 else s.buf.length + 1) ≤ n →
      ∃ ms : List (List (R × Nat)),
        (∀ x, occurrences ops x (ms.map expand).flatten =
          occurrences ops x (pending_records ops s)) ∧
        (s.eofbit = false → ms ≠ []) ∧
        ∀ (fuel : Nat) (st : SortState), n ≤ fuel →
          ∃ st1, read_loop env ops tmp max_lines fuel s st = (none, st1) ∧
            st1.names = st.names + ms.length ∧
            st1.temporary_files =
              st.temporary_files ++ (List.range ms.length).map (fun i => tmp (st.names + i)) ∧
            st1.world.removes = st.world.removes ∧
            (∀ i (hi : i < ms.length),
              st1.world.disk (tmp (st.names + i)) = some (run_content ops ms[i])) ∧
            (∀ p, (∀ i, i < ms.length → p ≠ tmp (st.names + i)) →
              st1.world.disk p = st.world.disk p) := by
  intro n
  induction n with
  | zero =>
    intro s _ hb
    have he : s.eofbit = true := by
      cases h : s.eofbit with
      | true => rfl
      | false => rw [h] at hb; simp at hb
    refine ⟨[], fun x => by simp [pending_records, he, occurrences], fun h => by simp [he] at h,
      fun fuel st _ => ⟨st, ?_, by simp, by simp, rfl, fun i hi => absurd hi (by simp),
        fun p _ => rfl⟩⟩
    cases fuel <;> simp [read_loop, he]
  | succ n ih =>
    intro s hs hb
    cases he : s.eofbit with
    | true =>
      refine ⟨[], fun x => by simp [pending_records, he, occurrences], fun h => by simp at h,
        fun fuel st _ => ⟨st, ?_, by simp, by simp, rfl, fun i hi => absurd hi (by simp),
          fun p _ => rfl⟩⟩
      cases fuel <;> simp [read_loop, he]
    | false =>
      rw [he] at hb
      simp only [Bool.false_eq_true, if_false] at hb
      obtain ⟨s1, m1, hc1, hc2, _, hc4, _, _, hc7⟩ := read_chunk_spec hswo max_lines s []
        hs (by simp [expand]; omega)
      have hprog := hc7 he (by omega)
      obtain ⟨ms, hm1, _, hm3⟩ := ih s1 hc2 (by
        rcases hprog with h | h
        · simp [h]
        · split <;> omega)
      refine ⟨m1 :: ms, ?_, fun _ => by simp, ?_⟩
      · intro x
        simp only [List.map_cons, List.flatten_cons, occurrences_append, hm1 x]
        have := hc4 x
        simp only [expand, occurrences, List.countP_nil, Nat.zero_add] at this ⊢
        exact this
      · intro fuel st hfuel
        obtain ⟨fuel1, rfl⟩ : ∃ f, fuel = f + 1 := ⟨fuel - 1, by omega⟩
        obtain ⟨st1, hr, hn, ht, hrm, hd, hfr⟩ := hm3 fuel1
          { world := ofstream_close (ofstream_open env st.world (tmp st.names)).2 (tmp st.names)
              (ofstream_open env st.world (tmp st.names)).1 (run_content ops m1),
            temporary_files := st.temporary_files ++ [tmp st.names],
            names := st.names + 1 } (by omega)
        have hopen : ofstream_open env st.world (tmp st.names) =
            (true, { st.world with disk := Function.update st.world.disk (tmp st.names) (some []) }) := by
          simp [ofstream_open, hw]
        refine ⟨st1, ?_, ?_, ?_, ?_, ?_, ?_⟩
        · rw [read_loop]
          simp only [he, Bool.false_eq_true, if_false, hc1, hopen, Bool.not_true,
            Bool.false_and]
          rw [hopen] at hr
          exact hr
        · rw [hn]; simp only [List.length_cons]; omega
        · rw [ht]
          simp only [List.length_cons, List.append_assoc, List.singleton_append]
          congr 1
          rw [List.range_succ_eq_map]
          simp only [List.map_cons, List.map_map, Nat.add_zero]
          congr 1
          apply List.map_congr_left
          intro i _
          simp only [Function.comp]
          congr 1
          omega
        · rw [hrm, hopen]; rfl
        · intro i hi
          cases i with
          | zero =>
            simp only [Nat.add_zero, List.getElem_cons_zero]
            rw [hfr (tmp st.names) (fun j _ h => by have := hinj h; simp only at this; omega), hopen]
            simp [ofstream_close]
          | succ j =>
            simp only [List.getElem_cons_succ]
            have := hd j (by simpa using hi)
            rw [show st.names + (j + 1) = st.names + 1 + j by omega]
            exact this
        · intro p hp
          rw [hfr p (fun j hj => by
            have := hp (j + 1) (by simpa using hj)
            rw [show st.names + (j + 1) = st.names + 1 + j by omega] at this
            exact this), hopen]
          have h0 : p ≠ tmp st.names := by simpa using hp 0 (by simp)
          simp [ofstream_close, Function.update, h0]

/-! ## From the runs to the output -/

theorem temporary_file_manager_destroy_eq (env : Env) (ps : List Path) (w : World) :
    (temporary_file_manager_destroy env ps w).2 = (for_each_delete_file env ps w).2 := by
  unfold temporary_file_manager_destroy
  split <;> rename_i h <;> rw [h]

/-- The path `merge_sort` takes when its reading loop has made exactly one run: the run
file is renamed to the output path. -/
theorem merge_sort_single_run {R : Type} (env : Env) (build : Build) (ops : RecordOps R)
    (tmp : Nat → Path) (addr : Nat → Nat) (fuel : Nat) (inp out : Path) (max_lines : Nat)
    (w : World) (st1 : SortState) (t : Path) (c : List Char)
    (hopen : (ifstream_open env w inp).is_open = true)
    (hread : read_loop env ops tmp max_lines fuel (ifstream_open env w inp)
      { world := w, temporary_files := [], names := 0 } = (none, st1))
    (hfiles : st1.temporary_files = [t]) (hdisk : st1.world.disk t = some c)
    (hne : t ≠ out) (hren : env.rename_fails t out = false) :
    (merge_sort env build ops tmp addr fuel inp out max_lines w).1 = .returned true ∧
    (merge_sort env build ops tmp addr fuel inp out max_lines w).2.disk out = some c ∧
    (merge_sort env build ops tmp addr fuel inp out max_lines w).2.disk t = none ∧
    (∀ p, p ≠ out → p ≠ t →
      (merge_sort env build ops tmp addr fuel inp out max_lines w).2.disk p
        = st1.world.disk p) := by
  have hd : (delete_file env st1.world out).2.disk t = some c := by
    rcases delete_file_disk env st1.world out t with h | ⟨_, h⟩
    · rw [h, hdisk]
    · exact absurd h hne
  have hren1 : rename env (delete_file env st1.world out).2 t out =
      (.ok (), { (delete_file env st1.world out).2 with
        disk := Function.update (Function.update (delete_file env st1.world out).2.disk t none)
          out (some c) }) := by
    simp [rename, hd, hren]
  have hbody : merge_sort_body env build ops tmp addr fuel inp out max_lines w =
      (.returned true, { st1 with
        world := { (delete_file env st1.world out).2 with
          disk := Function.update (Function.update (delete_file env st1.world out).2.disk t none)
            out (some c) },
        temporary_files := [] }) := by
    unfold merge_sort_body
    simp only [hopen, Bool.not_true, Bool.false_eq_true, if_false, hread, hfiles,
      List.length_singleton, if_true, List.headD_cons, hren1]
  have hms : merge_sort env build ops tmp addr fuel inp out max_lines w =
      (.returned true, { (delete_file env st1.world out).2 with
          disk := Function.update (Function.update (delete_file env st1.world out).2.disk t none)
            out (some c) }) := by
    unfold merge_sort
    rw [hbody]
    simp only [temporary_file_manager_destroy_eq, for_each_delete_file]
  rw [hms]
  refine ⟨rfl, by simp, by simp [Function.update, hne], ?_⟩
  intro p hp1 hp2
  simp only [Function.update, hp1, hp2, dite_false]
  rcases delete_file_disk env st1.world out p with h | ⟨_, h⟩
  · exact h
  · exact absurd h hp1

theorem all_lines_congr (w1 w2 : World) (ps : List Path)
    (h : ∀ p ∈ ps, w1.disk p = w2.disk p) : all_lines w1 ps = all_lines w2 ps := by
  unfold all_lines
  congr 1
  apply List.map_congr_left
  intro p hp
  rw [h p hp]

/-- The path `merge_sort` takes when its reading loop has made several runs (or none): the
run files are merged into the output file and then deleted. -/
theorem merge_sort_multi_run {R : Type} (env : Env) (build : Build) (ops : RecordOps R)
    (tmp : Nat → Path) (addr : Nat → Nat) (fuel : Nat) (inp out : Path) (max_lines : Nat)
    (w : World) (st1 : SortState)
    (hopen : (ifstream_open env w inp).is_open = true)
    (hread : read_loop env ops tmp max_lines fuel (ifstream_open env w inp)
      { world := w, temporary_files := [], names := 0 } = (none, st1))
    (hlen : st1.temporary_files.length ≠ 1)
    (hfiles : ∀ p ∈ st1.temporary_files, run_file env st1.world p)
    (hne : ∀ p ∈ st1.temporary_files, p ≠ out) (houtw : env.writable out = true)
    (hfuel : (all_lines st1.world st1.temporary_files).length + 2 * st1.temporary_files.length
      ≤ fuel) :
    ((merge_sort env build ops tmp addr fuel inp out max_lines w).1 = .returned true ∨
      (build.asserts = true ∧
        (merge_sort env build ops tmp addr fuel inp out max_lines w).1 = .assertion_failed)) ∧
    ((build.asserts = false ∨ build.debug = false) →
      (merge_sort env build ops tmp addr fuel inp out max_lines w).1 = .returned true) ∧
    ((merge_sort env build ops tmp addr fuel inp out max_lines w).1 = .returned true →
      ∃ written : List (List Char),
        (merge_sort env build ops tmp addr fuel inp out max_lines w).2.disk out
          = some (lines_bytes written) ∧
        (∀ l ∈ written, '\r' ∉ l) ∧
        (nonblank written).Perm (nonblank (all_lines st1.world st1.temporary_files))) := by
  obtain ⟨w1, hw1⟩ : ∃ w1 : World, w1 =
      { st1.world with disk := Function.update st1.world.disk out (some []) } := ⟨_, rfl⟩
  have hoo : ofstream_open env st1.world out = (true, w1) := by
    simp [ofstream_open, houtw, hw1]
  have hsame : ∀ p ∈ st1.temporary_files, w1.disk p = st1.world.disk p := by
    intro p hp
    rw [hw1]
    simp [Function.update, hne p hp]
  have hfiles1 : ∀ p ∈ st1.temporary_files, run_file env w1 p := by
    intro p hp
    obtain ⟨h1, ls, h2, h3⟩ := hfiles p hp
    exact ⟨h1, ls, h2, by rw [hsame p hp, h3]⟩
  have hall := all_lines_congr w1 st1.world st1.temporary_files hsame
  obtain ⟨s1, s2, s3⟩ := do_file_merge_loop_spec env build addr w1 fuel st1.temporary_files 0 0 []
    hfiles1 (by rw [hall]; exact hfuel)
  rw [hall] at s3
  obtain ⟨r, hr⟩ : ∃ r, do_file_merge_loop env build addr w1 fuel st1.temporary_files 0 0 [] = r :=
    ⟨_, rfl⟩
  rw [hr] at s1 s2 s3
  rcases s1 with hret | ⟨hass, hfail⟩
  · have hdfm1 : do_file_merge env build addr fuel st1.temporary_files out st1.world =
        (.returned true, ofstream_close w1 out true (lines_bytes r.2)) := by
      unfold do_file_merge
      simp only [hoo, hr, hret]
    have hms : merge_sort env build ops tmp addr fuel inp out max_lines w =
        (.returned true, (temporary_file_manager_destroy env st1.temporary_files
          (ofstream_close w1 out true (lines_bytes r.2))).2) := by
      unfold merge_sort merge_sort_body
      simp only [hopen, Bool.not_true, Bool.false_eq_true, if_false, hread, hlen, hdfm1]
    rw [hms]
    refine ⟨Or.inl rfl, fun _ => rfl, fun _ => ⟨r.2, ?_, ?_, ?_⟩⟩
    · rw [temporary_file_manager_destroy_eq]
      obtain ⟨_, _, h3, _⟩ := for_each_delete_file_spec env st1.temporary_files
        (ofstream_close w1 out true (lines_bytes r.2))
      rcases h3 out with h | ⟨_, h⟩
      · rw [h]; simp [ofstream_close]
      · exact absurd rfl (hne out h)
    · intro l hl
      rcases (s3 hret).2 l hl with h | h
      · simp at h
      · exact h
    · simpa [nonblank] using (s3 hret).1
  · have hdfm1 : do_file_merge env build addr fuel st1.temporary_files out st1.world =
        (.assertion_failed, w1) := by
      unfold do_file_merge
      simp only [hoo, hr, hfail]
    have hms : (merge_sort env build ops tmp addr fuel inp out max_lines w).1 =
        .assertion_failed := by
      unfold merge_sort merge_sort_body
      simp only [hopen, Bool.not_true, Bool.false_eq_true, if_false, hread, hlen, hdfm1]
    rw [hms]
    refine ⟨Or.inr ⟨hass, rfl⟩, ?_, fun h => by simp at h⟩
    rintro (h | h)
    · rw [hass] at h; simp at h
    · have := s2 (Or.inr ⟨h, rfl⟩)
      rw [hfail] at this
      simp at this

/-! ## Multiplicity -/

theorem parse_lines_bytes {R : Type} (ops : RecordOps R) (ls : List (List Char))
    (hls : ∀ l ∈ ls, '\r' ∉ l) :
    parse_file ops (lines_bytes ls) = (nonblank ls).map ops.extract := by
  simp [parse_file, split_lines_lines_bytes ls hls, nonblank]

theorem occurrences_perm {R : Type} (ops : RecordOps R) (x : R) {l1 l2 : List R}
    (h : l1.Perm l2) : occurrences ops x l1 = occurrences ops x l2 :=
  h.countP_eq _

theorem occurrences_round_trip {R : Type} {ops : RecordOps R} (hswo : StrictWeakOrder ops.lt)
    (hround : ∀ r, equivalent ops (ops.extract (ops.insert r)) r = true) (x : R) (l : List R) :
    occurrences ops x (l.map (fun r => ops.extract (ops.insert r))) = occurrences ops x l := by
  induction l with
  | nil => rfl
  | cons r rs ih =>
    have h := hround r
    simp only [equivalent, Bool.and_eq_true, Bool.not_eq_true'] at h
    have he := equivalent_congr hswo h.2 h.1 x
    simp only [occurrences, List.map_cons, List.countP_cons] at ih ⊢
    rw [ih, he]

theorem nonblank_inserted {R : Type} (ops : RecordOps R) (hne : ∀ r, ops.insert r ≠ [])
    (l : List R) : nonblank (l.map ops.insert) = l.map ops.insert := by
  unfold nonblank
  rw [List.filter_eq_self]
  intro a ha
  obtain ⟨r, _, rfl⟩ := List.mem_map.mp ha
  cases h : ops.insert r with
  | nil => exact absurd h (hne r)
  | cons c cs => rfl

theorem nonblank_flatten (lss : List (List (List Char))) (h : ∀ ls ∈ lss, nonblank ls = ls) :
    nonblank lss.flatten = lss.flatten := by
  induction lss with
  | nil => rfl
  | cons ls lss ih =>
    rw [List.flatten_cons, nonblank_append, h ls (by simp),
      ih (fun x hx => h x (List.mem_cons_of_mem _ hx))]

/-- The lines of the run files that the reading loop has written, file after file. -/
theorem all_lines_runs {R : Type} (ops : RecordOps R)
    (hfmt : ∀ r, ops.insert r ≠ [] ∧ '\r' ∉ ops.insert r) (tmp : Nat → Path) (w : World)
    (ms : List (List (R × Nat)))
    (hd : ∀ i (hi : i < ms.length), w.disk (tmp i) = some (run_content ops ms[i])) :
    all_lines w ((List.range ms.length).map tmp) =
      (ms.map (fun m => (expand m).map ops.insert)).flatten := by
  unfold all_lines
  congr 1
  apply List.ext_getElem
  · simp
  · intro i h1 h2
    simp only [List.length_map, List.length_range] at h1
    simp only [List.getElem_map, List.getElem_range]
    rw [hd i h1, run_content_eq]
    exact split_lines_lines_bytes _ (fun l hl => by
      obtain ⟨r, _, rfl⟩ := List.mem_map.mp hl
      exact (hfmt r).2)

theorem occurrences_flatten_round_trip {R : Type} {ops : RecordOps R}
    (hswo : StrictWeakOrder ops.lt)
    (hround : ∀ r, equivalent ops (ops.extract (ops.insert r)) r = true) (x : R)
    (ms : List (List (R × Nat))) :
    occurrences ops x
        ((ms.map (fun m => (expand m).map ops.insert)).flatten.map ops.extract) =
      occurrences ops x (ms.map expand).flatten := by
  induction ms with
  | nil => rfl
  | cons m ms ih =>
    simp only [List.map_cons, List.flatten_cons, List.map_append, occurrences_append, ih,
      List.map_map]
    congr 1
    exact occurrences_round_trip hswo hround x (expand m)

/-- What `merge_sort` does in a setting without faults, in terms of the chunks its reading
loop makes: there is at least one chunk; the records of the chunks are those of the input,
class by class; with one chunk the output is the run of that chunk; with several the output
is made of the lines of all the runs in some order, blank lines apart. -/
theorem merge_sort_fault_free {R : Type} (ops : RecordOps R) (env : Env) (build : Build)
    (tmp : Nat → Path) (addr : Nat → Nat) (inp out : Path) (max_lines : Nat) (w : World)
    (content : List Char)
    (hswo : StrictWeakOrder ops.lt)
    (hfmt : ∀ r, ops.insert r ≠ [] ∧ '\r' ∉ ops.insert r)
    (hmax : 1 ≤ max_lines) (hmax2 : max_lines < 4294967296)
    (hin : w.disk inp = some content) (hread : env.readable inp = true)
    (htmpw : ∀ k, env.writable (tmp k) = true) (htmpr : ∀ k, env.readable (tmp k) = true)
    (hinj : Function.Injective tmp) (hout : ∀ k, tmp k ≠ out)
    (houtw : env.writable out = true) (hren : ∀ k, env.rename_fails (tmp k) out = false) :
    ∃ (ms : List (List (R × Nat))) (N : Nat), ms ≠ [] ∧
      (∀ x, occurrences ops x (ms.map expand).flatten =
        occurrences ops x (parse_file ops content)) ∧
      ∀ fuel, N ≤ fuel →
        ((merge_sort env build ops tmp addr fuel inp out max_lines w).1 = .returned true ∨
          (build.asserts = true ∧
            (merge_sort env build ops tmp addr fuel inp out max_lines w).1
              = .assertion_failed)) ∧
        ((build.asserts = false ∨ build.debug = false ∨ ms.length = 1) →
          (merge_sort env build ops tmp addr fuel inp out max_lines w).1 = .returned true) ∧
        ((merge_sort env build ops tmp addr fuel inp out max_lines w).1 = .returned true →
          ∃ written : List (List Char),
            (merge_sort env build ops tmp addr fuel inp out max_lines w).2.disk out
              = some (lines_bytes written) ∧
            (∀ l ∈ written, '\r' ∉ l) ∧
            (nonblank written).Perm (ms.map (fun m => (expand m).map ops.insert)).flatten ∧
            (ms.length = 1 → written = (ms.map (fun m => (expand m).map ops.insert)).flatten)) := by
  have hopen : ifstream_open env w inp = opened content := by
    simp [ifstream_open, hin, hread]
  obtain ⟨ms, hm1, hm2, hm3⟩ := read_loop_spec hswo env tmp max_lines hmax hmax2 htmpw hinj
    (content.length + 1) (opened content) (fun _ => rfl) (by simp)
  have hne : ms ≠ [] := hm2 rfl
  have hcr : ∀ l ∈ (ms.map (fun m => (expand m).map ops.insert)).flatten, '\r' ∉ l := by
    intro l hl
    obtain ⟨ls, h1, h2⟩ := List.mem_flatten.mp hl
    obtain ⟨m, _, rfl⟩ := List.mem_map.mp h1
    obtain ⟨r, _, rfl⟩ := List.mem_map.mp h2
    exact (hfmt r).2
  have hnb : nonblank (ms.map (fun m => (expand m).map ops.insert)).flatten =
      (ms.map (fun m => (expand m).map ops.insert)).flatten := by
    apply nonblank_flatten
    intro ls h1
    obtain ⟨m, _, rfl⟩ := List.mem_map.mp h1
    exact nonblank_inserted ops (fun r => (hfmt r).1) _
  refine ⟨ms, max (content.length + 1)
    ((ms.map (fun m => (expand m).map ops.insert)).flatten.length + 2 * ms.length), hne, ?_, ?_⟩
  · intro x
    rw [hm1 x]
    simp [pending_records]
  · intro fuel hfuel
    obtain ⟨st1, hr, _, ht, _, hd, _⟩ := hm3 fuel { world := w, temporary_files := [], names := 0 }
      (by omega)
    simp only [Nat.zero_add, List.nil_append] at ht hd
    rw [← hopen] at hr
    have hopen1 : (ifstream_open env w inp).is_open = true := by rw [hopen]; rfl
    by_cases hlen : ms.length = 1
    · obtain ⟨m, rfl⟩ : ∃ m, ms = [m] := List.length_eq_one.mp hlen
      have hr1 : List.range 1 = [0] := rfl
      simp only [List.length_singleton, hr1, List.map_cons, List.map_nil] at ht
      have hd0 := hd 0 (by simp)
      simp only [List.getElem_cons_zero] at hd0
      obtain ⟨h1, h2, _, _⟩ := merge_sort_single_run env build ops tmp addr fuel inp out max_lines
        w st1 (tmp 0) (run_content ops m) hopen1 hr ht hd0 (hout 0) (hren 0)
      refine ⟨Or.inl h1, fun _ => h1, fun _ => ⟨(expand m).map ops.insert, ?_, ?_, ?_, ?_⟩⟩
      · rw [h2, run_content_eq]
      · simpa using hcr
      · rw [nonblank_inserted ops (fun r => (hfmt r).1)]
        simp
      · intro _; simp
    · have hall := all_lines_runs ops hfmt tmp st1.world ms hd
      rw [← ht] at hall
      have hlen1 : st1.temporary_files.length ≠ 1 := by rw [ht]; simpa using hlen
      have hfiles : ∀ p ∈ st1.temporary_files, run_file env st1.world p := by
        intro p hp
        rw [ht] at hp
        obtain ⟨i, hi, rfl⟩ := List.mem_map.mp hp
        have hi1 : i < ms.length := List.mem_range.mp hi
        refine ⟨htmpr i, (expand ms[i]).map ops.insert, ?_, ?_⟩
        · intro l hl
          obtain ⟨r, _, rfl⟩ := List.mem_map.mp hl
          exact (hfmt r).2
        · rw [hd i hi1, run_content_eq]
      have hneq : ∀ p ∈ st1.temporary_files, p ≠ out := by
        intro p hp
        rw [ht] at hp
        obtain ⟨i, _, rfl⟩ := List.mem_map.mp hp
        exact hout i
      obtain ⟨h1, h2, h3⟩ := merge_sort_multi_run env build ops tmp addr fuel inp out max_lines
        w st1 hopen1 hr hlen1 hfiles hneq houtw (by
          rw [hall, ht]
          simp only [List.length_map, List.length_range]
          omega)
      refine ⟨h1, ?_, ?_⟩
      · rintro (h | h | h)
        · exact h2 (Or.inl h)
        · exact h2 (Or.inr h)
        · exact absurd h hlen
      · intro hret
        obtain ⟨written, g1, g2, g3⟩ := h3 hret
        rw [hall, hnb] at g3
        exact ⟨written, g1, g2, g3, fun h => absurd h hlen⟩

/-- For a total order, two sequences in which every record occurs equally often are
permutations of each other. -/
theorem perm_of_occurrences {R : Type} {ops : RecordOps R} (hswo : StrictWeakOrder ops.lt)
    (htotal : ∀ a b, ops.lt a b = false → ops.lt b a = false → a = b) (l1 l2 : List R)
    (h : ∀ x, occurrences ops x l1 = occurrences ops x l2) : l1.Perm l2 := by
  classical
  rw [List.perm_iff_count]
  intro a
  have hc : ∀ l : List R, List.count a l = occurrences ops a l := by
    intro l
    simp only [List.count, occurrences]
    apply List.countP_congr
    intro y _
    simp only [beq_iff_eq, equivalent, Bool.and_eq_true, Bool.not_eq_true']
    constructor
    · rintro rfl
      exact ⟨hswo.irrefl y, hswo.irrefl y⟩
    · rintro ⟨h1, h2⟩
      exact (htotal a y h1 h2).symm
  rw [hc, hc, h a]


/-- C2, amended.  Take a record type whose `operator<` is a strict weak ordering, whose
stream extraction applied to its stream insertion gives back an equivalent record, and whose
stream insertion writes at least one byte and never the delimiter `'\r'`.  In a setting
without faults (the input and the run files can be opened, the temporary names are distinct
and differ from the output path, the output can be written), for every input content and
every `max_lines` from 1 to 2^32 - 1, with enough fuel `merge_sort` returns `true` (unless
the assertion of `do_file_merge` fires, which needs `assert` and `_DEBUG` together), and
whenever it returns `true` every class of equivalent records occurs in the file at the
output path exactly as often as among the non-blank lines of the input; for a total order
the records read back from the output are a permutation of those of the input. -/
theorem merge_sort_preserves_multiplicity {R : Type} (ops : RecordOps R) (env : Env)
    (build : Build) (tmp : Nat → Path) (addr : Nat → Nat) (inp out : Path) (max_lines : Nat)
    (w : World) (content : List Char)
    (hswo : StrictWeakOrder ops.lt)
    (hround : ∀ r, equivalent ops (ops.extract (ops.insert r)) r = true)
    (hfmt : ∀ r, ops.insert r ≠ [] ∧ '\r' ∉ ops.insert r)
    (hmax : 1 ≤ max_lines) (hmax2 : max_lines < 4294967296)
    (hin : w.disk inp = some content) (hread : env.readable inp = true)
    (htmpw : ∀ k, env.writable (tmp k) = true) (htmpr : ∀ k, env.readable (tmp k) = true)
    (hinj : Function.Injective tmp) (hout : ∀ k, tmp k ≠ out)
    (houtw : env.writable out = true) (hren : ∀ k, env.rename_fails (tmp k) out = false) :
    ∃ N, ∀ fuel, N ≤ fuel →
      ((merge_sort env build ops tmp addr fuel inp out max_lines w).1 = .returned true ∨
        (build.asserts = true ∧ build.debug = true ∧
          (merge_sort env build ops tmp addr fuel inp out max_lines w).1
            = .assertion_failed)) ∧
      ((build.asserts = false ∨ build.debug = false) →
        (merge_sort env build ops tmp addr fuel inp out max_lines w).1 = .returned true) ∧
      ((merge_sort env build ops tmp addr fuel inp out max_lines w).1 = .returned true →
        ∃ o, (merge_sort env build ops tmp addr fuel inp out max_lines w).2.disk out = some o ∧
          (∀ x, occurrences ops x (parse_file ops o) =
            occurrences ops x (parse_file ops content)) ∧
          ((∀ a b, ops.lt a b = false → ops.lt b a = false → a = b) →
            (parse_file ops o).Perm (parse_file ops content))) := by
  obtain ⟨ms, N, _, hocc, hN⟩ := merge_sort_fault_free ops env build tmp addr inp out max_lines
    w content hswo hfmt hmax hmax2 hin hread htmpw htmpr hinj hout houtw hren
  refine ⟨N, fun fuel hfuel => ?_⟩
  obtain ⟨h1, h2, h3⟩ := hN fuel hfuel
  refine ⟨?_, fun h => h2 (by tauto), ?_⟩
  · rcases h1 with h1 | ⟨ha, hf⟩
    · exact Or.inl h1
    · cases hdbg : build.debug with
      | true => exact Or.inr ⟨ha, rfl, hf⟩
      | false => exact Or.inl (h2 (Or.inr (Or.inl hdbg)))
  · intro hret
    obtain ⟨written, g1, g2, g3, _⟩ := h3 hret
    have hcount : ∀ x, occurrences ops x (parse_file ops (lines_bytes written)) =
        occurrences ops x (parse_file ops content) := by
      intro x
      rw [parse_lines_bytes ops written g2, occurrences_perm ops x (g3.map ops.extract),
        occurrences_flatten_round_trip hswo hround x ms, hocc x]
    exact ⟨lines_bytes written, g1, hcount,
      fun htotal => perm_of_occurrences hswo htotal _ _ hcount⟩

theorem run_name_injective : Function.Injective run_name := by
  intro a b h
  have := congrArg List.length h
  simpa [run_name] using this

theorem bit_record_order : StrictWeakOrder bit_record.lt :=
  { irrefl := by decide, trans := by decide, incomp_trans := by decide }

/-- An instance of `merge_sort_preserves_multiplicity`: one-bit records, the input
`"1\r0\r1\r"` and two lines per chunk, in a release build without faults. -/
theorem merge_sort_preserves_multiplicity_witness :
    ∃ N, ∀ fuel, N ≤ fuel →
      ((merge_sort no_faults release bit_record run_name id fuel ['i', 'n'] ['o', 'u', 't'] 2
          (disk_of [(['i', 'n'], "1\r0\r1\r".toList)])).1 = .returned true ∨
        (release.asserts = true ∧ release.debug = true ∧
          (merge_sort no_faults release bit_record run_name id fuel ['i', 'n'] ['o', 'u', 't'] 2
            (disk_of [(['i', 'n'], "1\r0\r1\r".toList)])).1 = .assertion_failed)) ∧
      ((release.asserts = false ∨ release.debug = false) →
        (merge_sort no_faults release bit_record run_name id fuel ['i', 'n'] ['o', 'u', 't'] 2
          (disk_of [(['i', 'n'], "1\r0\r1\r".toList)])).1 = .returned true) ∧
      ((merge_sort no_faults release bit_record run_name id fuel ['i', 'n'] ['o', 'u', 't'] 2
          (disk_of [(['i', 'n'], "1\r0\r1\r".toList)])).1 = .returned true →
        ∃ o, (merge_sort no_faults release bit_record run_name id fuel ['i', 'n']
            ['o', 'u', 't'] 2 (disk_of [(['i', 'n'], "1\r0\r1\r".toList)])).2.disk
              ['o', 'u', 't'] = some o ∧
          (∀ x, occurrences bit_record x (parse_file bit_record o) =
            occurrences bit_record x (parse_file bit_record "1\r0\r1\r".toList)) ∧
          ((∀ a b, bit_record.lt a b = false → bit_record.lt b a = false → a = b) →
            (parse_file bit_record o).Perm (parse_file bit_record "1\r0\r1\r".toList))) :=
  merge_sort_preserves_multiplicity bit_record no_faults release run_name id ['i', 'n']
    ['o', 'u', 't'] 2 (disk_of [(['i', 'n'], "1\r0\r1\r".toList)]) "1\r0\r1\r".toList
    bit_record_order (by decide) (by decide) (by decide) (by decide) (by decide) rfl
    (fun _ => rfl) (fun _ => rfl) run_name_injective (fun k => by simp [run_name])
    rfl (fun _ => rfl)


/-- C2, as stated, fails.  A record type can satisfy the round trip between stream insertion
and stream extraction while its insertion writes nothing, or writes the delimiter.  With
the first, `merge_sort` turns the one record of the file `"x\r"` into a blank line, which is
skipped when the output is read back; with the second it turns it into two lines, read back
as two records. -/
theorem round_trip_does_not_preserve_multiplicity :
    ((∀ r, equivalent silent_record (silent_record.extract (silent_record.insert r)) r = true) ∧
      (merge_sort no_faults release silent_record run_name id 32 ['i', 'n'] ['o', 'u', 't'] 2
        (disk_of [(['i', 'n'], "x\r".toList)])).1 = .returned true ∧
      (merge_sort no_faults release silent_record run_name id 32 ['i', 'n'] ['o', 'u', 't'] 2
        (disk_of [(['i', 'n'], "x\r".toList)])).2.disk ['o', 'u', 't'] = some "\r".toList ∧
      parse_file silent_record "x\r".toList = [()] ∧
      parse_file silent_record "\r".toList = []) ∧
    ((∀ r, equivalent two_line_record
        (two_line_record.extract (two_line_record.insert r)) r = true) ∧
      (merge_sort no_faults release two_line_record run_name id 32 ['i', 'n'] ['o', 'u', 't'] 2
        (disk_of [(['i', 'n'], "x\r".toList)])).1 = .returned true ∧
      (merge_sort no_faults release two_line_record run_name id 32 ['i', 'n'] ['o', 'u', 't'] 2
        (disk_of [(['i', 'n'], "x\r".toList)])).2.disk ['o', 'u', 't']
          = some "a\rb\r".toList ∧
      parse_file two_line_record "x\r".toList = [()] ∧
      parse_file two_line_record "a\rb\r".toList = [(), ()]) := by
  decide

/-! ## Sorting a sorted file -/

/-- In a chunk map whose keys are all at most `r`, in a total order, the record `r` takes
the last place. -/
theorem lines_insert_last {R : Type} {ops : RecordOps R}
    (htotal : ∀ a b, ops.lt a b = false → ops.lt b a = false → a = b) (r : R) :
    ∀ (m : List (R × Nat)), (m.map Prod.fst).Pairwise (fun a b => ops.lt a b = true) →
      (∀ k ∈ m.map Prod.fst, ops.lt r k = false) → (expand m).length + 1 < 4294967296 →
      expand (lines_insert ops r m) = expand m ++ [r] ∧
      ((lines_insert ops r m).map Prod.fst).Pairwise (fun a b => ops.lt a b = true) ∧
      (∀ k ∈ (lines_insert ops r m).map Prod.fst, k ∈ m.map Prod.fst ∨ k = r) := by
  intro m
  induction m with
  | nil =>
    intro _ _ _
    simp [lines_insert, expand]
  | cons e rest ih =>
    obtain ⟨k, c⟩ := e
    intro hsorted hle hb
    rw [expand_length_head] at hb
    simp only [List.map_cons, List.pairwise_cons] at hsorted
    have hrk : ops.lt r k = false := hle k (by simp)
    cases hkr : ops.lt k r with
    | true =>
      obtain ⟨i1, i2, i3⟩ := ih hsorted.2
        (fun x hx => hle x (by simp only [List.map_cons]; exact List.mem_cons_of_mem _ hx))
        (by omega)
      have hstep : lines_insert ops r ((k, c) :: rest) = (k, c) :: lines_insert ops r rest := by
        simp [lines_insert, shared_ptr_indirect_less, hrk, hkr]
      rw [hstep]
      refine ⟨by simp [expand, i1], ?_, ?_⟩
      · simp only [List.map_cons, List.pairwise_cons]
        refine ⟨fun x hx => ?_, i2⟩
        rcases i3 x hx with h | rfl
        · exact hsorted.1 x h
        · exact hkr
      · intro x hx
        simp only [List.map_cons, List.mem_cons] at hx ⊢
        rcases hx with rfl | hx
        · exact Or.inl (Or.inl rfl)
        · rcases i3 x hx with h | h
          · exact Or.inl (Or.inr h)
          · exact Or.inr h
    | false =>
      have hkeq : k = r := htotal k r hkr hrk
      have hrest : rest = [] := by
        cases rest with
        | nil => rfl
        | cons e2 rest2 =>
          have h1 : ops.lt k e2.1 = true := hsorted.1 e2.1 (by simp)
          have h2 : ops.lt r e2.1 = false := hle e2.1 (by simp)
          rw [hkeq, h2] at h1
          simp at h1
      subst hrest
      subst hkeq
      have hstep : lines_insert ops k [(k, c)] = [(k, (c + 1) % 4294967296)] := by
        simp [lines_insert, shared_ptr_indirect_less, hrk]
      rw [hstep, Nat.mod_eq_of_lt (by omega)]
      refine ⟨by simp [expand, List.replicate_succ'], by simp, by simp⟩

theorem not_greater_trans {R : Type} {ops : RecordOps R} (hswo : StrictWeakOrder ops.lt)
    (htotal : ∀ a b, ops.lt a b = false → ops.lt b a = false → a = b) {a b c : R}
    (hab : ops.lt b a = false) (hbc : ops.lt c b = false) : ops.lt c a = false := by
  cases hca : ops.lt c a with
  | false => rfl
  | true =>
    cases h1 : ops.lt a b with
    | false =>
      have := htotal a b h1 hab
      subst this
      rw [hca] at hbc
      simp at hbc
    | true =>
      cases h2 : ops.lt b c with
      | false =>
        have := htotal b c h2 hbc
        subst this
        rw [hca] at hab
        simp at hab
      | true =>
        have h3 := hswo.trans a b c h1 h2
        have h4 := hswo.trans a c a h3 hca
        rw [hswo.irrefl a] at h4
        simp at h4

theorem pairwise_of_no_descent {R : Type} {ops : RecordOps R} (hswo : StrictWeakOrder ops.lt)
    (htotal : ∀ a b, ops.lt a b = false → ops.lt b a = false → a = b) :
    ∀ (rs : List R), non_decreasing ops rs = true →
      rs.Pairwise (fun a b => ops.lt b a = false) := by
  intro rs
  induction rs with
  | nil => intro _; exact List.Pairwise.nil
  | cons a rs ih =>
    intro h
    cases rs with
    | nil => simp
    | cons b rs2 =>
      simp only [non_decreasing, no_descent, Bool.and_eq_true, Bool.not_eq_true'] at h
      have hp := ih (by simpa [non_decreasing] using h.2)
      refine List.Pairwise.cons ?_ hp
      intro x hx
      rcases List.mem_cons.mp hx with rfl | hx
      · exact h.1
      · exact not_greater_trans hswo htotal h.1 ((List.pairwise_cons.mp hp).1 x hx)

/-- One pass of the inner reading loop over a file that holds fewer than `n` serialised
records in non-decreasing order, none below a key of the map: the pass reaches the end of
the stream and the map stands for its former records followed by those of the file. -/
theorem read_chunk_sorted_input {R : Type} {ops : RecordOps R}
    (htotal : ∀ a b, ops.lt a b = false → ops.lt b a = false → a = b)
    (hround : ∀ r, equivalent ops (ops.extract (ops.insert r)) r = true)
    (hfmt : ∀ r, ops.insert r ≠ [] ∧ '\r' ∉ ops.insert r) :
    ∀ (rs : List R) (n : Nat) (s : ifstream) (m : List (R × Nat)),
      s.eofbit = false → s.failbit = false → s.buf = lines_bytes (rs.map ops.insert) →
      rs.length < n → (m.map Prod.fst).Pairwise (fun a b => ops.lt a b = true) →
      (∀ k ∈ m.map Prod.fst, ∀ x ∈ rs, ops.lt x k = false) →
      rs.Pairwise (fun a b => ops.lt b a = false) →
      (expand m).length + n < 4294967296 →
      ∃ s1 m1, read_chunk ops n s m = some (s1, m1) ∧ s1.eofbit = true ∧
        expand m1 = expand m ++ rs := by
  intro rs
  induction rs with
  | nil =>
    intro n s m he hf hbuf hn _ _ _ _
    obtain ⟨n1, rfl⟩ : ∃ k, n = k + 1 := ⟨n - 1, by omega⟩
    have hb : s.buf = [] := by rw [hbuf]; rfl
    have hg : getline s [] = ({ s with buf := [], eofbit := true, failbit := true }, []) := by
      simp [getline, he, hf, hb, scan_line]
    refine ⟨{ s with buf := [], eofbit := true, failbit := true }, m, ?_, rfl, by simp⟩
    rw [read_chunk]
    simp only [he, hf, Bool.false_eq_true, if_false, hg, List.length_nil, gt_iff_lt,
      Nat.lt_irrefl]
    cases n1 <;> simp [read_chunk]
  | cons r rs ih =>
    intro n s m he hf hbuf hn hsorted hle hrs hb
    obtain ⟨n1, rfl⟩ : ∃ k, n = k + 1 := ⟨n - 1, by omega⟩
    have hl : '\r' ∉ ops.insert r := (hfmt r).2
    have hb1 : s.buf = ops.insert r ++ '\r' :: lines_bytes (rs.map ops.insert) := by
      rw [hbuf, List.map_cons, lines_bytes_cons]
    have hg : getline s [] =
        ({ s with buf := lines_bytes (rs.map ops.insert) }, ops.insert r) := by
      simp [getline, he, hf, hb1, scan_line_append _ _ hl]
    have hlen : (ops.insert r).length > 0 := List.length_pos.mpr (hfmt r).1
    have hrr : ops.extract (ops.insert r) = r := by
      have h := hround r
      simp only [equivalent, Bool.and_eq_true, Bool.not_eq_true'] at h
      exact htotal _ _ h.1 h.2
    obtain ⟨a1, a2, a3⟩ := lines_insert_last htotal r m hsorted
      (fun k hk => hle k hk r (by simp)) (by omega)
    obtain ⟨s1, m1, i1, i2, i3⟩ := ih n1 { s with buf := lines_bytes (rs.map ops.insert) }
      (lines_insert ops r m) he hf rfl (by simp only [List.length_cons] at hn; omega) a2
      (fun k hk x hx => by
        rcases a3 k hk with h | rfl
        · exact hle k h x (List.mem_cons_of_mem _ hx)
        · exact (List.pairwise_cons.mp hrs).1 x hx)
      (List.pairwise_cons.mp hrs).2
      (by rw [a1]; simp only [List.length_append, List.length_singleton]; omega)
    refine ⟨s1, m1, ?_, i2, by rw [i3, a1]; simp⟩
    rw [read_chunk]
    simp only [he, hf, Bool.false_eq_true, if_false, hg, hlen, if_true, hrr]
    simp only [he, hf] at i1
    exact i1

/-- The single-run path on a sorted file.  Take a record type whose `operator<` is a strict
total order, whose stream extraction applied to its stream insertion gives back the record,
and whose stream insertion writes at least one byte and never the delimiter `'\r'`.  A file
made of the serialisations of records in non-decreasing order, each followed by `'\r'`,
sorted with a `max_lines` greater than the number of its records, goes through a single run
and comes back byte for byte at the output path. -/
theorem merge_sort_sorted_file_unchanged {R : Type} (ops : RecordOps R) (env : Env)
    (build : Build) (tmp : Nat → Path) (addr : Nat → Nat) (inp out : Path) (max_lines : Nat)
    (w : World) (rs : List R)
    (hswo : StrictWeakOrder ops.lt)
    (htotal : ∀ a b, ops.lt a b = false → ops.lt b a = false → a = b)
    (hround : ∀ r, equivalent ops (ops.extract (ops.insert r)) r = true)
    (hfmt : ∀ r, ops.insert r ≠ [] ∧ '\r' ∉ ops.insert r)
    (hsorted : non_decreasing ops rs = true)
    (hlen : rs.length < max_lines) (hmax2 : max_lines < 4294967296)
    (hin : w.disk inp = some (lines_bytes (rs.map ops.insert)))
    (hread : env.readable inp = true) (htmpw : env.writable (tmp 0) = true)
    (hout : tmp 0 ≠ out) (hren : env.rename_fails (tmp 0) out = false)
    (fuel : Nat) (hfuel : 1 ≤ fuel) :
    (merge_sort env build ops tmp addr fuel inp out max_lines w).1 = .returned true ∧
    (merge_sort env build ops tmp addr fuel inp out max_lines w).2.disk out
      = some (lines_bytes (rs.map ops.insert)) := by
  have hopen : ifstream_open env w inp = opened (lines_bytes (rs.map ops.insert)) := by
    simp [ifstream_open, hin, hread]
  obtain ⟨s1, m1, hc1, hc2, hc3⟩ := read_chunk_sorted_input htotal hround hfmt rs max_lines
    (opened (lines_bytes (rs.map ops.insert))) [] rfl rfl rfl hlen (by simp) (by simp)
    (pairwise_of_no_descent hswo htotal rs hsorted) (by simp [expand]; omega)
  simp only [expand, List.nil_append] at hc3
  obtain ⟨fuel1, rfl⟩ : ∃ f, fuel = f + 1 := ⟨fuel - 1, by omega⟩
  have hoo : ofstream_open env w (tmp 0) =
      (true, { w with disk := Function.update w.disk (tmp 0) (some []) }) := by
    simp [ofstream_open, htmpw]
  obtain ⟨st2, hst2⟩ : ∃ st2 : SortState, st2 =
      { world := ofstream_close { w with disk := Function.update w.disk (tmp 0) (some []) }
          (tmp 0) true (run_content ops m1),
        temporary_files := [tmp 0], names := 1 } := ⟨_, rfl⟩
  have hloop : read_loop env ops tmp max_lines (fuel1 + 1) (ifstream_open env w inp)
      { world := w, temporary_files := [], names := 0 } = (none, st2) := by
    rw [hopen, read_loop]
    simp only [opened_eofbit, Bool.false_eq_true, if_false, hc1, hoo, Bool.not_true,
      Bool.false_and, List.nil_append, Nat.zero_add, ← hst2]
    cases fuel1 <;> simp [read_loop, hc2]
  have hdisk : st2.world.disk (tmp 0) = some (run_content ops m1) := by
    rw [hst2]; simp [ofstream_close]
  obtain ⟨h1, h2, _, _⟩ := merge_sort_single_run env build ops tmp addr (fuel1 + 1) inp out
    max_lines w st2 (tmp 0) (run_content ops m1) (by rw [hopen]; rfl) hloop (by rw [hst2]) hdisk
    hout hren
  refine ⟨h1, ?_⟩
  rw [h2, run_content_eq, hc3]

theorem bit_record_total :
    ∀ a b, bit_record.lt a b = false → bit_record.lt b a = false → a = b := by
  decide

/-- An instance of `merge_sort_sorted_file_unchanged`: the one-bit records 0, 1, 1 and four
lines per chunk. -/
theorem merge_sort_sorted_file_unchanged_witness :
    non_decreasing bit_record [false, true, true] = true ∧
    (disk_of [(['i', 'n'], "0\r1\r1\r".toList)]).disk ['i', 'n']
      = some (lines_bytes ([false, true, true].map bit_record.insert)) ∧
    (merge_sort no_faults release bit_record run_name id 8 ['i', 'n'] ['o', 'u', 't'] 4
      (disk_of [(['i', 'n'], "0\r1\r1\r".toList)])).1 = .returned true ∧
    (merge_sort no_faults release bit_record run_name id 8 ['i', 'n'] ['o', 'u', 't'] 4
      (disk_of [(['i', 'n'], "0\r1\r1\r".toList)])).2.disk ['o', 'u', 't']
        = some (lines_bytes ([false, true, true].map bit_record.insert)) :=
  ⟨by decide, by decide,
    merge_sort_sorted_file_unchanged bit_record no_faults release run_name id ['i', 'n']
      ['o', 'u', 't'] 4 (disk_of [(['i', 'n'], "0\r1\r1\r".toList)]) [false, true, true]
      bit_record_order bit_record_total (by decide) (by decide) (by decide) (by decide)
      (by decide) (by decide) rfl rfl (by decide) rfl 8 (by decide)⟩

/-- Two sorted files that do not come back as they were.  The file `"1\r2"` holds the
integer records 1 and 2 in non-decreasing order; sorted with `max_lines = 5` it comes back
as `"1\r2\r"`, every record being written with its delimiter.  The file `"1\r2\r"`, sorted
with `max_lines = 2`, comes back with a blank line added, before or after the records
according to the addresses of the two stream objects. -/
theorem sorted_file_not_reproduced :
    (non_decreasing int_record (parse_file int_record "1\r2".toList) = true ∧
      (merge_sort no_faults release int_record run_name (addresses [0, 1]) 32 ['i', 'n']
        ['o', 'u', 't'] 5 (disk_of [(['i', 'n'], "1\r2".toList)])).1 = .returned true ∧
      (merge_sort no_faults release int_record run_name (addresses [0, 1]) 32 ['i', 'n']
        ['o', 'u', 't'] 5 (disk_of [(['i', 'n'], "1\r2".toList)])).2.disk ['o', 'u', 't']
          = some "1\r2\r".toList ∧
      "1\r2\r".toList ≠ "1\r2".toList) ∧
    (non_decreasing int_record (parse_file int_record "1\r2\r".toList) = true ∧
      (merge_sort no_faults release int_record run_name (addresses [0, 1]) 32 ['i', 'n']
        ['o', 'u', 't'] 2 (disk_of [(['i', 'n'], "1\r2\r".toList)])).2.disk ['o', 'u', 't']
          = some "1\r2\r\r".toList ∧
      (merge_sort no_faults release int_record run_name (addresses [1, 0]) 32 ['i', 'n']
        ['o', 'u', 't'] 2 (disk_of [(['i', 'n'], "1\r2\r".toList)])).2.disk ['o', 'u', 't']
          = some "\r1\r2\r".toList) := by
  decide

set_option maxRecDepth 100000 in
theorem sort_12_by_two_small : ∀ r0, r0 < 2 → ∀ r1, r1 < 2 →
    (merge_sort no_faults release int_record run_name (addresses [r0, r1]) 32 ['i', 'n']
      ['o', 'u', 't'] 2 (disk_of [(['i', 'n'], "1\r2\r".toList)])).1 = .returned true ∧
    (merge_sort no_faults release int_record run_name (addresses [r0, r1]) 32 ['i', 'n']
      ['o', 'u', 't'] 2 (disk_of [(['i', 'n'], "1\r2\r".toList)])).2.disk ['o', 'u', 't']
        ≠ some "1\r2\r".toList := by
  decide

set_option maxRecDepth 100000 in
theorem sort_123_by_two_small : ∀ r0, r0 < 2 → ∀ r1, r1 < 2 → r1 < r0 →
    (merge_sort no_faults release int_record run_name (addresses [r0, r1]) 32 ['i', 'n']
      ['o', 'u', 't'] 2 (disk_of [(['i', 'n'], "1\r2\r3\r".toList)])).1 = .returned true ∧
    (merge_sort no_faults release int_record run_name (addresses [r0, r1]) 32 ['i', 'n']
      ['o', 'u', 't'] 2 (disk_of [(['i', 'n'], "1\r2\r3\r".toList)])).2.disk ['o', 'u', 't']
        = some "3\r1\r2\r".toList := by
  decide

/-- The outcome of sorting the sorted file `"1\r2\r"` two lines at a time, for any addresses
of the two stream objects: the output is not the input. -/
theorem sort_12_by_two (addr : Nat → Nat) :
    (merge_sort no_faults release int_record run_name addr 32 ['i', 'n']
      ['o', 'u', 't'] 2 (disk_of [(['i', 'n'], "1\r2\r".toList)])).1 = .returned true ∧
    (merge_sort no_faults release int_record run_name addr 32 ['i', 'n']
      ['o', 'u', 't'] 2 (disk_of [(['i', 'n'], "1\r2\r".toList)])).2.disk ['o', 'u', 't']
        ≠ some "1\r2\r".toList := by
  obtain ⟨r0, h0, r1, h1, hso⟩ := same_order_two addr
  rw [merge_sort_congr no_faults release int_record run_name hso 32 _ _ 2 _ (by decide)]
  exact sort_12_by_two_small r0 h0 r1 h1

/-- The outcome of sorting the sorted file `"1\r2\r3\r"` two lines at a time when the second
stream object has the lower address. -/
theorem sort_123_by_two (addr : Nat → Nat) (h : addr 1 < addr 0) :
    (merge_sort no_faults release int_record run_name addr 32 ['i', 'n']
      ['o', 'u', 't'] 2 (disk_of [(['i', 'n'], "1\r2\r3\r".toList)])).1 = .returned true ∧
    (merge_sort no_faults release int_record run_name addr 32 ['i', 'n']
      ['o', 'u', 't'] 2 (disk_of [(['i', 'n'], "1\r2\r3\r".toList)])).2.disk ['o', 'u', 't']
        = some "3\r1\r2\r".toList := by
  obtain ⟨r0, h0, r1, h1, hso⟩ := same_order_two addr
  have hlt : r1 < r0 := by
    have := (hso 1 0 (by omega) (by omega)).1 h
    simpa [addresses] using this
  rw [merge_sort_congr no_faults release int_record run_name hso 32 _ _ 2 _ (by decide)]
  exact sort_123_by_two_small r0 h0 r1 h1 hlt

set_option maxRecDepth 100000 in
theorem sort_12_by_three_small : ∀ r0, r0 < 2 → ∀ r1, r1 < 2 →
    (merge_sort no_faults release int_record run_name (addresses [r0, r1]) 32 ['i', 'n']
      ['o', 'u', 't'] 3 (disk_of [(['i', 'n'], "1\r2\r".toList)])).2.disk ['o', 'u', 't']
        = some "1\r2\r".toList := by
  decide

/-- The outcome of sorting the sorted file `"1\r2\r"` three lines at a time: a single run,
and the output is the input. -/
theorem sort_12_by_three (addr : Nat → Nat) :
    (merge_sort no_faults release int_record run_name addr 32 ['i', 'n']
      ['o', 'u', 't'] 3 (disk_of [(['i', 'n'], "1\r2\r".toList)])).2.disk ['o', 'u', 't']
        = some "1\r2\r".toList := by
  obtain ⟨r0, h0, r1, h1, hso⟩ := same_order_two addr
  rw [merge_sort_congr no_faults release int_record run_name hso 32 _ _ 3 _ (by decide)]
  exact sort_12_by_three_small r0 h0 r1 h1

/-- Claim C6 (fails on the code).  The files `"1\r2\r3\r"` and `"1\r2\r"` hold integer records
in non-decreasing order, each written as `merge_sort` writes it.  Sorted with
`max_lines = 2`, the first gives the runs `"1\r2\r"` and `"3\r"`, and when the stream object
of the second run has the lower address `merge_sort` returns `true` with the output
`"3\r1\r2\r"`.  The second gives the run `"1\r2\r"` and an empty run, and whatever the
addresses are the output has a blank line more than the input.  With `max_lines = 3` the
second file goes through a single run and comes back as it was. -/
theorem merge_sort_changes_sorted_file (addr : Nat → Nat) (h : addr 1 < addr 0) :
    (non_decreasing int_record (parse_file int_record "1\r2\r3\r".toList) = true ∧
      (merge_sort no_faults release int_record run_name addr 32 ['i', 'n']
        ['o', 'u', 't'] 2 (disk_of [(['i', 'n'], "1\r2\r3\r".toList)])).1 = .returned true ∧
      (merge_sort no_faults release int_record run_name addr 32 ['i', 'n']
        ['o', 'u', 't'] 2 (disk_of [(['i', 'n'], "1\r2\r3\r".toList)])).2.disk ['o', 'u', 't']
          = some "3\r1\r2\r".toList) ∧
    (non_decreasing int_record (parse_file int_record "1\r2\r".toList) = true ∧
      (∀ a : Nat → Nat,
        (merge_sort no_faults release int_record run_name a 32 ['i', 'n']
          ['o', 'u', 't'] 2 (disk_of [(['i', 'n'], "1\r2\r".toList)])).1 = .returned true ∧
        (merge_sort no_faults release int_record run_name a 32 ['i', 'n']
          ['o', 'u', 't'] 2 (disk_of [(['i', 'n'], "1\r2\r".toList)])).2.disk ['o', 'u', 't']
            ≠ some "1\r2\r".toList) ∧
      (merge_sort no_faults release int_record run_name addr 32 ['i', 'n']
        ['o', 'u', 't'] 3 (disk_of [(['i', 'n'], "1\r2\r".toList)])).2.disk ['o', 'u', 't']
          = some "1\r2\r".toList) :=
  ⟨⟨by decide, (sort_123_by_two addr h).1, (sort_123_by_two addr h).2⟩,
    by decide, sort_12_by_two, sort_12_by_three addr⟩

/-- The instance of `merge_sort_changes_sorted_file` where the second stream object has the
lower address. -/
theorem merge_sort_changes_sorted_file_witness :
    addresses [1, 0] 1 < addresses [1, 0] 0 ∧
    (merge_sort no_faults release int_record run_name (addresses [1, 0]) 32 ['i', 'n']
      ['o', 'u', 't'] 2 (disk_of [(['i', 'n'], "1\r2\r3\r".toList)])).2.disk ['o', 'u', 't']
        = some "3\r1\r2\r".toList :=
  ⟨by decide, (merge_sort_changes_sorted_file (addresses [1, 0]) (by decide)).1.2.2⟩

/-! ## What the calls leave on the disk -/

/-- The reading loop of `merge_sort`, whatever fails: it only adds temporary names to the
list, it attempts no removal, and it touches the disk at its temporary names only. -/
theorem read_loop_frame {R : Type} (env : Env) (ops : RecordOps R) (tmp : Nat → Path)
    (max_lines : Nat) :
    ∀ (fuel : Nat) (s : ifstream) (st : SortState),
      ∃ n, (read_loop env ops tmp max_lines fuel s st).2.names = st.names + n ∧
        (read_loop env ops tmp max_lines fuel s st).2.temporary_files =
          st.temporary_files ++ (List.range n).map (fun i => tmp (st.names + i)) ∧
        (read_loop env ops tmp max_lines fuel s st).2.world.removes = st.world.removes ∧
        (∀ p, (∀ i, i < n → p ≠ tmp (st.names + i)) →
          (read_loop env ops tmp max_lines fuel s st).2.world.disk p = st.world.disk p) := by
  intro fuel
  induction fuel with
  | zero =>
    intro s st
    refine ⟨0, ?_, ?_, ?_, ?_⟩ <;> (simp only [read_loop]; split <;> simp)
  | succ fuel ih =>
    intro s st
    rw [read_loop]
    split
    · exact ⟨0, by simp, by simp, rfl, fun p _ => rfl⟩
    · split
      · exact ⟨0, by simp, by simp, rfl, fun p _ => rfl⟩
      · rename_i s1 m1 _
        have hod : ∀ p, p ≠ tmp st.names →
            (ofstream_open env st.world (tmp st.names)).2.disk p = st.world.disk p := by
          intro p hp
          unfold ofstream_open
          split <;> simp [Function.update, hp]
        have hor : (ofstream_open env st.world (tmp st.names)).2.removes = st.world.removes := by
          unfold ofstream_open
          split <;> rfl
        simp only
        split
        · refine ⟨1, rfl, ?_, hor, fun p hp => hod p (by simpa using hp 0 (by omega))⟩
          have hr1 : List.range 1 = [0] := rfl
          simp [hr1]
        · obtain ⟨n, h1, h2, h3, h4⟩ := ih s1
            { world := ofstream_close (ofstream_open env st.world (tmp st.names)).2
                (tmp st.names) (ofstream_open env st.world (tmp st.names)).1
                (run_content ops m1),
              temporary_files := st.temporary_files ++ [tmp st.names],
              names := st.names + 1 }
          refine ⟨n + 1, by rw [h1]; simp only; omega, ?_, ?_, ?_⟩
          · rw [h2]
            simp only [List.append_assoc, List.singleton_append]
            congr 1
            rw [List.range_succ_eq_map]
            simp only [List.map_cons, List.map_map, Nat.add_zero]
            congr 1
            apply List.map_congr_left
            intro i _
            simp only [Function.comp]
            congr 1
            omega
          · rw [h3]
            simp only [ofstream_close]
            split <;> exact hor
          · intro p hp
            rw [h4 p (fun i hi => by
              have := hp (i + 1) (by omega)
              rw [show st.names + (i + 1) = st.names + 1 + i by omega] at this
              exact this)]
            have h0 : p ≠ tmp st.names := by simpa using hp 0 (by omega)
            simp only [ofstream_close]
            split
            · simp only [Function.update, h0, dite_false]
              exact hod p h0
            · exact hod p h0

/-- The call of `do_file_merge` attempts no removal and touches the disk at the output path
only. -/
theorem do_file_merge_frame (env : Env) (build : Build) (addr : Nat → Nat) (fuel : Nat)
    (files : List Path) (out : Path) (w : World) :
    (do_file_merge env build addr fuel files out w).2.removes = w.removes ∧
    ∀ p, p ≠ out → (do_file_merge env build addr fuel files out w).2.disk p = w.disk p := by
  have hod : ∀ p, p ≠ out → (ofstream_open env w out).2.disk p = w.disk p := by
    intro p hp
    unfold ofstream_open
    split <;> simp [Function.update, hp]
  have hor : (ofstream_open env w out).2.removes = w.removes := by
    unfold ofstream_open
    split <;> rfl
  unfold do_file_merge
  simp only
  split
  · constructor
    · simp only [ofstream_close]
      split <;> exact hor
    · intro p hp
      simp only [ofstream_close]
      split
      · simp only [Function.update, hp, dite_false]
        exact hod p hp
      · exact hod p hp
  · exact ⟨hor, hod⟩

theorem rename_frame (env : Env) (w : World) (a b : Path) :
    (rename env w a b).2.removes = w.removes ∧
    (∀ e, (rename env w a b).1 = .error e → (rename env w a b).2 = w) ∧
    ((rename env w a b).1 = .ok () →
      ∃ c, w.disk a = some c ∧
        (rename env w a b).2.disk = Function.update (Function.update w.disk a none) b (some c)) := by
  unfold rename
  split
  · exact ⟨rfl, fun _ _ => rfl, fun h => by simp at h⟩
  · split
    · exact ⟨rfl, fun _ _ => rfl, fun h => by simp at h⟩
    · rename_i c _ _
      exact ⟨rfl, fun e h => by simp at h, fun _ => ⟨c, by assumption, rfl⟩⟩

/-- The state in which the body of `merge_sort` ends, whatever fails: the list
`temporary_files` holds names obtained from the supplier only; every name obtained is in
the list or names no file; and no path other than the output path and the names obtained
has changed on the disk. -/
theorem merge_sort_body_invariant {R : Type} (env : Env) (build : Build) (ops : RecordOps R)
    (tmp : Nat → Path) (addr : Nat → Nat) (fuel : Nat) (inp out : Path) (max_lines : Nat)
    (w : World) (hne : ∀ k, tmp k ≠ []) (hrm : ∀ k, env.remove_fails (tmp k) = false) :
    (∀ p ∈ (merge_sort_body env build ops tmp addr fuel inp out max_lines w).2.temporary_files,
      ∃ k, k < (merge_sort_body env build ops tmp addr fuel inp out max_lines w).2.names ∧
        p = tmp k) ∧
    (∀ k, k < (merge_sort_body env build ops tmp addr fuel inp out max_lines w).2.names →
      tmp k ∈ (merge_sort_body env build ops tmp addr fuel inp out max_lines w).2.temporary_files ∨
      (merge_sort_body env build ops tmp addr fuel inp out max_lines w).2.world.disk (tmp k)
        = none) ∧
    (∀ p, p ≠ out →
      (∀ k, k < (merge_sort_body env build ops tmp addr fuel inp out max_lines w).2.names →
        p ≠ tmp k) →
      (merge_sort_body env build ops tmp addr fuel inp out max_lines w).2.world.disk p
        = w.disk p) := by
  obtain ⟨n, f1, f2, _, f4⟩ := read_loop_frame env ops tmp max_lines fuel
    (ifstream_open env w inp) { world := w, temporary_files := [], names := 0 }
  simp only [Nat.zero_add, List.nil_append] at f1 f2 f4
  obtain ⟨L, hL⟩ : ∃ L, read_loop env ops tmp max_lines fuel (ifstream_open env w inp)
      { world := w, temporary_files := [], names := 0 } = L := ⟨_, rfl⟩
  rw [hL] at f1 f2 f4
  have hmem : ∀ p ∈ L.2.temporary_files, ∃ k, k < L.2.names ∧ p = tmp k := by
    intro p hp
    rw [f2] at hp
    obtain ⟨i, hi, rfl⟩ := List.mem_map.mp hp
    exact ⟨i, by rw [f1]; exact List.mem_range.mp hi, rfl⟩
  have hall : ∀ k, k < L.2.names → tmp k ∈ L.2.temporary_files := by
    intro k hk
    rw [f2]
    exact List.mem_map.mpr ⟨k, List.mem_range.mpr (by rw [← f1]; exact hk), rfl⟩
  have hframe : ∀ p, (∀ k, k < L.2.names → p ≠ tmp k) → L.2.world.disk p = w.disk p := by
    intro p hp
    exact f4 p (fun i hi => hp i (by rw [f1]; exact hi))
  obtain ⟨lo, st⟩ := L
  simp only at hmem hall hframe f1 f2
  unfold merge_sort_body
  simp only [hL]
  split
  · exact ⟨fun p hp => by simp at hp, fun k hk => by simp at hk, fun p _ _ => rfl⟩
  · cases lo with
    | some o =>
      exact ⟨hmem, fun k hk => Or.inl (hall k hk), fun p _ hp => hframe p hp⟩
    | none =>
      simp only
      split
      · rename_i hlen
        have hn1 : n = 1 := by
          rw [f2] at hlen
          simpa using hlen
        have hr1 : List.range 1 = [0] := rfl
        rw [hn1] at f1
        rw [hn1, hr1] at f2
        simp only [List.map_cons, List.map_nil] at f2
        rw [f2]
        simp only [List.headD_cons]
        obtain ⟨r1, r2, r3⟩ := rename_frame env (delete_file env st.world out).2 (tmp 0) out
        split
        · rename_i e w1 hren
          have hw1 : w1 = (delete_file env st.world out).2 := by
            have := r2 e (by rw [hren])
            rw [hren] at this
            exact this
          simp only
          refine ⟨fun p hp => ?_, fun k hk => Or.inl ?_, fun p hp1 hp2 => ?_⟩
          · simp only [List.mem_singleton] at hp
            exact ⟨0, by omega, hp⟩
          · have : k = 0 := by omega
            subst this
            simp
          · rw [hw1]
            rcases delete_file_disk env st.world out p with h | ⟨_, h⟩
            · rw [h]; exact hframe p hp2
            · exact absurd h hp1
        · rename_i u w1 hren
          obtain ⟨c, hc, hdisk⟩ := r3 (by rw [hren])
          rw [hren] at hdisk
          simp only at hdisk
          have hto : tmp 0 ≠ out := by
            intro heq
            have := delete_file_gone env st.world out (by rw [← heq]; exact hne 0)
              (by rw [← heq]; exact hrm 0)
            rw [← heq] at this hc
            rw [this] at hc
            simp at hc
          simp only
          refine ⟨fun p hp => by simp at hp, fun k hk => Or.inr ?_, fun p hp1 hp2 => ?_⟩
          · have : k = 0 := by omega
            subst this
            rw [hdisk]
            simp [Function.update, hto]
          · rw [hdisk]
            have hp0 : p ≠ tmp 0 := hp2 0 (by omega)
            simp only [Function.update, hp1, hp0, dite_false]
            rcases delete_file_disk env st.world out p with h | ⟨_, h⟩
            · rw [h]; exact hframe p hp2
            · exact absurd h hp1
      · obtain ⟨_, d2⟩ := do_file_merge_frame env build addr fuel st.temporary_files out st.world
        split
        · exact ⟨hmem, fun k hk => Or.inl (hall k hk), fun p hp1 hp2 => by
            simp only
            rw [d2 p hp1]
            exact hframe p hp2⟩
        · exact ⟨hmem, fun k hk => Or.inl (hall k hk), fun p hp1 hp2 => by
            simp only
            rw [d2 p hp1]
            exact hframe p hp2⟩

/-- The reading loop never ends with a `return`: it ends normally, throws, or runs out of
fuel. -/
theorem read_loop_outcome {R : Type} (env : Env) (ops : RecordOps R) (tmp : Nat → Path)
    (max_lines : Nat) :
    ∀ (fuel : Nat) (s : ifstream) (st : SortState) (b : Bool),
      (read_loop env ops tmp max_lines fuel s st).1 ≠ some (.returned b) := by
  intro fuel
  induction fuel with
  | zero =>
    intro s st b
    simp only [read_loop]
    split <;> simp
  | succ fuel ih =>
    intro s st b
    rw [read_loop]
    split
    · simp
    · split
      · simp
      · simp only
        split
        · simp
        · exact ih _ _ b

/-- When the reading loop ends normally after asking for one temporary name, and the file
of that name could be written, the file holds the run of the first chunk. -/
theorem read_loop_single_run {R : Type} (env : Env) (ops : RecordOps R) (tmp : Nat → Path)
    (max_lines : Nat) (fuel : Nat) (s : ifstream) (w : World)
    (hw : env.writable (tmp 0) = true)
    (h1 : (read_loop env ops tmp max_lines fuel s
      { world := w, temporary_files := [], names := 0 }).1 = none)
    (h2 : (read_loop env ops tmp max_lines fuel s
      { world := w, temporary_files := [], names := 0 }).2.names = 1) :
    ∃ s1 m, read_chunk ops max_lines s [] = some (s1, m) ∧
      (read_loop env ops tmp max_lines fuel s
        { world := w, temporary_files := [], names := 0 }).2.world.disk (tmp 0)
          = some (run_content ops m) := by
  cases fuel with
  | zero =>
    simp only [read_loop] at h2
    split at h2 <;> simp at h2
  | succ fuel =>
    cases he : s.eofbit with
    | true =>
      have hr : read_loop env ops tmp max_lines (fuel + 1) s
          { world := w, temporary_files := [], names := 0 } =
          (none, { world := w, temporary_files := [], names := 0 }) := by
        rw [read_loop]; simp [he]
      rw [hr] at h2
      simp at h2
    | false =>
      cases hc : read_chunk ops max_lines s [] with
      | none =>
        have hr : read_loop env ops tmp max_lines (fuel + 1) s
            { world := w, temporary_files := [], names := 0 } =
            (some (.threw .read_error), { world := w, temporary_files := [], names := 0 }) := by
          rw [read_loop]; simp [he, hc]
        rw [hr] at h1
        simp at h1
      | some r =>
        obtain ⟨s1, m⟩ := r
        have hoo : ofstream_open env w (tmp 0) =
            (true, { w with disk := Function.update w.disk (tmp 0) (some []) }) := by
          simp [ofstream_open, hw]
        have hr : read_loop env ops tmp max_lines (fuel + 1) s
            { world := w, temporary_files := [], names := 0 } =
            read_loop env ops tmp max_lines fuel s1
              { world := ofstream_close { w with disk := Function.update w.disk (tmp 0) (some []) }
                  (tmp 0) true (run_content ops m),
                temporary_files := [tmp 0], names := 1 } := by
          rw [read_loop]
          simp only [he, hc, hoo, Bool.not_true, Bool.false_and, Bool.false_eq_true, if_false,
            List.nil_append, Nat.zero_add]
        rw [hr] at h2 ⊢
        obtain ⟨n, f1, _, _, f4⟩ := read_loop_frame env ops tmp max_lines fuel s1
          { world := ofstream_close { w with disk := Function.update w.disk (tmp 0) (some []) }
              (tmp 0) true (run_content ops m),
            temporary_files := [tmp 0], names := 1 }
        rw [h2] at f1
        have hn : n = 0 := by simp only at f1; omega
        refine ⟨s1, m, rfl, ?_⟩
        rw [f4 (tmp 0) (fun i hi => by omega)]
        simp [ofstream_close]

theorem merge_sort_body_not_open {R : Type} (env : Env) (build : Build) (ops : RecordOps R)
    (tmp : Nat → Path) (addr : Nat → Nat) (fuel : Nat) (inp out : Path) (max_lines : Nat)
    (w : World) (hopen : (ifstream_open env w inp).is_open = false) :
    merge_sort_body env build ops tmp addr fuel inp out max_lines w =
      (.threw .unable_to_open_file, { world := w, temporary_files := [], names := 0 }) := by
  unfold merge_sort_body
  simp [hopen]

theorem merge_sort_body_read_failed {R : Type} (env : Env) (build : Build) (ops : RecordOps R)
    (tmp : Nat → Path) (addr : Nat → Nat) (fuel : Nat) (inp out : Path) (max_lines : Nat)
    (w : World) (o : Outcome) (st : SortState)
    (hopen : (ifstream_open env w inp).is_open = true)
    (hL : read_loop env ops tmp max_lines fuel (ifstream_open env w inp)
      { world := w, temporary_files := [], names := 0 } = (some o, st)) :
    merge_sort_body env build ops tmp addr fuel inp out max_lines w = (o, st) := by
  unfold merge_sort_body
  simp [hopen, hL]

theorem merge_sort_body_rename_failed {R : Type} (env : Env) (build : Build)
    (ops : RecordOps R) (tmp : Nat → Path) (addr : Nat → Nat) (fuel : Nat) (inp out : Path)
    (max_lines : Nat) (w : World) (st : SortState) (t : Path) (e : Exn) (w1 : World)
    (hopen : (ifstream_open env w inp).is_open = true)
    (hL : read_loop env ops tmp max_lines fuel (ifstream_open env w inp)
      { world := w, temporary_files := [], names := 0 } = (none, st))
    (hfiles : st.temporary_files = [t])
    (hren : rename env (delete_file env st.world out).2 t out = (.error e, w1)) :
    merge_sort_body env build ops tmp addr fuel inp out max_lines w =
      (.threw e, { st with world := w1 }) := by
  unfold merge_sort_body
  simp [hopen, hL, hfiles, hren]

theorem merge_sort_body_renamed {R : Type} (env : Env) (build : Build)
    (ops : RecordOps R) (tmp : Nat → Path) (addr : Nat → Nat) (fuel : Nat) (inp out : Path)
    (max_lines : Nat) (w : World) (st : SortState) (t : Path) (u : Unit) (w1 : World)
    (hopen : (ifstream_open env w inp).is_open = true)
    (hL : read_loop env ops tmp max_lines fuel (ifstream_open env w inp)
      { world := w, temporary_files := [], names := 0 } = (none, st))
    (hfiles : st.temporary_files = [t])
    (hren : rename env (delete_file env st.world out).2 t out = (.ok u, w1)) :
    merge_sort_body env build ops tmp addr fuel inp out max_lines w =
      (.returned true, { st with world := w1, temporary_files := [] }) := by
  unfold merge_sort_body
  simp [hopen, hL, hfiles, hren]

theorem merge_sort_body_merged {R : Type} (env : Env) (build : Build)
    (ops : RecordOps R) (tmp : Nat → Path) (addr : Nat → Nat) (fuel : Nat) (inp out : Path)
    (max_lines : Nat) (w : World) (st : SortState)
    (hopen : (ifstream_open env w inp).is_open = true)
    (hL : read_loop env ops tmp max_lines fuel (ifstream_open env w inp)
      { world := w, temporary_files := [], names := 0 } = (none, st))
    (hlen : st.temporary_files.length ≠ 1) :
    (merge_sort_body env build ops tmp addr fuel inp out max_lines w).2 =
      { st with world := (do_file_merge env build addr fuel st.temporary_files out st.world).2 } := by
  unfold merge_sort_body
  simp only [hopen, Bool.not_true, Bool.false_eq_true, if_false, hL, hlen]
  split <;> rfl

/-- The successful end of the single-run path: the list `temporary_files` has been emptied,
the only removal attempted so far is that of the output path, and the content of the run
file has been moved to the output path. -/
theorem merge_sort_body_single_run {R : Type} (env : Env) (build : Build) (ops : RecordOps R)
    (tmp : Nat → Path) (addr : Nat → Nat) (fuel : Nat) (inp out : Path) (max_lines : Nat)
    (w : World)
    (hret : (merge_sort_body env build ops tmp addr fuel inp out max_lines w).1
      = .returned true)
    (hone : (merge_sort_body env build ops tmp addr fuel inp out max_lines w).2.names = 1)
    (hne : tmp 0 ≠ []) (hrm : env.remove_fails (tmp 0) = false) :
    (merge_sort_body env build ops tmp addr fuel inp out max_lines w).2.temporary_files = [] ∧
    (merge_sort_body env build ops tmp addr fuel inp out max_lines w).2.world.removes
      = w.removes ++ [out].filter (fun p => !p.isEmpty) ∧
    (env.writable (tmp 0) = true →
      ∃ s1 m, read_chunk ops max_lines (ifstream_open env w inp) [] = some (s1, m) ∧
        (merge_sort_body env build ops tmp addr fuel inp out max_lines w).2.world.disk out
          = some (run_content ops m)) := by
  obtain ⟨n, f1, f2, f3, _⟩ := read_loop_frame env ops tmp max_lines fuel
    (ifstream_open env w inp) { world := w, temporary_files := [], names := 0 }
  have hout := read_loop_outcome env ops tmp max_lines fuel (ifstream_open env w inp)
    { world := w, temporary_files := [], names := 0 }
  have hsingle := read_loop_single_run env ops tmp max_lines fuel (ifstream_open env w inp) w
  simp only [Nat.zero_add, List.nil_append] at f1 f2 f3
  obtain ⟨L, hL⟩ : ∃ L, read_loop env ops tmp max_lines fuel (ifstream_open env w inp)
      { world := w, temporary_files := [], names := 0 } = L := ⟨_, rfl⟩
  rw [hL] at f1 f2 f3 hout hsingle
  obtain ⟨lo, st⟩ := L
  simp only at f1 f2 f3 hout hsingle
  cases hopen : (ifstream_open env w inp).is_open with
  | false =>
    rw [merge_sort_body_not_open env build ops tmp addr fuel inp out max_lines w hopen] at hret
    simp at hret
  | true =>
    cases lo with
    | some o =>
      rw [merge_sort_body_read_failed env build ops tmp addr fuel inp out max_lines w o st
        hopen hL] at hret
      simp only at hret
      exact absurd (by rw [hret]) (hout true)
    | none =>
      by_cases hlen : st.temporary_files.length = 1
      · have hr1 : List.range 1 = [0] := rfl
        have hn1 : n = 1 := by
          rw [f2] at hlen
          simpa using hlen
        rw [hn1, hr1] at f2
        simp only [List.map_cons, List.map_nil] at f2
        obtain ⟨r1, _, r3⟩ := rename_frame env (delete_file env st.world out).2 (tmp 0) out
        cases hren : rename env (delete_file env st.world out).2 (tmp 0) out with
        | mk res w1 =>
          cases res with
          | error e =>
            rw [merge_sort_body_rename_failed env build ops tmp addr fuel inp out max_lines w st
              (tmp 0) e w1 hopen hL f2 hren] at hret
            simp at hret
          | ok u =>
            rw [merge_sort_body_renamed env build ops tmp addr fuel inp out max_lines w st
              (tmp 0) u w1 hopen hL f2 hren]
            rw [hren] at r1 r3
            simp only at r1 r3 ⊢
            refine ⟨trivial, ?_, ?_⟩
            · rw [r1, delete_file_removes, f3]
              cases out <;> simp
            · intro hw
              obtain ⟨c, hc, hdisk⟩ := r3 trivial
              have hto : tmp 0 ≠ out := by
                intro heq
                have := delete_file_gone env st.world out (by rw [← heq]; exact hne)
                  (by rw [← heq]; exact hrm)
                rw [← heq] at this hc
                rw [this] at hc
                simp at hc
              obtain ⟨s1, m, hm1, hm2⟩ := hsingle hw rfl (by rw [f1, hn1])
              refine ⟨s1, m, hm1, ?_⟩
              rw [hdisk]
              simp only [Function.update, dite_true]
              rcases delete_file_disk env st.world out (tmp 0) with h | ⟨_, h⟩
              · rw [← hc, h, hm2]
              · exact absurd h hto
      · rw [merge_sort_body_merged env build ops tmp addr fuel inp out max_lines w st hopen hL
          hlen] at hone
        simp only at hone
        rw [f2, ← f1, hone] at hlen
        simp at hlen

theorem merge_sort_eq {R : Type} (env : Env) (build : Build) (ops : RecordOps R)
    (tmp : Nat → Path) (addr : Nat → Nat) (fuel : Nat) (inp out : Path) (max_lines : Nat)
    (w : World) :
    (merge_sort env build ops tmp addr fuel inp out max_lines w).1 =
      (merge_sort_body env build ops tmp addr fuel inp out max_lines w).1 ∧
    (((∃ b, (merge_sort_body env build ops tmp addr fuel inp out max_lines w).1 = .returned b) ∨
      (∃ e, (merge_sort_body env build ops tmp addr fuel inp out max_lines w).1 = .threw e)) →
      (merge_sort env build ops tmp addr fuel inp out max_lines w).2 =
        (for_each_delete_file env
          (merge_sort_body env build ops tmp addr fuel inp out max_lines w).2.temporary_files
          (merge_sort_body env build ops tmp addr fuel inp out max_lines w).2.world).2) := by
  unfold merge_sort
  simp only
  generalize merge_sort_body env build ops tmp addr fuel inp out max_lines w = B
  obtain ⟨o, st⟩ := B
  cases o with
  | returned b => exact ⟨rfl, fun _ => temporary_file_manager_destroy_eq _ _ _⟩
  | threw e => exact ⟨rfl, fun _ => temporary_file_manager_destroy_eq _ _ _⟩
  | assertion_failed => exact ⟨rfl, fun h => by simp at h⟩
  | out_of_fuel => exact ⟨rfl, fun h => by simp at h⟩

/-- C7.  With the disk as an explicit map from paths to contents, on which removing a
temporary file succeeds: whenever `merge_sort` returns or throws, whatever else fails and
however many chunks were made, none of the paths it obtained from the name supplier names a
file any more, and every path other than the output path names no file or the file it
named before the call.  When `merge_sort` returns `true` after making a single run, the
list `temporary_files` was emptied before the manager was destroyed, the only removal ever
attempted is that of the output path, and the run of the only chunk is at the output
path. -/
theorem merge_sort_cleans_up {R : Type} (env : Env) (build : Build) (ops : RecordOps R)
    (tmp : Nat → Path) (addr : Nat → Nat) (fuel : Nat) (inp out : Path) (max_lines : Nat)
    (w : World) (hne : ∀ k, tmp k ≠ []) (hrm : ∀ k, env.remove_fails (tmp k) = false)
    (hend : (∃ b, (merge_sort env build ops tmp addr fuel inp out max_lines w).1 = .returned b) ∨
      (∃ e, (merge_sort env build ops tmp addr fuel inp out max_lines w).1 = .threw e)) :
    (∀ p ∈ temporary_paths env build ops tmp addr fuel inp out max_lines w,
      (merge_sort env build ops tmp addr fuel inp out max_lines w).2.disk p = none) ∧
    (∀ p, p ≠ out →
      (merge_sort env build ops tmp addr fuel inp out max_lines w).2.disk p = none ∨
      (merge_sort env build ops tmp addr fuel inp out max_lines w).2.disk p = w.disk p) ∧
    ((merge_sort env build ops tmp addr fuel inp out max_lines w).1 = .returned true →
      (temporary_paths env build ops tmp addr fuel inp out max_lines w).length = 1 →
      (merge_sort_body env build ops tmp addr fuel inp out max_lines w).2.temporary_files = [] ∧
      (merge_sort env build ops tmp addr fuel inp out max_lines w).2.removes
        = w.removes ++ [out].filter (fun p => !p.isEmpty) ∧
      (env.writable (tmp 0) = true →
        ∃ s1 m, read_chunk ops max_lines (ifstream_open env w inp) [] = some (s1, m) ∧
          (merge_sort env build ops tmp addr fuel inp out max_lines w).2.disk out
            = some (run_content ops m))) := by
  obtain ⟨e1, e2⟩ := merge_sort_eq env build ops tmp addr fuel inp out max_lines w
  rw [e1] at hend
  have hM := e2 hend
  obtain ⟨j1, j2, j3⟩ := merge_sort_body_invariant env build ops tmp addr fuel inp out
    max_lines w hne hrm
  obtain ⟨_, _, d3, d4⟩ := for_each_delete_file_spec env
    (merge_sort_body env build ops tmp addr fuel inp out max_lines w).2.temporary_files
    (merge_sort_body env build ops tmp addr fuel inp out max_lines w).2.world
  have hgone : ∀ k, k < (merge_sort_body env build ops tmp addr fuel inp out max_lines w).2.names →
      (merge_sort env build ops tmp addr fuel inp out max_lines w).2.disk (tmp k) = none := by
    intro k hk
    rw [hM]
    rcases j2 k hk with h | h
    · exact d4 (tmp k) h (hne k) (hrm k)
    · rcases d3 (tmp k) with h1 | ⟨h1, _⟩
      · rw [h1, h]
      · exact h1
  refine ⟨?_, ?_, ?_⟩
  · intro p hp
    unfold temporary_paths at hp
    obtain ⟨k, hk, rfl⟩ := List.mem_map.mp hp
    exact hgone k (List.mem_range.mp hk)
  · intro p hp
    by_cases hk : ∃ k, k < (merge_sort_body env build ops tmp addr fuel inp out max_lines
        w).2.names ∧ p = tmp k
    · obtain ⟨k, hk1, rfl⟩ := hk
      exact Or.inl (hgone k hk1)
    · have hfr := j3 p hp (fun k hk1 hpk => hk ⟨k, hk1, hpk⟩)
      rw [hM]
      rcases d3 p with h1 | ⟨h1, _⟩
      · exact Or.inr (by rw [h1, hfr])
      · exact Or.inl h1
  · intro hret hone
    rw [e1] at hret
    have hnames : (merge_sort_body env build ops tmp addr fuel inp out max_lines w).2.names
        = 1 := by
      simpa [temporary_paths] using hone
    obtain ⟨s1, s2, s3⟩ := merge_sort_body_single_run env build ops tmp addr fuel inp out
      max_lines w hret hnames (hne 0) (hrm 0)
    have hM2 : (merge_sort env build ops tmp addr fuel inp out max_lines w).2 =
        (merge_sort_body env build ops tmp addr fuel inp out max_lines w).2.world := by
      rw [hM, s1]
      rfl
    rw [hM2]
    exact ⟨s1, s2, s3⟩

/-- An instance of `merge_sort_cleans_up`: the integer file `"5\r3\r3\r1\r"` sorted two
lines at a time without faults, which makes three runs and merges them. -/
theorem merge_sort_cleans_up_witness :
    temporary_paths no_faults release int_record run_name id 32 ['i', 'n'] ['o', 'u', 't'] 2
      (disk_of [(['i', 'n'], "5\r3\r3\r1\r".toList)]) = [run_name 0, run_name 1, run_name 2] ∧
    (∀ p ∈ temporary_paths no_faults release int_record run_name id 32 ['i', 'n']
        ['o', 'u', 't'] 2 (disk_of [(['i', 'n'], "5\r3\r3\r1\r".toList)]),
      (merge_sort no_faults release int_record run_name id 32 ['i', 'n'] ['o', 'u', 't'] 2
        (disk_of [(['i', 'n'], "5\r3\r3\r1\r".toList)])).2.disk p = none) ∧
    (∀ p, p ≠ ['o', 'u', 't'] →
      (merge_sort no_faults release int_record run_name id 32 ['i', 'n'] ['o', 'u', 't'] 2
        (disk_of [(['i', 'n'], "5\r3\r3\r1\r".toList)])).2.disk p = none ∨
      (merge_sort no_faults release int_record run_name id 32 ['i', 'n'] ['o', 'u', 't'] 2
        (disk_of [(['i', 'n'], "5\r3\r3\r1\r".toList)])).2.disk p
          = (disk_of [(['i', 'n'], "5\r3\r3\r1\r".toList)]).disk p) :=
  ⟨by decide,
    (merge_sort_cleans_up no_faults release int_record run_name id 32 ['i', 'n']
      ['o', 'u', 't'] 2 (disk_of [(['i', 'n'], "5\r3\r3\r1\r".toList)])
      (fun k => by simp [run_name]) (fun _ => rfl) (Or.inl ⟨true, by decide⟩)).1,
    (merge_sort_cleans_up no_faults release int_record run_name id 32 ['i', 'n']
      ['o', 'u', 't'] 2 (disk_of [(['i', 'n'], "5\r3\r3\r1\r".toList)])
      (fun k => by simp [run_name]) (fun _ => rfl) (Or.inl ⟨true, by decide⟩)).2.1⟩

/-! ## The prime number example -/

theorem long_value_of_range (x : Int) (h1 : LONG_MIN ≤ x) (h2 : x ≤ LONG_MAX) :
    long_value x = some x := by
  simp [long_value, h1, h2]

theorem is_prime_loop_total (n sqrt_number : Int) :
    ∀ (fuel : Nat) (i : Int), sqrt_number ≤ i + 2 * fuel →
      ∃ b, is_prime_loop n sqrt_number fuel i = some b := by
  intro fuel
  induction fuel with
  | zero =>
    intro i h
    have : ¬ i < sqrt_number := by simpa using h
    exact ⟨true, by simp [is_prime_loop, this]⟩
  | succ fuel ih =>
    intro i h
    unfold is_prime_loop
    by_cases h1 : i < sqrt_number
    · by_cases h2 : n % i = 0
      · exact ⟨false, by simp [h1, h2]⟩
      · obtain ⟨b, hb⟩ := ih (i + 2) (by push_cast at h; omega)
        exact ⟨b, by simp [h1, h2, hb]⟩
    · exact ⟨true, by simp [h1]⟩

theorem is_prime_total (number : Int) (hrange : number < 4503599627370496) :
    ∃ b, is_prime number = some b := by
  unfold is_prime
  by_cases h1 : number > 2
  · by_cases h2 : number % 2 = 0
    · exact ⟨false, by simp [h1, h2]⟩
    · obtain ⟨b, hb⟩ := is_prime_loop_total number.natAbs (Nat.sqrt number.natAbs)
        (Nat.sqrt number.natAbs) 3 (by omega)
      exact ⟨b, by rw [if_pos h1, if_neg h2, if_neg (by omega)]; exact hb⟩
  · by_cases h3 : number = 0 ∨ number = 1
    · exact ⟨false, by simp [h1, h3]⟩
    · exact ⟨true, by simp [h1, h3]⟩

theorem sqrt_values : Nat.sqrt 9 = 3 ∧ Nat.sqrt 15 = 3 ∧ Nat.sqrt 25 = 5 :=
  ⟨(Nat.eq_sqrt.2 ⟨by norm_num, by norm_num⟩).symm,
    (Nat.eq_sqrt.2 ⟨by norm_num, by norm_num⟩).symm,
    (Nat.eq_sqrt.2 ⟨by norm_num, by norm_num⟩).symm⟩

/-- Claim C18, as the code behaves: `is_prime` answers `true` for 9, for 15 and for 25, none
of which is a prime number.  The trial division `for (i = 3; i < sqrt_number; i += 2)` stops
one short of the integer square root, so an odd number whose smallest factor is at least its
integer square root is never divided by it. -/
theorem is_prime_accepts_composites :
    is_prime 9 = some true ∧ ¬ Nat.Prime 9 ∧
    is_prime 15 = some true ∧ ¬ Nat.Prime 15 ∧
    is_prime 25 = some true ∧ ¬ Nat.Prime 25 := by
  refine ⟨?_, by norm_num, ?_, by norm_num, ?_, by norm_num⟩
  · have h : Nat.sqrt 9 = 3 := sqrt_values.1
    simp [is_prime, h, is_prime_loop]
  · have h : Nat.sqrt 15 = 3 := sqrt_values.2.1
    simp [is_prime, h, is_prime_loop]
  · have h : Nat.sqrt 25 = 5 := sqrt_values.2.2
    simp [is_prime, h, is_prime_loop]

theorem setup_key_in_range (src : number_source) (h0 : 0 ≤ src.sequence_)
    (h1 : 1 ≤ src.step_) (h2 : src.sequence_ * src.step_ ≤ LONG_MAX)
    (h3 : src.sequence_ + 1 ≤ LONG_MAX) :
    setup_key src = some (decide (src.sequence_ < src.last_ / src.step_ + 1), src.sequence_,
      { src with sequence_ := src.sequence_ + 1 }) := by
  have hmax : LONG_MAX = 9223372036854775807 := rfl
  have hmin : LONG_MIN = -9223372036854775808 := rfl
  have hp : 0 ≤ src.sequence_ * src.step_ := mul_nonneg h0 (by omega)
  have e1 : long_value (src.sequence_ + 1) = some (src.sequence_ + 1) :=
    long_value_of_range _ (by omega) (by omega)
  have e2 : long_value (src.sequence_ * src.step_) = some (src.sequence_ * src.step_) :=
    long_value_of_range _ (by omega) (by omega)
  have e3 : (src.sequence_ * src.step_ ≤ src.last_) ↔ src.sequence_ < src.last_ / src.step_ + 1 := by
    rw [Int.lt_add_one_iff, Int.le_ediv_iff_mul_le (by omega)]
  unfold setup_key
  rw [e1, e2]
  simp only [e3]

theorem setup_keys_in_range (n : Nat) :
    ∀ src : number_source, 0 ≤ src.sequence_ → 1 ≤ src.step_ →
      (src.sequence_ + n - 1) * src.step_ ≤ LONG_MAX → src.sequence_ + n ≤ LONG_MAX →
      setup_keys n src = some
        ((List.range n).map
          (fun (k : Nat) => (decide (src.sequence_ + (k : Int) < src.last_ / src.step_ + 1),
            src.sequence_ + (k : Int))),
          { src with sequence_ := src.sequence_ + n }) := by
  induction n with
  | zero =>
    intro src _ _ _ _
    simp [setup_keys]
  | succ n ih =>
    intro src h0 h1 h2 h3
    push_cast at h2 h3
    have e : src.sequence_ + (↑n + 1) - 1 = src.sequence_ + ↑n := by ring
    rw [e] at h2
    have hstep : src.sequence_ * src.step_ ≤ (src.sequence_ + (n : Int)) * src.step_ :=
      mul_le_mul_of_nonneg_right (by omega) (by omega)
    have hk := setup_key_in_range src h0 h1 (le_trans hstep h2) (by omega)
    have hrec := ih { src with sequence_ := src.sequence_ + 1 } (by simp only; omega) h1
      (by
        simp only
        rw [show src.sequence_ + 1 + (n : Int) - 1 = src.sequence_ + ↑n by ring]
        exact h2)
      (by simp only; omega)
    unfold setup_keys
    rw [hk]
    simp only
    rw [hrec]
    simp only [List.range_succ_eq_map, List.map_cons, List.map_map]
    congr 1
    refine Prod.ext ?_ ?_
    · simp only [Nat.cast_zero, add_zero, List.cons.injEq, true_and]
      apply List.map_congr_left
      intro k _
      simp only [Function.comp, Nat.cast_succ]
      rw [show src.sequence_ + 1 + (k : Int) = src.sequence_ + (↑k + 1) by ring]
    · simp only [Nat.cast_succ]
      rw [show src.sequence_ + 1 + (n : Int) = src.sequence_ + (↑n + 1) by ring]

/-- Claim C11, amended: for a source built by `number_source(first, last, step)` with
`step ≥ 1`, the first `n` calls of `setup_key` hand out the keys `0, 1, ..., n-1` in turn,
and the call that hands out key `k` returns `true` exactly when `k < last / step + 1`: the
first `floor(last/step) + 1` calls return `true` and every later one `false`, as long as
nothing overflows a `long`, that is, the product `key * step` of the last call considered
and the sequence counter after it fit.  On `number_source(0, 999, 100)` the first ten calls
return `true` and the next two `false`. -/
theorem setup_key_hands_out_work_units (first last step : Int) (n : Nat) (hstep : 1 ≤ step)
    (hn1 : ((n : Int) - 1) * step ≤ LONG_MAX) (hn2 : (n : Int) ≤ LONG_MAX) :
    setup_keys n (number_source.create first last step) = some
      ((List.range n).map (fun (k : Nat) => (decide ((k : Int) < last / step + 1), (k : Int))),
        { number_source.create first last step with sequence_ := n }) ∧
    (setup_keys 12 (number_source.create 0 999 100)).map Prod.fst = some
      [(true, 0), (true, 1), (true, 2), (true, 3), (true, 4), (true, 5), (true, 6), (true, 7),
        (true, 8), (true, 9), (false, 10), (false, 11)] := by
  constructor
  · have h := setup_keys_in_range n (number_source.create first last step) (le_refl _) hstep
      (by simpa [number_source.create] using hn1) (by simpa [number_source.create] using hn2)
    simpa [number_source.create] using h
  · decide

/-- Claim C11 on the source of the example: `number_source(0, 999, 100)` yields ten work
units, with the keys 0 to 9, and then answers `false`. -/
theorem setup_key_hands_out_work_units_witness :
    setup_keys 12 (number_source.create 0 999 100) = some
      ((List.range 12).map (fun (k : Nat) => (decide ((k : Int) < 999 / 100 + 1), (k : Int))),
        { number_source.create 0 999 100 with sequence_ := (12 : Nat) }) :=
  (setup_key_hands_out_work_units 0 999 100 12 (by decide) (by decide) (by decide)).1

/-- Claim C11 as stated fails when a product overflows.  The source
`number_source(0, LONG_MAX, 2^62)` is in the domain of the claim, and
`floor(last/step) + 1 = 2`: the first two calls hand out the keys 0 and 1 and return `true`.
The third call computes `2 * 2^62`, which does not fit a `long`: it has no defined result,
and does not return the `false` of the claim. -/
theorem setup_key_overflows_after_last_unit :
    (1 : Int) ≤ 4611686018427387904 ∧ 0 ≤ LONG_MAX ∧
    LONG_MAX / 4611686018427387904 + 1 = 2 ∧
    setup_keys 2 (number_source.create 0 LONG_MAX 4611686018427387904) =
      some ([(true, 0), (true, 1)],
        { number_source.create 0 LONG_MAX 4611686018427387904 with sequence_ := 2 }) ∧
    long_value (2 * 4611686018427387904) = none ∧
    setup_keys 3 (number_source.create 0 LONG_MAX 4611686018427387904) = none := by
  decide

theorem get_data_in_range (src : number_source) (key : Int) (h0 : 0 ≤ src.first_)
    (h1 : 1 ≤ src.step_) (hk : 0 ≤ key) (hacc : key * src.step_ ≤ src.last_)
    (hr : src.first_ + src.last_ / src.step_ * src.step_ + src.step_ ≤ LONG_MAX) :
    get_data src key = some (true, (src.first_ + key * src.step_,
      min (src.first_ + key * src.step_ + src.step_ - 1) src.last_), src) := by
  have hmax : LONG_MAX = 9223372036854775807 := rfl
  have hmin : LONG_MIN = -9223372036854775808 := rfl
  have hp : 0 ≤ key * src.step_ := mul_nonneg hk (by omega)
  have hle : key ≤ src.last_ / src.step_ := Int.le_ediv_of_mul_le (by omega) hacc
  have hq : key * src.step_ ≤ src.last_ / src.step_ * src.step_ :=
    mul_le_mul_of_nonneg_right hle (by omega)
  have e1 : long_value (key * src.step_) = some (key * src.step_) :=
    long_value_of_range _ (by omega) (by omega)
  have e2 : long_value (src.first_ + key * src.step_) = some (src.first_ + key * src.step_) :=
    long_value_of_range _ (by omega) (by omega)
  have e3 : long_value (src.first_ + key * src.step_ + src.step_) =
      some (src.first_ + key * src.step_ + src.step_) :=
    long_value_of_range _ (by omega) (by omega)
  have e4 : long_value (src.first_ + key * src.step_ + src.step_ - 1) =
      some (src.first_ + key * src.step_ + src.step_ - 1) :=
    long_value_of_range _ (by omega) (by omega)
  unfold get_data
  simp only [e1, e2, e3, e4]

theorem map_task_loop_lower (second x : Int) :
    ∀ (fuel : Nat) (loop : Int), x ∈ (map_task_loop second fuel loop).map Prod.snd → loop ≤ x := by
  intro fuel
  induction fuel with
  | zero => intro loop h; simp [map_task_loop] at h
  | succ fuel ih =>
    intro loop h
    unfold map_task_loop at h
    by_cases hc : loop ≤ second
    · simp only [hc, if_true, List.map_cons, List.mem_cons] at h
      rcases h with h | h
      · omega
      · have := ih (loop + 1) h
        omega
    · simp [hc] at h

theorem map_task_loop_mem (second x : Int) :
    ∀ (fuel : Nat) (loop : Int), second - loop + 1 ≤ fuel →
      (x ∈ (map_task_loop second fuel loop).map Prod.snd ↔ loop ≤ x ∧ x ≤ second) := by
  intro fuel
  induction fuel with
  | zero =>
    intro loop h
    simp only [map_task_loop, List.map_nil, List.not_mem_nil, false_iff]
    push_cast at h
    omega
  | succ fuel ih =>
    intro loop h
    unfold map_task_loop
    by_cases hc : loop ≤ second
    · simp only [hc, if_true, List.map_cons, List.mem_cons]
      rw [ih (loop + 1) (by push_cast at h; omega)]
      omega
    · simp only [hc, if_false, List.map_nil, List.not_mem_nil, false_iff]
      omega

theorem map_task_loop_nodup (second : Int) :
    ∀ (fuel : Nat) (loop : Int), ((map_task_loop second fuel loop).map Prod.snd).Nodup := by
  intro fuel
  induction fuel with
  | zero => intro loop; simp [map_task_loop]
  | succ fuel ih =>
    intro loop
    unfold map_task_loop
    by_cases hc : loop ≤ second
    · simp only [hc, if_true, List.map_cons, List.nodup_cons]
      refine ⟨fun h => ?_, ih (loop + 1)⟩
      have := map_task_loop_lower second loop fuel (loop + 1) h
      omega
    · simp [hc]

theorem map_task_mem (value : Int × Int) (x : Int) :
    x ∈ (map_task value).map Prod.snd ↔ value.1 ≤ x ∧ x ≤ value.2 := by
  unfold map_task
  apply map_task_loop_mem
  rw [Int.toNat_eq_max]
  exact le_max_left _ _

theorem range_key_unique (first step x key : Int) (h1 : 1 ≤ step)
    (hlo : first + key * step ≤ x) (hhi : x ≤ first + key * step + step - 1) :
    key = (x - first) / step := by
  have hpos : 0 < step := by omega
  have ha : key ≤ (x - first) / step := Int.le_ediv_of_mul_le hpos (by omega)
  have hb : (x - first) / step < key + 1 :=
    Int.ediv_lt_of_lt_mul hpos (by rw [add_mul]; omega)
  omega

/-- Claim C17, amended: for a source with `0 ≤ first` and `step ≥ 1` in which no expression
of `get_data` overflows a `long` for an accepted key, that is, with
`first + floor(last/step) * step + step ≤ LONG_MAX`, `get_data` on a key accepted by
`setup_key` returns `true`, stores the range
`[first + key*step, min(first + key*step + step - 1, last)]` and leaves the state of the
source as it was; every number of `[first, last]` is visited exactly once by the map task
of exactly one accepted key, and a map task visits nothing outside `[first, last]`. -/
theorem get_data_tiles_interval (src : number_source) (h0 : 0 ≤ src.first_)
    (h1 : 1 ≤ src.step_)
    (hr : src.first_ + src.last_ / src.step_ * src.step_ + src.step_ ≤ LONG_MAX) :
    (∀ key, 0 ≤ key → key * src.step_ ≤ src.last_ →
      get_data src key = some (true, (src.first_ + key * src.step_,
        min (src.first_ + key * src.step_ + src.step_ - 1) src.last_), src)) ∧
    (∀ x, src.first_ ≤ x → x ≤ src.last_ →
      ∃ key value, 0 ≤ key ∧ key * src.step_ ≤ src.last_ ∧
        get_data src key = some (true, value, src) ∧
        ((map_task value).map Prod.snd).count x = 1 ∧
        ∀ key2 value2, 0 ≤ key2 → key2 * src.step_ ≤ src.last_ →
          get_data src key2 = some (true, value2, src) → key2 ≠ key →
          x ∉ (map_task value2).map Prod.snd) ∧
    (∀ key value x, 0 ≤ key → key * src.step_ ≤ src.last_ →
      get_data src key = some (true, value, src) → x ∈ (map_task value).map Prod.snd →
      src.first_ ≤ x ∧ x ≤ src.last_) := by
  have hpos : 0 < src.step_ := by omega
  have hget := fun key hk hacc => get_data_in_range src key h0 h1 hk hacc hr
  refine ⟨hget, ?_, ?_⟩
  · intro x hx1 hx2
    have hq0 : 0 ≤ (x - src.first_) / src.step_ := Int.ediv_nonneg (by omega) (by omega)
    have hq1 : (x - src.first_) / src.step_ * src.step_ ≤ x - src.first_ :=
      Int.ediv_mul_le _ (by omega)
    have hq2 : x - src.first_ < ((x - src.first_) / src.step_ + 1) * src.step_ :=
      Int.lt_ediv_add_one_mul_self _ hpos
    rw [add_mul] at hq2
    refine ⟨(x - src.first_) / src.step_, _, hq0, by omega, hget _ hq0 (by omega), ?_, ?_⟩
    · refine List.count_eq_one_of_mem (map_task_loop_nodup _ _ _) ?_
      refine (map_task_mem _ x).2 ?_
      simp only [le_min_iff]
      omega
    · intro key2 value2 hk hacc hg hne hmem
      rw [hget key2 hk hacc] at hg
      simp only [Option.some.injEq, Prod.mk.injEq, true_and, and_true] at hg
      rw [map_task_mem, ← hg] at hmem
      simp only [le_min_iff] at hmem
      exact hne (range_key_unique src.first_ src.step_ x key2 h1 hmem.1 hmem.2.1)
  · intro key value x hk hacc hg hmem
    rw [hget key hk hacc] at hg
    simp only [Option.some.injEq, Prod.mk.injEq, true_and, and_true] at hg
    rw [map_task_mem, ← hg] at hmem
    simp only [le_min_iff] at hmem
    have hp : 0 ≤ key * src.step_ := mul_nonneg hk (by omega)
    omega

/-- Claim C17 on the source of the example, `number_source(0, 999, 100)`, which is tiled by
the ranges of the keys 0 to 9, and on `number_source(0, 9223372036854775757, 100)`, at the
upper end of what fits a `long`. -/
theorem get_data_tiles_interval_witness :
    ((∀ key, 0 ≤ key → key * 100 ≤ 999 →
        get_data (number_source.create 0 999 100) key = some (true, (0 + key * 100,
          min (0 + key * 100 + 100 - 1) 999), number_source.create 0 999 100)) ∧
      get_data (number_source.create 0 999 100) 9 =
        some (true, (900, 999), number_source.create 0 999 100)) ∧
    (∀ key, 0 ≤ key → key * 100 ≤ 9223372036854775757 →
      get_data (number_source.create 0 9223372036854775757 100) key =
        some (true, (0 + key * 100, min (0 + key * 100 + 100 - 1) 9223372036854775757),
          number_source.create 0 9223372036854775757 100)) :=
  ⟨⟨(get_data_tiles_interval (number_source.create 0 999 100) (by decide) (by decide)
      (by decide)).1, by decide⟩,
    (get_data_tiles_interval (number_source.create 0 9223372036854775757 100) (by decide)
      (by decide) (by decide)).1⟩

/-- Claim C17 as stated fails when an expression of `get_data` overflows.  The source
`number_source(9223372036854775800, LONG_MAX, 100)` is in the domain of the claim and
`setup_key` accepts the key 0; `get_data` then computes `val.first + step_`, which is
`9223372036854775900` and does not fit a `long`: the call has no defined result, and the
numbers 9223372036854775800 to `LONG_MAX` are not handed to the map task as the claim
says. -/
theorem get_data_overflows_near_long_max :
    (0 : Int) ≤ 9223372036854775800 ∧ 9223372036854775800 ≤ LONG_MAX ∧
    setup_key (number_source.create 9223372036854775800 LONG_MAX 100) =
      some (true, 0, { number_source.create 9223372036854775800 LONG_MAX 100 with
        sequence_ := 1 }) ∧
    long_value (9223372036854775800 + 0 * 100 + 100) = none ∧
    get_data (number_source.create 9223372036854775800 LONG_MAX 100) 0 = none := by
  decide

/-! ## The run of a chunk -/

theorem lines_insert_keys {R : Type} (ops : RecordOps R) (r : R) :
    ∀ (m : List (R × Nat)) (k : R), k ∈ (lines_insert ops r m).map Prod.fst →
      k = r ∨ k ∈ m.map Prod.fst := by
  intro m
  induction m with
  | nil => intro k h; simpa [lines_insert] using h
  | cons e rest ih =>
    obtain ⟨k0, c⟩ := e
    intro k h
    unfold lines_insert at h
    split at h
    · simpa using h
    · split at h
      · simp only [List.map_cons, List.mem_cons] at h
        rcases h with h | h
        · exact Or.inr (by simp [h])
        · rcases ih k h with h | h
          · exact Or.inl h
          · exact Or.inr (by simp only [List.map_cons, List.mem_cons]; exact Or.inr h)
      · exact Or.inr (by simpa using h)

theorem lines_insert_increasing {R : Type} {ops : RecordOps R} (hswo : StrictWeakOrder ops.lt)
    (r : R) : ∀ (m : List (R × Nat)), keys_increasing ops m →
      keys_increasing ops (lines_insert ops r m) := by
  intro m
  induction m with
  | nil => intro _; simp [lines_insert, keys_increasing]
  | cons e rest ih =>
    obtain ⟨k0, c⟩ := e
    intro h
    unfold keys_increasing at h ih ⊢
    simp only [List.map_cons, List.pairwise_cons] at h
    unfold lines_insert shared_ptr_indirect_less
    split
    · rename_i h1
      simp only [List.map_cons, List.pairwise_cons, List.mem_cons]
      refine ⟨?_, h.1, h.2⟩
      intro k hk
      rcases hk with hk | hk
      · rw [hk]; exact h1
      · exact hswo.trans _ _ _ h1 (h.1 k hk)
    · split
      · rename_i h1 h2
        simp only [List.map_cons, List.pairwise_cons]
        refine ⟨?_, ih h.2⟩
        intro k hk
        rcases lines_insert_keys ops r rest k hk with hk | hk
        · rw [hk]; exact h2
        · exact h.1 k hk
      · simp only [List.map_cons, List.pairwise_cons]
        exact h

theorem lines_insert_positive {R : Type} (ops : RecordOps R) (r : R) :
    ∀ (m : List (R × Nat)), (expand m).length + 1 < 4294967296 → (∀ e ∈ m, 0 < e.2) →
      ∀ e ∈ lines_insert ops r m, 0 < e.2 := by
  intro m
  induction m with
  | nil => intro _ _ e he; simp [lines_insert] at he; simp [he]
  | cons e0 rest ih =>
    obtain ⟨k0, c⟩ := e0
    intro hb hpos e he
    rw [expand_length_head] at hb
    unfold lines_insert at he
    split at he
    · simp only [List.mem_cons] at he
      rcases he with he | he
      · simp [he]
      · exact hpos e (by simpa using he)
    · split at he
      · simp only [List.mem_cons] at he
        rcases he with he | he
        · exact hpos e (by simp [he])
        · exact ih (by omega) (fun e1 h1 => hpos e1 (by simp [h1])) e he
      · simp only [List.mem_cons] at he
        rcases he with he | he
        · rw [he]
          simp only
          rw [Nat.mod_eq_of_lt (by omega)]
          omega
        · exact hpos e (by simp [he])

theorem mem_expand {R : Type} : ∀ (m : List (R × Nat)) (y : R), y ∈ expand m →
    y ∈ m.map Prod.fst := by
  intro m
  induction m with
  | nil => intro y h; simp [expand] at h
  | cons e rest ih =>
    obtain ⟨k, c⟩ := e
    intro y h
    simp only [expand, List.mem_append] at h
    rcases h with h | h
    · simp [(List.mem_replicate.1 h).2]
    · simp only [List.map_cons, List.mem_cons]
      exact Or.inr (ih y h)

theorem occurrences_eq_zero {R : Type} (ops : RecordOps R) (x : R) (l : List R)
    (h : ∀ y ∈ l, equivalent ops x y = false) : occurrences ops x l = 0 := by
  unfold occurrences
  rw [List.countP_eq_zero]
  intro y hy
  simp [h y hy]

/-- In a map with increasing keys the counter of a key is the number of records of the map
equivalent to it. -/
theorem keys_increasing_counts {R : Type} {ops : RecordOps R} (hswo : StrictWeakOrder ops.lt) :
    ∀ (m : List (R × Nat)), keys_increasing ops m →
      ∀ e ∈ m, occurrences ops e.1 (expand m) = e.2 := by
  intro m
  induction m with
  | nil => intro _ e he; simp at he
  | cons e0 rest ih =>
    obtain ⟨k, c⟩ := e0
    intro h e he
    unfold keys_increasing at h ih
    simp only [List.map_cons, List.pairwise_cons] at h
    simp only [expand, occurrences_append, occurrences_replicate]
    simp only [List.mem_cons] at he
    rcases he with he | he
    · rw [he]
      simp only
      have h1 : equivalent ops k k = true := by simp [equivalent, hswo.irrefl]
      have h2 : occurrences ops k (expand rest) = 0 := by
        apply occurrences_eq_zero
        intro y hy
        have := h.1 y (mem_expand rest y hy)
        simp [equivalent, this]
      rw [if_pos h1, h2, Nat.add_zero]
    · have hk : ops.lt k e.1 = true := h.1 e.1 (List.mem_map_of_mem Prod.fst he)
      have h1 : equivalent ops e.1 k = false := by simp [equivalent, hk]
      rw [h1, ih h.2 e he]
      simp

/-- One pass of the inner reading loop, seen from the lines it takes: the keys of the map
stay increasing, the counters positive, and every equivalence class gains one occurrence
for each non-blank line of the chunk whose record belongs to it. -/
theorem read_chunk_lines {R : Type} {ops : RecordOps R} (hswo : StrictWeakOrder ops.lt) :
    ∀ (n : Nat) (s : ifstream) (m : List (R × Nat)),
      (s.eofbit = false → s.failbit = false) → (expand m).length + n < 4294967296 →
      keys_increasing ops m → (∀ e ∈ m, 0 < e.2) →
      ∃ s1 m1, read_chunk ops n s m = some (s1, m1) ∧
        keys_increasing ops m1 ∧ (∀ e ∈ m1, 0 < e.2) ∧
        ∀ x, occurrences ops x (expand m1) = occurrences ops x (expand m) +
          occurrences ops x ((nonblank (chunk_lines n s)).map ops.extract) := by
  intro n
  induction n with
  | zero =>
    intro s m _ _ hk hp
    exact ⟨s, m, rfl, hk, hp, fun x => by simp [chunk_lines, nonblank, occurrences]⟩
  | succ n ih =>
    intro s m hs hb hk hp
    cases he : s.eofbit with
    | true =>
      exact ⟨s, m, by simp [read_chunk, he], hk, hp,
        fun x => by simp [chunk_lines, he, nonblank, occurrences]⟩
    | false =>
      have hf := hs he
      obtain ⟨_, hgood⟩ := getline_records ops s he hf
      have hstep : read_chunk ops (n + 1) s m =
          if (getline s []).2.length > 0 then
            read_chunk ops n (getline s []).1 (lines_insert ops (ops.extract (getline s []).2) m)
          else read_chunk ops n (getline s []).1 m := by
        simp [read_chunk, he, hf]
      have hlines : chunk_lines (n + 1) s = (getline s []).2 :: chunk_lines n (getline s []).1 := by
        simp [chunk_lines, he, hf]
      have hsane : (getline s []).1.eofbit = false → (getline s []).1.failbit = false :=
        fun h => (hgood h).1
      by_cases hlen : (getline s []).2.length > 0
      · obtain ⟨hi1, hi2⟩ := lines_insert_occurrences hswo (ops.extract (getline s []).2) m
          (by omega)
        obtain ⟨s1, m1, h1, h2, h3, h4⟩ := ih (getline s []).1
          (lines_insert ops (ops.extract (getline s []).2) m) hsane (by omega)
          (lines_insert_increasing hswo _ m hk) (lines_insert_positive ops _ m (by omega) hp)
        refine ⟨s1, m1, by rw [hstep, if_pos hlen, h1], h2, h3, fun x => ?_⟩
        have hne : (getline s []).2.isEmpty = false := by
          cases hl : (getline s []).2 with
          | nil => rw [hl] at hlen; simp at hlen
          | cons c cs => rfl
        rw [h4 x, hi2 x, hlines]
        simp only [nonblank, List.filter_cons, hne, Bool.not_false, if_true, List.map_cons,
          occurrences, List.countP_cons]
        omega
      · obtain ⟨s1, m1, h1, h2, h3, h4⟩ := ih (getline s []).1 m hsane (by omega) hk hp
        refine ⟨s1, m1, by rw [hstep, if_neg hlen, h1], h2, h3, fun x => ?_⟩
        have hne : (getline s []).2.isEmpty = true := by
          cases hl : (getline s []).2 with
          | nil => rfl
          | cons c cs => rw [hl] at hlen; simp at hlen
        rw [h4 x, hlines]
        simp only [nonblank, List.filter_cons, hne, Bool.not_true, Bool.false_eq_true, if_false]

theorem run_content_flatten {R : Type} (ops : RecordOps R) (m : List (R × Nat)) :
    run_content ops m =
      (m.map (fun e => (List.replicate e.2 (ops.insert e.1 ++ ['\r'])).flatten)).flatten := by
  induction m with
  | nil => rfl
  | cons e rest ih =>
    obtain ⟨k, c⟩ := e
    simp only [run_content, List.map_cons, List.flatten_cons, ih]

/-- Claim C12: one pass of the outer reading loop of `merge_sort`, started on any stream that
is not at its end, with `operator<` a strict weak ordering, writes to its run file the map
of the chunk entry by entry, each entry as the serialisation of its key followed by `'\r'`
repeated as often as its counter says; the keys are in strictly increasing order, the
counter of a key is the number of records equivalent to it among the records of the
non-blank lines of the chunk, every such record is equivalent to a key, and blank lines
add nothing. -/
theorem run_is_sorted_chunk_with_counts {R : Type} (ops : RecordOps R)
    (hswo : StrictWeakOrder ops.lt) (env : Env) (tmp : Nat → Path) (max_lines : Nat)
    (hmax : max_lines < 4294967296) (s : ifstream) (he : s.eofbit = false)
    (hf : s.failbit = false) (st : SortState) (hw : env.writable (tmp st.names) = true) :
    ∃ s1 m, read_chunk ops max_lines s [] = some (s1, m) ∧
      (read_loop env ops tmp max_lines 1 s st).2.world.disk (tmp st.names) =
        some (run_content ops m) ∧
      run_content ops m =
        (m.map (fun e => (List.replicate e.2 (ops.insert e.1 ++ ['\r'])).flatten)).flatten ∧
      keys_increasing ops m ∧
      (∀ e ∈ m, 0 < e.2 ∧ e.2 =
        occurrences ops e.1 ((nonblank (chunk_lines max_lines s)).map ops.extract)) ∧
      (∀ r ∈ (nonblank (chunk_lines max_lines s)).map ops.extract,
        ∃ e ∈ m, equivalent ops r e.1 = true) := by
  obtain ⟨s1, m, h1, h2, h3, h4⟩ := read_chunk_lines hswo max_lines s [] (fun _ => hf)
    (by simpa [expand] using hmax) (by simp [keys_increasing]) (by simp)
  have hocc : ∀ x, occurrences ops x (expand m) =
      occurrences ops x ((nonblank (chunk_lines max_lines s)).map ops.extract) := by
    intro x
    rw [h4 x]
    simp [expand, occurrences]
  refine ⟨s1, m, h1, ?_, run_content_flatten ops m, h2, ?_, ?_⟩
  · simp only [read_loop, he, Bool.false_eq_true, if_false, h1]
    simp only [ofstream_open, hw, if_true, Bool.not_true, Bool.false_and]
    by_cases h : s1.eofbit = true <;> simp [h, ofstream_close]
  · intro e hmem
    exact ⟨h3 e hmem, by rw [← hocc, keys_increasing_counts hswo m h2 e hmem]⟩
  · intro r hr
    have hpos : 0 < occurrences ops r (expand m) := by
      rw [hocc r]
      unfold occurrences
      rw [List.countP_pos_iff]
      exact ⟨r, hr, by simp [equivalent, hswo.irrefl]⟩
    unfold occurrences at hpos
    rw [List.countP_pos_iff] at hpos
    obtain ⟨y, hy, heq⟩ := hpos
    have hykey := mem_expand m y hy
    rw [List.mem_map] at hykey
    obtain ⟨e, hemem, hey⟩ := hykey
    exact ⟨e, hemem, by rw [hey]; simpa using heq⟩

/-- An instance of claim C12: one-bit records, the stream `"1\r0\r\r1\r0\r"`, chunks of four
lines. -/
theorem run_is_sorted_chunk_with_counts_witness :
    ∃ s1 m, read_chunk bit_record 4 (opened "1\r0\r\r1\r0\r".toList) [] = some (s1, m) ∧
      (read_loop no_faults bit_record run_name 4 1 (opened "1\r0\r\r1\r0\r".toList)
        ⟨disk_of [], [], 0⟩).2.world.disk (run_name 0) = some (run_content bit_record m) ∧
      run_content bit_record m =
        (m.map (fun e =>
          (List.replicate e.2 (bit_record.insert e.1 ++ ['\r'])).flatten)).flatten ∧
      keys_increasing bit_record m ∧
      (∀ e ∈ m, 0 < e.2 ∧ e.2 = occurrences bit_record e.1
        ((nonblank (chunk_lines 4 (opened "1\r0\r\r1\r0\r".toList))).map bit_record.extract)) ∧
      (∀ r ∈ (nonblank (chunk_lines 4 (opened "1\r0\r\r1\r0\r".toList))).map
          bit_record.extract,
        ∃ e ∈ m, equivalent bit_record r e.1 = true) :=
  run_is_sorted_chunk_with_counts bit_record bit_record_order no_faults run_name 4 (by decide)
    (opened "1\r0\r\r1\r0\r".toList) rfl rfl ⟨disk_of [], [], 0⟩ rfl

/-! ## The number of runs -/

theorem getline_lines_cons (l : List Char) (ls : List (List Char)) (hl : '\r' ∉ l) :
    getline (opened (lines_bytes (l :: ls))) [] = (opened (lines_bytes ls), l) := by
  simp [getline, lines_bytes_cons, scan_line_append l _ hl]
  rfl

theorem getline_lines_nil :
    getline (opened (lines_bytes [])) [] =
      ({ is_open := true, buf := [], eofbit := true, failbit := true }, []) := by
  simp [getline, lines_bytes, scan_line]

theorem read_chunk_at_end {R : Type} (ops : RecordOps R) (n : Nat) (s : ifstream)
    (m : List (R × Nat)) (he : s.eofbit = true) : read_chunk ops n s m = some (s, m) := by
  cases n with
  | zero => rfl
  | succ n => simp [read_chunk, he]

/-- The inner reading loop on a stream of terminated lines of which at least `n` are left:
it takes `n` lines and stops before the end of the stream. -/
theorem read_chunk_full {R : Type} (ops : RecordOps R) :
    ∀ (n : Nat) (ls : List (List Char)) (m : List (R × Nat)), n ≤ ls.length →
      (∀ l ∈ ls, '\r' ∉ l) →
      ∃ m1, read_chunk ops n (opened (lines_bytes ls)) m =
        some (opened (lines_bytes (ls.drop n)), m1) := by
  intro n
  induction n with
  | zero => intro ls m _ _; exact ⟨m, rfl⟩
  | succ n ih =>
    intro ls m hn hls
    cases ls with
    | nil => simp at hn
    | cons l ls1 =>
      have hl : '\r' ∉ l := hls l (by simp)
      have hls1 : ∀ x ∈ ls1, '\r' ∉ x := fun x hx => hls x (List.mem_cons_of_mem _ hx)
      have hn1 : n ≤ ls1.length := by simpa using hn
      rw [read_chunk]
      simp only [opened_eofbit, opened_failbit, Bool.false_eq_true, if_false,
        getline_lines_cons l ls1 hl, List.drop_succ_cons]
      split
      · exact ih ls1 _ hn1 hls1
      · exact ih ls1 _ hn1 hls1

/-- The inner reading loop on a stream of terminated lines of which fewer than `n` are
left: it reaches the end of the stream; on an empty stream it leaves the map alone. -/
theorem read_chunk_short {R : Type} (ops : RecordOps R) :
    ∀ (n : Nat) (ls : List (List Char)) (m : List (R × Nat)), ls.length < n →
      (∀ l ∈ ls, '\r' ∉ l) →
      ∃ s1 m1, read_chunk ops n (opened (lines_bytes ls)) m = some (s1, m1) ∧
        s1.eofbit = true ∧ (ls = [] → m1 = m) := by
  intro n
  induction n with
  | zero => intro ls m hn _; simp at hn
  | succ n ih =>
    intro ls m hn hls
    cases ls with
    | nil =>
      refine ⟨{ is_open := true, buf := [], eofbit := true, failbit := true }, m, ?_, rfl,
        fun _ => rfl⟩
      rw [read_chunk]
      simp only [opened_eofbit, opened_failbit, Bool.false_eq_true, if_false,
        getline_lines_nil, List.length_nil, gt_iff_lt, lt_self_iff_false]
      exact read_chunk_at_end ops n _ m rfl
    | cons l ls1 =>
      have hl : '\r' ∉ l := hls l (by simp)
      have hls1 : ∀ x ∈ ls1, '\r' ∉ x := fun x hx => hls x (List.mem_cons_of_mem _ hx)
      have hn1 : ls1.length < n := by simpa using hn
      rw [read_chunk]
      simp only [opened_eofbit, opened_failbit, Bool.false_eq_true, if_false,
        getline_lines_cons l ls1 hl]
      split
      · obtain ⟨s1, m1, h1, h2, _⟩ := ih ls1 (lines_insert ops (ops.extract l) m) hn1 hls1
        exact ⟨s1, m1, h1, h2, fun h => by simp at h⟩
      · obtain ⟨s1, m1, h1, h2, _⟩ := ih ls1 m hn1 hls1
        exact ⟨s1, m1, h1, h2, fun h => by simp at h⟩

theorem read_loop_at_end {R : Type} (env : Env) (ops : RecordOps R) (tmp : Nat → Path)
    (max_lines fuel : Nat) (s : ifstream) (st : SortState) (he : s.eofbit = true) :
    read_loop env ops tmp max_lines fuel s st = (none, st) := by
  cases fuel with
  | zero => simp [read_loop, he]
  | succ fuel => rw [read_loop]; simp [he]

/-- One pass of the outer reading loop when the run file can be written. -/
theorem read_loop_pass {R : Type} (env : Env) (ops : RecordOps R) (tmp : Nat → Path)
    (max_lines fuel : Nat) (s s1 : ifstream) (st : SortState) (m : List (R × Nat))
    (he : s.eofbit = false) (hc : read_chunk ops max_lines s [] = some (s1, m))
    (hw : env.writable (tmp st.names) = true) :
    read_loop env ops tmp max_lines (fuel + 1) s st =
      read_loop env ops tmp max_lines fuel s1
        ⟨⟨Function.update st.world.disk (tmp st.names) (some (run_content ops m)),
          st.world.removes⟩, st.temporary_files ++ [tmp st.names], st.names + 1⟩ := by
  rw [read_loop]
  simp only [he, Bool.false_eq_true, if_false, hc, ofstream_open, hw, if_true, Bool.not_true,
    Bool.false_and, ofstream_close]
  congr 2
  simp [Function.update_idem]

/-- The outer reading loop on an input of `ls.length` terminated lines, every run file being
writable: it ends normally after `ls.length / max_lines + 1` passes, each of which asks for
one temporary name, and the run of the last pass is empty when `max_lines` divides the
number of lines. -/
theorem read_loop_runs {R : Type} (env : Env) (ops : RecordOps R) (tmp : Nat → Path)
    (max_lines : Nat) (hmax : 1 ≤ max_lines) (hw : ∀ k, env.writable (tmp k) = true) :
    ∀ (n : Nat) (ls : List (List Char)), ls.length ≤ n → (∀ l ∈ ls, '\r' ∉ l) →
      ∀ (fuel : Nat) (st : SortState), ls.length / max_lines + 1 ≤ fuel →
        ∃ st1, read_loop env ops tmp max_lines fuel (opened (lines_bytes ls)) st = (none, st1) ∧
          st1.names = st.names + (ls.length / max_lines + 1) ∧
          st1.temporary_files = st.temporary_files ++
            (List.range (ls.length / max_lines + 1)).map (fun i => tmp (st.names + i)) ∧
          (max_lines ∣ ls.length →
            st1.world.disk (tmp (st.names + ls.length / max_lines)) = some []) := by
  have hshort : ∀ (ls : List (List Char)), ls.length < max_lines → (∀ l ∈ ls, '\r' ∉ l) →
      ∀ (fuel : Nat) (st : SortState), ls.length / max_lines + 1 ≤ fuel →
        ∃ st1, read_loop env ops tmp max_lines fuel (opened (lines_bytes ls)) st = (none, st1) ∧
          st1.names = st.names + (ls.length / max_lines + 1) ∧
          st1.temporary_files = st.temporary_files ++
            (List.range (ls.length / max_lines + 1)).map (fun i => tmp (st.names + i)) ∧
          (max_lines ∣ ls.length →
            st1.world.disk (tmp (st.names + ls.length / max_lines)) = some []) := by
    intro ls hlt hls fuel st hfuel
    obtain ⟨s1, m1, h1, h2, h3⟩ := read_chunk_short ops max_lines ls [] hlt hls
    have hdiv : ls.length / max_lines = 0 := Nat.div_eq_of_lt hlt
    obtain ⟨f, rfl⟩ : ∃ f, fuel = f + 1 := ⟨fuel - 1, by omega⟩
    rw [read_loop_pass env ops tmp max_lines f _ s1 st m1 rfl h1 (hw _),
      read_loop_at_end env ops tmp max_lines f s1 _ h2, hdiv]
    refine ⟨_, rfl, rfl, rfl, fun hd => ?_⟩
    have hz : ls.length = 0 := Nat.eq_zero_of_dvd_of_lt hd hlt
    rw [h3 (List.length_eq_zero.1 hz)]
    simp [run_content]
  intro n
  induction n with
  | zero =>
    intro ls hn hls fuel st hfuel
    exact hshort ls (by omega) hls fuel st hfuel
  | succ n ih =>
    intro ls hn hls fuel st hfuel
    by_cases hlt : ls.length < max_lines
    · exact hshort ls hlt hls fuel st hfuel
    · have hge : max_lines ≤ ls.length := by omega
      obtain ⟨m1, h1⟩ := read_chunk_full ops max_lines ls [] hge hls
      have hdiv : ls.length / max_lines = (ls.length - max_lines) / max_lines + 1 :=
        Nat.div_eq_sub_div (by omega) hge
      have hf1 : 1 ≤ fuel := le_trans (Nat.le_add_left 1 _) hfuel
      obtain ⟨f, rfl⟩ : ∃ f, fuel = f + 1 := ⟨fuel - 1, by omega⟩
      have hdl : (ls.drop max_lines).length = ls.length - max_lines := List.length_drop _ _
      have hlen : (ls.drop max_lines).length ≤ n := by rw [hdl]; omega
      have hfuel2 : (ls.drop max_lines).length / max_lines + 1 ≤ f := by
        rw [hdl]
        rw [hdiv] at hfuel
        omega
      obtain ⟨st1, e1, e2, e3, e4⟩ := ih (ls.drop max_lines) hlen
        (fun l hl => hls l (List.mem_of_mem_drop hl)) f
        ⟨⟨Function.update st.world.disk (tmp st.names) (some (run_content ops m1)),
          st.world.removes⟩, st.temporary_files ++ [tmp st.names], st.names + 1⟩
        hfuel2
      rw [read_loop_pass env ops tmp max_lines f _ _ st m1 rfl h1 (hw _), e1]
      rw [hdl] at e2 e3 e4
      refine ⟨st1, rfl, ?_, ?_, ?_⟩
      · rw [e2, hdiv]
        simp only
        omega
      · rw [e3, hdiv]
        simp only [List.append_assoc, List.append_cancel_left_eq]
        rw [List.range_succ_eq_map (((ls.length - max_lines) / max_lines) + 1)]
        simp only [List.map_cons, List.map_map, Nat.add_zero, List.singleton_append,
          List.cons.injEq, true_and]
        apply List.map_congr_left
        intro i _
        simp only [Function.comp, Nat.succ_eq_add_one]
        congr 1
        omega
      · intro hd
        have hd1 : max_lines ∣ ls.length - max_lines := Nat.dvd_sub' hd (dvd_refl _)
        have := e4 hd1
        simp only at this
        rw [hdiv, ← this]
        congr 2
        omega

/-- Claim C14: on an input made of `n` lines each terminated by `'\r'`, with
`max_lines = m ≥ 1` and writable temporary files, the reading loop of `merge_sort` ends
normally having created `n / m + 1` run files, one for each temporary name it obtained; the
last one is empty when `m` divides `n`; the test `temporary_files.size() == 1` that selects
the rename path holds exactly when `n < m`; and an empty input gives one empty run, which
`merge_sort` renames to the output path, so that it returns `true` with an empty output. -/
theorem merge_sort_run_count {R : Type} (env : Env) (build : Build) (ops : RecordOps R)
    (tmp : Nat → Path) (addr : Nat → Nat) (inp out : Path) (max_lines : Nat) (w : World)
    (ls : List (List Char)) (hmax : 1 ≤ max_lines) (hls : ∀ l ∈ ls, '\r' ∉ l)
    (hin : env.readable inp = true) (hdisk : w.disk inp = some (lines_bytes ls))
    (hw : ∀ k, env.writable (tmp k) = true) :
    ∀ fuel, ls.length / max_lines + 1 ≤ fuel →
      ∃ st1, read_loop env ops tmp max_lines fuel (ifstream_open env w inp)
          { world := w, temporary_files := [], names := 0 } = (none, st1) ∧
        st1.names = ls.length / max_lines + 1 ∧
        st1.temporary_files = (List.range (ls.length / max_lines + 1)).map tmp ∧
        (max_lines ∣ ls.length → st1.world.disk (tmp (ls.length / max_lines)) = some []) ∧
        (st1.temporary_files.length = 1 ↔ ls.length < max_lines) ∧
        (ls = [] → tmp 0 ≠ out → env.rename_fails (tmp 0) out = false →
          (merge_sort env build ops tmp addr fuel inp out max_lines w).1 = .returned true ∧
          (merge_sort env build ops tmp addr fuel inp out max_lines w).2.disk out = some []) := by
  intro fuel hfuel
  have hopen : ifstream_open env w inp = opened (lines_bytes ls) := by
    simp [ifstream_open, hdisk, hin]
  obtain ⟨st1, h1, h2, h3, h4⟩ := read_loop_runs env ops tmp max_lines hmax hw ls.length ls
    (le_refl _) hls fuel { world := w, temporary_files := [], names := 0 } hfuel
  simp only [Nat.zero_add, List.nil_append] at h2 h3 h4
  refine ⟨st1, by rw [hopen]; exact h1, h2, h3, h4, ?_, ?_⟩
  · rw [h3, List.length_map, List.length_range]
    constructor
    · intro h
      have h0 : ls.length / max_lines = 0 := by omega
      rcases (Nat.div_eq_zero_iff (by omega : 0 < max_lines)).1 h0 with h5
      exact h5
    · intro h
      rw [Nat.div_eq_of_lt h]
  · intro hnil hne hren
    subst hnil
    have hfiles : st1.temporary_files = [tmp 0] := by
      rw [h3]
      simp only [List.length_nil, Nat.zero_div]
      rfl
    have hd := h4 (dvd_zero _)
    simp only [List.length_nil, Nat.zero_div] at hd
    have := merge_sort_single_run env build ops tmp addr fuel inp out max_lines w st1 (tmp 0) []
      (by rw [hopen]; rfl) (by rw [hopen]; exact h1) hfiles hd hne hren
    exact ⟨this.1, this.2.1⟩

/-- An instance of claim C14: two lines and chunks of two lines give two runs, the second
one empty. -/
theorem merge_sort_run_count_witness :
    ∃ st1, read_loop no_faults bit_record run_name 2 2
        (ifstream_open no_faults (disk_of [("in".toList, "1\r0\r".toList)]) "in".toList)
        { world := disk_of [("in".toList, "1\r0\r".toList)], temporary_files := [],
          names := 0 } = (none, st1) ∧
      st1.names = ["1".toList, "0".toList].length / 2 + 1 ∧
      st1.temporary_files =
        (List.range (["1".toList, "0".toList].length / 2 + 1)).map run_name ∧
      (2 ∣ ["1".toList, "0".toList].length →
        st1.world.disk (run_name (["1".toList, "0".toList].length / 2)) = some []) ∧
      (st1.temporary_files.length = 1 ↔ ["1".toList, "0".toList].length < 2) ∧
      (["1".toList, "0".toList] = [] → run_name 0 ≠ "out".toList →
        no_faults.rename_fails (run_name 0) "out".toList = false →
        (merge_sort no_faults release bit_record run_name id 2 "in".toList "out".toList 2
          (disk_of [("in".toList, "1\r0\r".toList)])).1 = .returned true ∧
        (merge_sort no_faults release bit_record run_name id 2 "in".toList "out".toList 2
          (disk_of [("in".toList, "1\r0\r".toList)])).2.disk "out".toList = some []) :=
  merge_sort_run_count no_faults release bit_record run_name id "in".toList "out".toList 2
    (disk_of [("in".toList, "1\r0\r".toList)]) ["1".toList, "0".toList] (by decide)
    (by decide) rfl (by decide) (fun _ => rfl) 2 (by decide)

/-! ## The merge keeps the order of every run -/

/-- The merge loop, for any choice of the element written at each step, appends to what was
written before, and the lines that an element still had to contribute are written in
their order. -/
theorem merge_loop_order (select : List file_line → Nat)
    (hsel : ∀ fl, fl ≠ [] → select fl < fl.length) :
    ∀ (fuel : Nat) (fl : List file_line) (written : List (List Char)),
      (∀ e ∈ fl, well_formed e.file) → (pending_lines fl).length ≤ fuel →
      ∃ tail, merge_loop select fuel fl written = some (written ++ tail) ∧
        ∀ e ∈ fl, (entry_lines e).Sublist tail := by
  intro fuel
  induction fuel with
  | zero =>
    intro fl written _ hlen
    by_cases hne : fl = []
    · subst hne
      exact ⟨[], by simp [merge_loop_nil], by simp⟩
    · have := pending_lines_length_pos fl hne
      omega
  | succ fuel ih =>
    intro fl written hwf hlen
    by_cases hne : fl = []
    · subst hne
      exact ⟨[], by simp [merge_loop_nil], by simp⟩
    · have hi := hsel fl hne
      have hget : fl[select fl]? = some fl[select fl] := List.getElem?_eq_getElem hi
      have hmem : fl[select fl] ∈ fl := List.getElem_mem hi
      obtain ⟨h1, h2⟩ := getline_entry fl[select fl] (hwf _ hmem)
      have hp0 := perm_cons_eraseIdx fl _ _ hget
      have hperm := pending_lines_perm hp0
      rw [pending_lines_cons] at hperm
      rw [merge_loop_step select fuel fl written hne, hget]
      simp only
      cases hg : (getline fl[select fl].file fl[select fl].line).1.eofbit with
      | true =>
        rw [h1 hg, List.nil_append] at hperm
        simp only [if_true]
        obtain ⟨tail, ho1, ho2⟩ := ih (fl.eraseIdx (select fl)) (written ++ [fl[select fl].line])
          (fun e he => hwf e (List.mem_of_mem_eraseIdx he))
          (by have := hperm.length_eq; simp only [List.length_cons] at this; omega)
        refine ⟨fl[select fl].line :: tail, by rw [ho1]; simp, ?_⟩
        intro e he
        rcases List.mem_cons.1 (hp0.mem_iff.1 he) with he | he
        · rw [he]
          simp only [entry_lines, h1 hg]
          exact List.Sublist.cons₂ _ (List.nil_sublist _)
        · exact (ho2 e he).cons _
      | false =>
        obtain ⟨hwf1, hrest⟩ := h2 hg
        simp only [Bool.false_eq_true, if_false]
        have hp1 := perm_set_eraseIdx fl (select fl) _
          ({ ptr := fl[select fl].ptr, file := (getline fl[select fl].file fl[select fl].line).1,
             line := (getline fl[select fl].file fl[select fl].line).2 } : file_line) hget
        have hperm1 := pending_lines_perm hp1
        rw [pending_lines_cons] at hperm1
        simp only at hperm1
        rw [← List.cons_append, hrest] at hperm1
        have hperm2 : (pending_lines fl).Perm (fl[select fl].line :: pending_lines (fl.set (select fl)
            ({ ptr := fl[select fl].ptr, file := (getline fl[select fl].file fl[select fl].line).1,
               line := (getline fl[select fl].file fl[select fl].line).2 } : file_line))) :=
          hperm.trans (List.Perm.cons _ hperm1.symm)
        obtain ⟨tail, ho1, ho2⟩ := ih (fl.set (select fl)
            ({ ptr := fl[select fl].ptr, file := (getline fl[select fl].file fl[select fl].line).1,
               line := (getline fl[select fl].file fl[select fl].line).2 } : file_line))
          (written ++ [fl[select fl].line])
          (fun e he => by
            rcases List.mem_or_eq_of_mem_set he with he | rfl
            · exact hwf e he
            · exact hwf1)
          (by have := hperm2.length_eq; simp only [List.length_cons] at this; omega)
        refine ⟨fl[select fl].line :: tail, by rw [ho1]; simp, ?_⟩
        intro e he
        rcases List.mem_cons.1 (hp0.mem_iff.1 he) with he | he
        · rw [he]
          have := ho2 _ (hp1.mem_iff.2 (List.mem_cons_self _ _))
          simp only [entry_lines] at this ⊢
          rw [← hrest]
          exact List.Sublist.cons₂ _ this
        · exact (ho2 e (hp1.mem_iff.2 (List.mem_cons_of_mem _ he))).cons _

theorem contribution_run (w : World) (p : Path) (ls : List (List Char))
    (hls : ∀ l ∈ ls, '\r' ∉ l) (hdisk : w.disk p = some (lines_bytes ls)) :
    contribution w p = if ls = [] then [[]] else ls := by
  unfold contribution
  rw [hdisk]
  simp only [Option.getD_some, split_lines_lines_bytes ls hls]
  cases ls <;> simp

theorem entry_lines_run (ls : List (List Char)) (hls : ∀ l ∈ ls, '\r' ∉ l) (ptr : Nat) :
    entry_lines ⟨ptr, (getline (opened (lines_bytes ls)) []).1,
      (getline (opened (lines_bytes ls)) []).2⟩ = if ls = [] then [[]] else ls := by
  cases ls with
  | nil =>
    rw [getline_lines_nil]
    simp [entry_lines, rest_lines]
  | cons l ls1 =>
    rw [getline_lines_cons l ls1 (hls l (by simp))]
    have hls1 : ∀ x ∈ ls1, '\r' ∉ x := fun x hx => hls x (List.mem_cons_of_mem _ hx)
    simp [entry_lines, rest_lines, split_lines_lines_bytes ls1 hls1]

/-- The opening loop of `do_file_merge` on run files, file by file: the element buffered
for a file stands for the lines of the file, or for one blank line when the file is
empty. -/
theorem open_files_entries (env : Env) (build : Build) (addr : Nat → Nat) (w : World) :
    ∀ (ps : List Path) (pos : Nat) (fl : List file_line), (∀ p ∈ ps, run_file env w p) →
      ∃ (new : List file_line) (taken rest : List Path) (pos1 : Nat),
        open_files env build addr w ps pos fl = (fl ++ new, rest, pos1) ∧
        ps = taken ++ rest ∧
        (∀ e ∈ new, well_formed e.file) ∧
        new.map entry_lines = taken.map (contribution w) ∧
        (pending_lines new).length ≤ (all_lines w taken).length + taken.length ∧
        (build.debug = false → rest = []) ∧
        (fl.length < 10 → ps ≠ [] → taken ≠ []) ∧
        (fl.length + ps.length ≤ 10 → rest = []) := by
  intro ps
  induction ps with
  | nil =>
    intro pos fl _
    exact ⟨[], [], [], pos, by simp [open_files], rfl, by simp, rfl, by simp [pending_lines],
      fun _ => rfl, fun _ h => absurd rfl h, fun _ => rfl⟩
  | cons p ps ih =>
    intro pos fl hfiles
    obtain ⟨hread, ls, hls, hdisk⟩ := hfiles p (by simp)
    have hopen : ifstream_open env w p = (opened (lines_bytes ls)) := by
      simp [ifstream_open, hdisk, hread]
    by_cases hcap : (build.debug && fl.length == 10) = true
    · refine ⟨[], [], p :: ps, pos, ?_, rfl, by simp, rfl, by simp [pending_lines], ?_, ?_, ?_⟩
      · simp [open_files, hopen, hcap]
      · intro hd; simp [hd] at hcap
      · intro hlt _
        simp only [Bool.and_eq_true, beq_iff_eq] at hcap
        omega
      · intro hlt
        simp only [Bool.and_eq_true, beq_iff_eq, List.length_cons] at hcap hlt
        omega
    · obtain ⟨e, he⟩ : ∃ e : file_line, e = ⟨addr pos, (getline (opened (lines_bytes ls)) []).1,
          (getline (opened (lines_bytes ls)) []).2⟩ := ⟨_, rfl⟩
      obtain ⟨he1, _, he3, _⟩ := open_entry ls hls (addr pos) e he
      have he5 : entry_lines e = contribution w p := by
        rw [he, entry_lines_run ls hls, contribution_run w p ls hls hdisk]
      obtain ⟨new, taken, rest, pos1, h1, h2, h3, h4, h5, h6, _, h8⟩ :=
        ih (pos + 1) (fl ++ [e]) (fun q hq => hfiles q (List.mem_cons_of_mem _ hq))
      have hsplit : split_lines ((w.disk p).getD []) = ls := by
        rw [hdisk]; exact split_lines_lines_bytes ls hls
      have hpend : pending_lines (e :: new) = entry_lines e ++ pending_lines new := rfl
      refine ⟨e :: new, p :: taken, rest, pos1, ?_, by rw [h2]; rfl, ?_, ?_, ?_, h6,
        fun _ _ => by simp, ?_⟩
      · rw [open_files, hopen]
        simp only [opened_is_open, Bool.not_true, Bool.false_eq_true, if_false, hcap]
        rw [← he, h1]
        simp
      · intro x hx
        rcases List.mem_cons.mp hx with rfl | hx
        · exact he1
        · exact h3 x hx
      · simp only [List.map_cons, he5, h4]
      · rw [all_lines_cons, hsplit, hpend]
        simp only [List.length_append, List.length_cons]
        omega
      · intro hlt
        apply h8
        simp only [List.length_append, List.length_cons, List.length_nil] at hlt ⊢
        omega

/-- One pass of the merge loop on the elements buffered for run files, for any choice of the
element written at each step: the lines written are the contributions of the files, in some
order that keeps the order of each file. -/
theorem merge_loop_runs (select : List file_line → Nat)
    (hsel : ∀ fl, fl ≠ [] → select fl < fl.length) (w : World) (new : List file_line)
    (taken : List Path) (written : List (List Char)) (fuel : Nat)
    (hwf : ∀ e ∈ new, well_formed e.file)
    (hent : new.map entry_lines = taken.map (contribution w))
    (hfuel : (pending_lines new).length ≤ fuel) :
    ∃ tail, merge_loop select fuel new written = some (written ++ tail) ∧
      tail.Perm ((taken.map (contribution w)).flatten) ∧
      ∀ p ∈ taken, (contribution w p).Sublist tail := by
  obtain ⟨tail, h1, h2⟩ := merge_loop_order select hsel fuel new written hwf hfuel
  obtain ⟨out, h3, h4⟩ := merge_loop_conserves select hsel fuel new written hwf hfuel
  rw [h1] at h3
  simp only [Option.some.injEq] at h3
  rw [← h3] at h4
  refine ⟨tail, h1, ?_, ?_⟩
  · have := (List.perm_append_left_iff written).1 h4
    rw [← hent]
    exact this
  · intro p hp
    have hmem : contribution w p ∈ new.map entry_lines := by
      rw [hent]; exact List.mem_map_of_mem _ hp
    obtain ⟨e, he, hee⟩ := List.mem_map.1 hmem
    rw [← hee]
    exact h2 e he

/-- The outer loop of `do_file_merge` on run files: when it returns, what it has written
extends what was written before by the contributions of the files, in some order that
keeps the order of each file. -/
theorem do_file_merge_loop_order (env : Env) (build : Build) (addr : Nat → Nat) (w : World) :
    ∀ (fuel : Nat) (ps : List Path) (count pos : Nat) (written : List (List Char)),
      (∀ p ∈ ps, run_file env w p) → (all_lines w ps).length + 2 * ps.length ≤ fuel →
      (do_file_merge_loop env build addr w fuel ps count pos written).1 = .returned true →
      ∃ tail, (do_file_merge_loop env build addr w fuel ps count pos written).2 =
          written ++ tail ∧
        tail.Perm ((ps.map (contribution w)).flatten) ∧
        ∀ p ∈ ps, (contribution w p).Sublist tail := by
  intro fuel
  induction fuel with
  | zero =>
    intro ps count pos written _ hb _
    cases ps with
    | nil => rw [do_file_merge_loop_nil]; exact ⟨[], by simp, by simp, by simp⟩
    | cons p ps => simp only [List.length_cons] at hb; omega
  | succ fuel ih =>
    intro ps count pos written hfiles hb hret
    cases ps with
    | nil => rw [do_file_merge_loop_nil]; exact ⟨[], by simp, by simp, by simp⟩
    | cons p ps =>
      by_cases hassert : (build.asserts && (count + 1 != 1)) = true
      · have hr : do_file_merge_loop env build addr w (fuel + 1) (p :: ps) count pos written =
            (.assertion_failed, written) := by
          simp only [do_file_merge_loop, hassert, if_true]
        rw [hr] at hret
        simp at hret
      · obtain ⟨new, taken, rest, pos1, h1, h2, h3, h4, h5, _, h8, _⟩ :=
          open_files_entries env build addr w (p :: ps) pos [] hfiles
        have htaken : taken ≠ [] := h8 (by simp) (by simp)
        have hlen : (p :: ps).length = taken.length + rest.length := by rw [h2]; simp
        have hall : all_lines w (p :: ps) = all_lines w taken ++ all_lines w rest := by
          rw [h2, all_lines_append]
        have htl : 0 < taken.length := List.length_pos.mpr htaken
        rw [hall, hlen] at hb
        simp only [List.length_append] at hb
        simp only [List.nil_append] at h1
        obtain ⟨tail1, ho1, ho2, ho3⟩ := merge_loop_runs select_line select_line_lt w new taken
          written fuel h3 h4 (by omega)
        have hr : do_file_merge_loop env build addr w (fuel + 1) (p :: ps) count pos written =
            do_file_merge_loop env build addr w fuel rest
              (if build.asserts then count + 1 else count) pos1 (written ++ tail1) := by
          simp only [do_file_merge_loop, hassert, Bool.false_eq_true, if_false, h1, ho1]
        rw [hr] at hret ⊢
        obtain ⟨tail2, i1, i2, i3⟩ := ih rest (if build.asserts then count + 1 else count) pos1
          (written ++ tail1)
          (fun q hq => hfiles q (by rw [h2]; exact List.mem_append_right _ hq)) (by omega) hret
        refine ⟨tail1 ++ tail2, by rw [i1, List.append_assoc], ?_, ?_⟩
        · rw [h2, List.map_append, List.flatten_append]
          exact List.Perm.append ho2 i2
        · intro q hq
          rw [h2] at hq
          rcases List.mem_append.1 hq with hq | hq
          · exact (ho3 q hq).trans (List.sublist_append_left _ _)
          · exact (i3 q hq).trans (List.sublist_append_right _ _)

/-- Claim C15: on run files (files that can be opened, each empty or a sequence of lines
terminated by `'\r'`), the output path being writable and none of them: whichever element
is selected at each step of the merge loop, the lines written for the files buffered by the
opening loop (all of them, unless a `_DEBUG` build stops at ten) are a permutation of the
contributions of these files and keep the order of every file, where an empty file
contributes exactly one blank line; and whenever `do_file_merge` returns, the lines of its
output are such a permutation for the whole list, which it does with enough fuel unless
both `assert` and `_DEBUG` are compiled in. -/
theorem do_file_merge_conserves_lines (env : Env) (build : Build) (addr : Nat → Nat)
    (w : World) (files : List Path) (out : Path) (hfiles : ∀ p ∈ files, run_file env w p)
    (hout : out ∉ files) (houtw : env.writable out = true) :
    (∀ select : List file_line → Nat, (∀ fl, fl ≠ [] → select fl < fl.length) →
      ∀ pos fuel, (all_lines w files).length + files.length ≤ fuel →
        ∃ taken rest tail, files = taken ++ rest ∧
          (open_files env build addr w files pos []).2.1 = rest ∧
          ((build.debug = false ∨ files.length ≤ 10) → rest = []) ∧
          merge_loop select fuel (open_files env build addr w files pos []).1 [] = some tail ∧
          tail.Perm ((taken.map (contribution w)).flatten) ∧
          ∀ p ∈ taken, (contribution w p).Sublist tail) ∧
    (∀ fuel, (all_lines w files).length + 2 * files.length ≤ fuel →
      ((build.asserts = false ∨ build.debug = false) →
        (do_file_merge env build addr fuel files out w).1 = .returned true) ∧
      ((do_file_merge env build addr fuel files out w).1 = .returned true →
        ∃ written, (do_file_merge env build addr fuel files out w).2.disk out =
            some (lines_bytes written) ∧
          written.Perm ((files.map (contribution w)).flatten) ∧
          ∀ p ∈ files, (contribution w p).Sublist written)) := by
  constructor
  · intro select hsel pos fuel hfuel
    obtain ⟨new, taken, rest, pos1, h1, h2, h3, h4, h5, h6, _, h8⟩ :=
      open_files_entries env build addr w files pos [] hfiles
    simp only [List.nil_append] at h1
    have hall : all_lines w files = all_lines w taken ++ all_lines w rest := by
      rw [h2, all_lines_append]
    have hlen : files.length = taken.length + rest.length := by rw [h2]; simp
    rw [hall, hlen] at hfuel
    simp only [List.length_append] at hfuel
    obtain ⟨tail, t1, t2, t3⟩ := merge_loop_runs select hsel w new taken [] fuel h3 h4
      (by omega)
    refine ⟨taken, rest, tail, h2, by rw [h1], ?_, by rw [h1]; simpa using t1, t2, t3⟩
    rintro (h | h)
    · exact h6 h
    · exact h8 (by simpa using h)
  · intro fuel hfuel
    obtain ⟨w1, hw1⟩ : ∃ w1 : World, w1 =
        { w with disk := Function.update w.disk out (some []) } := ⟨_, rfl⟩
    have hoo : ofstream_open env w out = (true, w1) := by
      simp [ofstream_open, houtw, hw1]
    have hsame : ∀ p ∈ files, w1.disk p = w.disk p := by
      intro p hp
      rw [hw1]
      have : p ≠ out := fun h => hout (h ▸ hp)
      simp [Function.update, this]
    have hfiles1 : ∀ p ∈ files, run_file env w1 p := by
      intro p hp
      obtain ⟨h1, ls, h2, h3⟩ := hfiles p hp
      exact ⟨h1, ls, h2, by rw [hsame p hp, h3]⟩
    have hall := all_lines_congr w1 w files hsame
    have hcontr : files.map (contribution w1) = files.map (contribution w) := by
      apply List.map_congr_left
      intro p hp
      simp only [contribution, hsame p hp]
    obtain ⟨s1, s2, _⟩ := do_file_merge_loop_spec env build addr w1 fuel files 0 0 []
      hfiles1 (by rw [hall]; exact hfuel)
    have s4 := do_file_merge_loop_order env build addr w1 fuel files 0 0 [] hfiles1
      (by rw [hall]; exact hfuel)
    obtain ⟨r, hr⟩ : ∃ r, do_file_merge_loop env build addr w1 fuel files 0 0 [] = r :=
      ⟨_, rfl⟩
    rw [hr] at s1 s2 s4
    have hdfm1 : r.1 = .returned true → do_file_merge env build addr fuel files out w =
        (.returned true, ofstream_close w1 out true (lines_bytes r.2)) := by
      intro h
      unfold do_file_merge
      simp only [hoo, hr, h]
    have hdfm2 : r.1 = .assertion_failed → do_file_merge env build addr fuel files out w =
        (.assertion_failed, w1) := by
      intro h
      unfold do_file_merge
      simp only [hoo, hr, h]
    constructor
    · intro hb
      have hret : r.1 = .returned true := by
        rcases hb with hb | hb
        · exact s2 (Or.inl hb)
        · exact s2 (Or.inr ⟨hb, rfl⟩)
      rw [hdfm1 hret]
    · intro hret
      have hret1 : r.1 = .returned true := by
        rcases s1 with h | ⟨_, h⟩
        · exact h
        · rw [hdfm2 h] at hret; simp at hret
      obtain ⟨tail, t1, t2, t3⟩ := s4 hret1
      refine ⟨tail, ?_, by rw [← hcontr]; exact t2, ?_⟩
      · rw [hdfm1 hret1]
        simp only [ofstream_close, if_true, Function.update_same]
        rw [t1]
        simp
      · intro p hp
        have := t3 p hp
        simp only [contribution, hsame p hp] at this ⊢
        exact this

/-- An instance of claim C15: the run files `"a\rb\r"` and `""`, merged in a release
build. -/
theorem do_file_merge_conserves_lines_witness :
    ((release.asserts = false ∨ release.debug = false) →
      (do_file_merge no_faults release id 6 [run_name 0, run_name 1] "out".toList
        (disk_of [(run_name 0, "a\rb\r".toList), (run_name 1, [])])).1 = .returned true) ∧
    ((do_file_merge no_faults release id 6 [run_name 0, run_name 1] "out".toList
        (disk_of [(run_name 0, "a\rb\r".toList), (run_name 1, [])])).1 = .returned true →
      ∃ written, (do_file_merge no_faults release id 6 [run_name 0, run_name 1]
          "out".toList (disk_of [(run_name 0, "a\rb\r".toList), (run_name 1, [])])).2.disk
            "out".toList = some (lines_bytes written) ∧
        written.Perm (([run_name 0, run_name 1].map (contribution
          (disk_of [(run_name 0, "a\rb\r".toList), (run_name 1, [])]))).flatten) ∧
        ∀ p ∈ [run_name 0, run_name 1], (contribution
          (disk_of [(run_name 0, "a\rb\r".toList), (run_name 1, [])]) p).Sublist written) :=
  (do_file_merge_conserves_lines no_faults release id
    (disk_of [(run_name 0, "a\rb\r".toList), (run_name 1, [])]) [run_name 0, run_name 1]
    "out".toList
    (by
      intro p hp
      simp only [List.mem_cons, List.mem_singleton, List.not_mem_nil, or_false] at hp
      rcases hp with rfl | rfl
      · exact ⟨rfl, ["a".toList, "b".toList], by decide, by decide⟩
      · exact ⟨rfl, [], by decide, by decide⟩)
    (by decide) rfl).2 6 (by decide)

/-! ## Termination -/

/-- A call of `getline` on a sane stream leaves it sane, and either sets `eofbit` or
shortens what is left of the file. -/
theorem getline_sane (s : ifstream) (str : List Char) (hs : sane s) :
    sane (getline s str).1 ∧
    ((getline s str).1.eofbit = false → (getline s str).1.buf.length < s.buf.length) ∧
    (getline s str).1.buf.length ≤ s.buf.length := by
  unfold sane at hs ⊢
  cases he : s.eofbit with
  | true =>
    have hg : getline s str = ({ s with failbit := true }, str) := by simp [getline, he]
    rw [hg]
    simp [he]
  | false =>
    have hf := hs he
    rcases hscan : scan_line s.buf with ⟨l, _ | rest⟩
    · have hg : getline s str = ({ s with buf := [], eofbit := true, failbit := l.isEmpty }, l) := by
        simp [getline, he, hf, hscan]
      rw [hg]
      simp
    · obtain ⟨hbuf, _⟩ := scan_line_some _ _ _ hscan
      have hg : getline s str = ({ s with buf := rest }, l) := by
        simp [getline, he, hf, hscan]
      rw [hg]
      simp only [he, hf, true_implies, true_and]
      rw [hbuf]
      simp only [List.length_append, List.length_cons]
      omega

/-- The merge loop ends, whatever is selected at each step, on elements whose streams are
sane: every step drops an element or shortens what is left of its file. -/
theorem merge_loop_terminates (select : List file_line → Nat)
    (hsel : ∀ fl, fl ≠ [] → select fl < fl.length) :
    ∀ (fuel : Nat) (fl : List file_line) (written : List (List Char)),
      (∀ e ∈ fl, sane e.file) → (fl.map (fun e => e.file.buf.length + 1)).sum ≤ fuel →
      ∃ out, merge_loop select fuel fl written = some out := by
  intro fuel
  induction fuel with
  | zero =>
    intro fl written _ hlen
    cases fl with
    | nil => exact ⟨written, rfl⟩
    | cons e es => simp only [List.map_cons, List.sum_cons] at hlen; omega
  | succ fuel ih =>
    intro fl written hs hlen
    by_cases hne : fl = []
    · subst hne
      exact ⟨written, rfl⟩
    · have hi := hsel fl hne
      have hget : fl[select fl]? = some fl[select fl] := List.getElem?_eq_getElem hi
      have hmem : fl[select fl] ∈ fl := List.getElem_mem hi
      obtain ⟨g1, g2, _⟩ := getline_sane fl[select fl].file fl[select fl].line (hs _ hmem)
      have hp0 := perm_cons_eraseIdx fl _ _ hget
      have hsum0 := (hp0.map (fun e => e.file.buf.length + 1)).sum_eq
      simp only [List.map_cons, List.sum_cons] at hsum0
      rw [merge_loop_step select fuel fl written hne, hget]
      simp only
      cases hg : (getline fl[select fl].file fl[select fl].line).1.eofbit with
      | true =>
        simp only [if_true]
        exact ih _ _ (fun e he => hs e (List.mem_of_mem_eraseIdx he)) (by omega)
      | false =>
        simp only [Bool.false_eq_true, if_false]
        have hp1 := perm_set_eraseIdx fl (select fl) _
          ({ ptr := fl[select fl].ptr, file := (getline fl[select fl].file fl[select fl].line).1,
             line := (getline fl[select fl].file fl[select fl].line).2 } : file_line) hget
        have hsum1 := (hp1.map (fun e => e.file.buf.length + 1)).sum_eq
        simp only [List.map_cons, List.sum_cons] at hsum1
        have := g2 hg
        exact ih _ _
          (fun e he => by
            rcases List.mem_or_eq_of_mem_set he with he | rfl
            · exact hs e he
            · exact g1)
          (by omega)

theorem ifstream_open_cases (env : Env) (w : World) (p : Path) :
    ((ifstream_open env w p).is_open = false ∧ ifstream_open env w p = not_opened) ∨
    ∃ c, w.disk p = some c ∧ ifstream_open env w p = opened c := by
  unfold ifstream_open
  cases hd : w.disk p with
  | none => exact Or.inl ⟨rfl, rfl⟩
  | some c =>
    cases hr : env.readable p with
    | true => exact Or.inr ⟨c, rfl, by simp⟩
    | false => exact Or.inl ⟨by simp [not_opened], by simp⟩

theorem merge_bound_append (w : World) (ps qs : List Path) :
    merge_bound w (ps ++ qs) = merge_bound w ps + merge_bound w qs := by
  simp [merge_bound]

theorem merge_bound_length (w : World) (ps : List Path) :
    2 * ps.length ≤ merge_bound w ps := by
  induction ps with
  | nil => simp [merge_bound]
  | cons p ps ih =>
    simp only [merge_bound, List.map_cons, List.sum_cons, List.length_cons] at ih ⊢
    omega

/-- The opening loop of `do_file_merge` on any files: it consumes a prefix of the list and
buffers elements with sane streams; it consumes the whole list when every file can be
opened and the cap of a `_DEBUG` build is not reached, and it stops early otherwise. -/
theorem open_files_general (env : Env) (build : Build) (addr : Nat → Nat) (w : World) :
    ∀ (ps : List Path) (pos : Nat) (fl : List file_line),
      ∃ (new : List file_line) (taken rest : List Path) (pos1 : Nat),
        open_files env build addr w ps pos fl = (fl ++ new, rest, pos1) ∧
        ps = taken ++ rest ∧
        (∀ e ∈ new, sane e.file) ∧
        (new.map (fun e => e.file.buf.length + 1)).sum + taken.length ≤ merge_bound w taken ∧
        ((∀ p ∈ ps, (ifstream_open env w p).is_open = true) →
          (build.debug = false ∨ fl.length + ps.length ≤ 10) → rest = []) ∧
        ((∀ p ∈ ps, (ifstream_open env w p).is_open = true) → fl.length < 10 → ps ≠ [] →
          taken ≠ []) ∧
        ((∃ p ∈ ps, (ifstream_open env w p).is_open = false) → rest ≠ []) ∧
        (build.debug = true → fl.length ≤ 10 → 10 < fl.length + ps.length → rest ≠ []) := by
  intro ps
  induction ps with
  | nil =>
    intro pos fl
    exact ⟨[], [], [], pos, by simp [open_files], rfl, by simp, by simp [merge_bound],
      fun _ _ => rfl, fun _ _ h => absurd rfl h, fun h => by simp at h,
      fun _ h1 h2 => by simp at h2; omega⟩
  | cons p ps ih =>
    intro pos fl
    rcases ifstream_open_cases env w p with ⟨hclosed, _⟩ | ⟨c, hdisk, hopen⟩
    · refine ⟨[], [], p :: ps, pos, ?_, rfl, by simp, by simp [merge_bound], ?_, ?_,
        fun _ => by simp, fun _ _ _ => by simp⟩
      · simp [open_files, hclosed]
      · intro h
        have := h p (by simp)
        rw [hclosed] at this
        simp at this
      · intro h
        have := h p (by simp)
        rw [hclosed] at this
        simp at this
    · by_cases hcap : (build.debug && fl.length == 10) = true
      · refine ⟨[], [], p :: ps, pos, ?_, rfl, by simp, by simp [merge_bound], ?_, ?_,
          fun _ => by simp, fun _ _ _ => by simp⟩
        · simp [open_files, hopen, hcap]
        · intro _ h
          simp only [Bool.and_eq_true, beq_iff_eq, List.length_cons] at hcap h
          rcases h with h | h
          · rw [h] at hcap; simp at hcap
          · omega
        · intro _ hlt _
          simp only [Bool.and_eq_true, beq_iff_eq] at hcap
          omega
      · obtain ⟨new, taken, rest, pos1, h1, h2, h3, h4, h5, _, h7, h8⟩ :=
          ih (pos + 1) (fl ++ [⟨addr pos, (getline (opened c) []).1, (getline (opened c) []).2⟩])
        have hsane : sane (opened c) := fun _ => rfl
        obtain ⟨g1, _, g3⟩ := getline_sane (opened c) [] hsane
        refine ⟨⟨addr pos, (getline (opened c) []).1, (getline (opened c) []).2⟩ :: new,
          p :: taken, rest, pos1, ?_, by rw [h2]; rfl, ?_, ?_, ?_, fun _ _ _ => by simp, ?_, ?_⟩
        · rw [open_files, hopen]
          simp only [opened_is_open, Bool.not_true, Bool.false_eq_true, if_false, hcap]
          rw [h1]
          simp
        · intro x hx
          rcases List.mem_cons.mp hx with rfl | hx
          · exact g1
          · exact h3 x hx
        · simp only [List.map_cons, List.sum_cons, List.length_cons, merge_bound, hdisk,
            Option.getD_some] at h4 g3 ⊢
          simp only [opened_buf] at g3
          omega
        · intro hall hb
          apply h5 (fun q hq => hall q (List.mem_cons_of_mem _ hq))
          rcases hb with hb | hb
          · exact Or.inl hb
          · right
            simp only [List.length_append, List.length_cons, List.length_nil] at hb ⊢
            omega
        · rintro ⟨q, hq, hqc⟩
          rcases List.mem_cons.1 hq with rfl | hq
          · rw [hopen] at hqc; simp at hqc
          · exact h7 ⟨q, hq, hqc⟩
        · intro hd hle hlt
          have hne10 : fl.length ≠ 10 := by
            intro h
            simp [hd, h] at hcap
          apply h8 hd
          · simp only [List.length_append, List.length_cons, List.length_nil]; omega
          · simp only [List.length_append, List.length_cons, List.length_nil] at hlt ⊢
            omega

/-- The outer loop of `do_file_merge` on files that can all be opened: with enough fuel it
ends, by returning `true` or, with `assert` compiled in, on the assertion at a second pass;
it returns `true` in a single pass when the cap of a `_DEBUG` build is not reached. -/
theorem do_file_merge_loop_terminates (env : Env) (build : Build) (addr : Nat → Nat)
    (w : World) :
    ∀ (fuel : Nat) (ps : List Path) (count pos : Nat) (written : List (List Char)),
      (∀ p ∈ ps, (ifstream_open env w p).is_open = true) → merge_bound w ps ≤ fuel →
      ((do_file_merge_loop env build addr w fuel ps count pos written).1 = .returned true ∨
        (build.asserts = true ∧
          (do_file_merge_loop env build addr w fuel ps count pos written).1 =
            .assertion_failed)) ∧
      ((build.asserts = false ∨ (count = 0 ∧ (build.debug = false ∨ ps.length ≤ 10))) →
        (do_file_merge_loop env build addr w fuel ps count pos written).1 = .returned true) := by
  intro fuel
  induction fuel with
  | zero =>
    intro ps count pos written _ hb
    cases ps with
    | nil => rw [do_file_merge_loop_nil]; exact ⟨Or.inl rfl, fun _ => rfl⟩
    | cons p ps =>
      have := merge_bound_length w (p :: ps)
      simp only [List.length_cons] at this
      omega
  | succ fuel ih =>
    intro ps count pos written hopen hb
    cases ps with
    | nil => rw [do_file_merge_loop_nil]; exact ⟨Or.inl rfl, fun _ => rfl⟩
    | cons p ps =>
      by_cases hassert : (build.asserts && (count + 1 != 1)) = true
      · have hr : do_file_merge_loop env build addr w (fuel + 1) (p :: ps) count pos written =
            (.assertion_failed, written) := by
          simp only [do_file_merge_loop, hassert, if_true]
        rw [hr]
        simp only [Bool.and_eq_true, bne_iff_ne, ne_eq] at hassert
        refine ⟨Or.inr ⟨hassert.1, rfl⟩, ?_⟩
        rintro (h | ⟨h, _⟩)
        · rw [hassert.1] at h; simp at h
        · omega
      · obtain ⟨new, taken, rest, pos1, h1, h2, h3, h4, h5, h6, _, _⟩ :=
          open_files_general env build addr w (p :: ps) pos []
        have htaken : taken ≠ [] := h6 hopen (by simp) (by simp)
        have htl : 0 < taken.length := List.length_pos.mpr htaken
        have hmb : merge_bound w (p :: ps) = merge_bound w taken + merge_bound w rest := by
          rw [h2, merge_bound_append]
        simp only [List.nil_append] at h1
        obtain ⟨out1, ho1⟩ := merge_loop_terminates select_line select_line_lt fuel new
          written h3 (by omega)
        have hr : do_file_merge_loop env build addr w (fuel + 1) (p :: ps) count pos written =
            do_file_merge_loop env build addr w fuel rest
              (if build.asserts then count + 1 else count) pos1 out1 := by
          simp only [do_file_merge_loop, hassert, Bool.false_eq_true, if_false, h1, ho1]
        rw [hr]
        obtain ⟨i1, i2⟩ := ih rest (if build.asserts then count + 1 else count) pos1 out1
          (fun q hq => hopen q (by rw [h2]; exact List.mem_append_right _ hq)) (by omega)
        refine ⟨i1, ?_⟩
        rintro (h | ⟨_, h⟩)
        · exact i2 (Or.inl h)
        · rw [h5 hopen (by simpa using h), do_file_merge_loop_nil]

/-- The outer loop of `do_file_merge` with `assert` compiled in, when the opening loop of
the first pass leaves files behind: the second pass fails the assertion. -/
theorem do_file_merge_loop_flagged (env : Env) (build : Build) (addr : Nat → Nat)
    (w : World) (fuel : Nat) (ps : List Path) (hassert : build.asserts = true)
    (hrest : (open_files env build addr w ps 0 []).2.1 ≠ [])
    (hfuel : merge_bound w ps ≤ fuel) :
    (do_file_merge_loop env build addr w fuel ps 0 0 []).1 = .assertion_failed := by
  obtain ⟨new, taken, rest, pos1, h1, h2, h3, h4, _, _, _, _⟩ :=
    open_files_general env build addr w ps 0 []
  rw [h1] at hrest
  simp only at hrest
  simp only [List.nil_append] at h1
  have hmb : merge_bound w ps = merge_bound w taken + merge_bound w rest := by
    rw [h2, merge_bound_append]
  have hrl := merge_bound_length w rest
  have hrpos : 0 < rest.length := List.length_pos.mpr hrest
  obtain ⟨f, rfl⟩ : ∃ f, fuel = f + 2 := ⟨fuel - 2, by omega⟩
  obtain ⟨out1, ho1⟩ := merge_loop_terminates select_line select_line_lt (f + 1) new [] h3
    (by omega)
  cases ps with
  | nil =>
    have h2a := h2.symm
    simp only [List.append_eq_nil] at h2a
    exact absurd h2a.2 hrest
  | cons p ps1 =>
    obtain ⟨q, qs, hq⟩ : ∃ q qs, rest = q :: qs := by
      cases rest with
      | nil => exact absurd rfl hrest
      | cons q qs => exact ⟨q, qs, rfl⟩
    have hr : do_file_merge_loop env build addr w (f + 2) (p :: ps1) 0 0 [] =
        do_file_merge_loop env build addr w (f + 1) rest 1 pos1 out1 := by
      simp only [do_file_merge_loop, hassert, h1, ho1]
      simp
    rw [hr, hq]
    simp [do_file_merge_loop, hassert]

/-- The outer loop of `do_file_merge` without `assert`, when the next file cannot be opened:
every pass leaves the range as it was, and no amount of fuel ends the loop. -/
theorem do_file_merge_loop_stuck (env : Env) (build : Build) (addr : Nat → Nat) (w : World)
    (p : Path) (ps : List Path) (hassert : build.asserts = false)
    (hclosed : (ifstream_open env w p).is_open = false) :
    ∀ (fuel count pos : Nat) (written : List (List Char)),
      do_file_merge_loop env build addr w fuel (p :: ps) count pos written =
        (.out_of_fuel, written) := by
  intro fuel
  induction fuel with
  | zero => intro count pos written; rfl
  | succ fuel ih =>
    intro count pos written
    have ho : open_files env build addr w (p :: ps) pos [] = ([], p :: ps, pos) := by
      simp [open_files, hclosed]
    have hr : do_file_merge_loop env build addr w (fuel + 1) (p :: ps) count pos written =
        do_file_merge_loop env build addr w fuel (p :: ps) count pos written := by
      simp only [do_file_merge_loop, hassert, ho, merge_loop_nil]
      simp
    rw [hr]
    exact ih count pos written

theorem do_file_merge_outcome (env : Env) (build : Build) (addr : Nat → Nat) (fuel : Nat)
    (files : List Path) (out : Path) (w : World) :
    (do_file_merge env build addr fuel files out w).1 =
      (do_file_merge_loop env build addr (ofstream_open env w out).2 fuel files 0 0 []).1 := by
  unfold do_file_merge
  simp only
  split <;> simp_all

theorem open_files_all (env : Env) (build : Build) (addr : Nat → Nat) (w : World)
    (ps : List Path) (hopen : ∀ p ∈ ps, (ifstream_open env w p).is_open = true)
    (hcap : build.debug = false ∨ ps.length ≤ 10) :
    (open_files env build addr w ps 0 []).2.1 = [] := by
  obtain ⟨new, taken, rest, pos1, h1, _, _, _, h5, _, _, _⟩ :=
    open_files_general env build addr w ps 0 []
  rw [h1]
  exact h5 hopen (by simpa using hcap)

theorem open_files_early (env : Env) (build : Build) (addr : Nat → Nat) (w : World)
    (ps : List Path)
    (h : (∃ p ∈ ps, (ifstream_open env w p).is_open = false) ∨
      (build.debug = true ∧ 10 < ps.length)) :
    (open_files env build addr w ps 0 []).2.1 ≠ [] := by
  obtain ⟨new, taken, rest, pos1, h1, _, _, _, _, _, h7, h8⟩ :=
    open_files_general env build addr w ps 0 []
  rw [h1]
  rcases h with h | ⟨hd, hl⟩
  · exact h7 h
  · exact h8 hd (by simp) (by simpa using hl)

/-- What the outer loop of `do_file_merge` does in one pass and when it is entered again.
When every file can be opened (once the output file has been opened) and the build is not a
`_DEBUG` build with more than ten files, the opening loop of the first pass consumes the
whole range: the loop returns `true` with what the merge loop of that one pass has written,
and so does `do_file_merge`, whether `assert` is compiled in or not.  When a file cannot be
opened, or a `_DEBUG` build is given more than ten files, the opening loop leaves files
behind, and with `assert` compiled in the pass that follows fails the assertion. -/
theorem do_file_merge_runs_once (env : Env) (build : Build) (addr : Nat → Nat) (w : World)
    (files : List Path) (out : Path) :
    ((∀ p ∈ files, (ifstream_open env (ofstream_open env w out).2 p).is_open = true) →
      (build.debug = false ∨ files.length ≤ 10) →
      (open_files env build addr (ofstream_open env w out).2 files 0 []).2.1 = [] ∧
      ∀ fuel, merge_bound (ofstream_open env w out).2 files ≤ fuel →
        (∃ written,
          merge_loop select_line fuel
            (open_files env build addr (ofstream_open env w out).2 files 0 []).1 [] =
              some written ∧
          do_file_merge_loop env build addr (ofstream_open env w out).2 (fuel + 1) files 0 0 [] =
            (.returned true, written)) ∧
        (do_file_merge env build addr fuel files out w).1 = .returned true) ∧
    (((∃ p ∈ files, (ifstream_open env (ofstream_open env w out).2 p).is_open = false) ∨
        (build.debug = true ∧ 10 < files.length)) →
      (open_files env build addr (ofstream_open env w out).2 files 0 []).2.1 ≠ [] ∧
      (build.asserts = true →
        ∀ fuel, merge_bound (ofstream_open env w out).2 files ≤ fuel →
          (do_file_merge env build addr fuel files out w).1 = .assertion_failed)) := by
  constructor
  · intro hopen hcap
    have hall := open_files_all env build addr _ files hopen hcap
    refine ⟨hall, fun fuel hfuel => ⟨?_, ?_⟩⟩
    · obtain ⟨new, taken, rest, pos1, h1, h2, h3, h4, _, _, _, _⟩ :=
        open_files_general env build addr (ofstream_open env w out).2 files 0 []
      rw [h1] at hall ⊢
      simp only [List.nil_append] at h1 hall ⊢
      have hmb : merge_bound (ofstream_open env w out).2 files =
          merge_bound (ofstream_open env w out).2 taken +
            merge_bound (ofstream_open env w out).2 rest := by
        rw [h2, merge_bound_append]
      obtain ⟨written, hw1⟩ := merge_loop_terminates select_line select_line_lt fuel new []
        h3 (by omega)
      refine ⟨written, hw1, ?_⟩
      cases files with
      | nil =>
        simp only [open_files, Prod.mk.injEq] at h1
        rw [← h1.1, merge_loop_nil] at hw1
        simp only [Option.some.injEq] at hw1
        rw [← hw1]
        rfl
      | cons p ps =>
        simp only [do_file_merge_loop, h1, hw1, hall]
        simp [do_file_merge_loop_nil]
    · rw [do_file_merge_outcome]
      exact (do_file_merge_loop_terminates env build addr _ fuel files 0 0 [] hopen hfuel).2
        (Or.inr ⟨rfl, hcap⟩)
  · intro hearly
    have hrest := open_files_early env build addr _ files hearly
    refine ⟨hrest, fun hassert fuel hfuel => ?_⟩
    rw [do_file_merge_outcome]
    exact do_file_merge_loop_flagged env build addr _ fuel files hassert hrest hfuel

/-- An instance of `do_file_merge_runs_once`: two run files of which the second does not
exist, `assert` compiled in. -/
theorem do_file_merge_runs_once_witness :
    (open_files no_faults ⟨false, true⟩ id
      (ofstream_open no_faults (disk_of [(run_name 0, "a\r".toList)]) "out".toList).2
      [run_name 0, run_name 1] 0 []).2.1 ≠ [] ∧
    ∀ fuel, merge_bound
        (ofstream_open no_faults (disk_of [(run_name 0, "a\r".toList)]) "out".toList).2
        [run_name 0, run_name 1] ≤ fuel →
      (do_file_merge no_faults ⟨false, true⟩ id fuel [run_name 0, run_name 1] "out".toList
        (disk_of [(run_name 0, "a\r".toList)])).1 = .assertion_failed :=
  ⟨((do_file_merge_runs_once no_faults ⟨false, true⟩ id (disk_of [(run_name 0, "a\r".toList)])
      [run_name 0, run_name 1] "out".toList).2
      (Or.inl ⟨run_name 1, by decide, by decide⟩)).1,
    ((do_file_merge_runs_once no_faults ⟨false, true⟩ id (disk_of [(run_name 0, "a\r".toList)])
      [run_name 0, run_name 1] "out".toList).2
      (Or.inl ⟨run_name 1, by decide, by decide⟩)).2 rfl⟩

set_option maxRecDepth 100000 in
theorem eleven_runs_in_batches :
    (do_file_merge no_faults ⟨true, false⟩ (fun i => 10 - i) 64 ((List.range 11).map run_name)
      "out".toList eleven_runs).1 = .returned true ∧
    (do_file_merge no_faults ⟨true, false⟩ (fun i => 10 - i) 64 ((List.range 11).map run_name)
      "out".toList eleven_runs).2.disk "out".toList =
        some "b\rb\rb\rb\rb\rb\rb\rb\rb\rb\ra\r".toList ∧
    (do_file_merge no_faults ⟨false, false⟩ (fun i => 10 - i) 64 ((List.range 11).map run_name)
      "out".toList eleven_runs).2.disk "out".toList =
        some "a\rb\rb\rb\rb\rb\rb\rb\rb\rb\rb\r".toList := by
  decide

/-- Claim C13 (fails on the code).  The check that the loop runs once is
`assert(++count == 1)`: where `assert` is compiled out nothing is counted and nothing is
checked.  In a release build, a run file that cannot be opened makes every pass of
`while (first!=last)` break out of the opening loop at that file with the range unchanged:
the call never returns, whatever the fuel, and no assertion fails.  In a `_DEBUG`
build without `assert`, eleven run files that can all be opened are merged ten first and
then the eleventh: the call returns `true` with `b` ten times and then `a`, which is not
sorted, where the single pass of a build without `_DEBUG` gives `a` and then `b` ten times
at the same addresses. -/
theorem reentry_not_flagged_without_assert :
    ((ifstream_open no_faults (ofstream_open no_faults (disk_of []) "out".toList).2
        (run_name 0)).is_open = false ∧
      ∀ fuel, (do_file_merge no_faults release id fuel [run_name 0] "out".toList
        (disk_of [])).1 = .out_of_fuel) ∧
    ((∀ p ∈ (List.range 11).map run_name,
        (ifstream_open no_faults (ofstream_open no_faults eleven_runs "out".toList).2
          p).is_open = true) ∧
      (do_file_merge no_faults ⟨true, false⟩ (fun i => 10 - i) 64
        ((List.range 11).map run_name) "out".toList eleven_runs).1 = .returned true ∧
      (do_file_merge no_faults ⟨true, false⟩ (fun i => 10 - i) 64
        ((List.range 11).map run_name) "out".toList eleven_runs).2.disk "out".toList =
          some "b\rb\rb\rb\rb\rb\rb\rb\rb\rb\ra\r".toList ∧
      textually_sorted (split_lines "b\rb\rb\rb\rb\rb\rb\rb\rb\rb\ra\r".toList) = false ∧
      (do_file_merge no_faults ⟨false, false⟩ (fun i => 10 - i) 64
        ((List.range 11).map run_name) "out".toList eleven_runs).2.disk "out".toList =
          some "a\rb\rb\rb\rb\rb\rb\rb\rb\rb\rb\r".toList) := by
  refine ⟨⟨by decide, fun fuel => ?_⟩, by decide, eleven_runs_in_batches.1,
    eleven_runs_in_batches.2.1, by decide, eleven_runs_in_batches.2.2⟩
  rw [do_file_merge_outcome]
  rw [do_file_merge_loop_stuck no_faults release id _ (run_name 0) [] rfl (by decide)]

theorem ifstream_open_is_open (env : Env) (w : World) (p : Path) :
    (ifstream_open env w p).is_open = true ↔ env.readable p = true ∧ w.disk p ≠ none := by
  unfold ifstream_open
  cases hd : w.disk p with
  | none => simp [not_opened]
  | some c =>
    cases hr : env.readable p <;> simp [not_opened]

theorem ofstream_open_keeps (env : Env) (w : World) (out p : Path) (h : w.disk p ≠ none) :
    (ofstream_open env w out).2.disk p ≠ none := by
  unfold ofstream_open
  split
  · by_cases hp : p = out
    · simp [Function.update, hp]
    · simp [Function.update, hp, h]
  · exact h

/-- One pass of the inner reading loop on a sane stream, whatever the records are: it does
not throw, and it reaches the end of the stream or shortens what is left of it. -/
theorem read_chunk_progress {R : Type} (ops : RecordOps R) :
    ∀ (n : Nat) (s : ifstream) (m : List (R × Nat)), sane s →
      ∃ s1 m1, read_chunk ops n s m = some (s1, m1) ∧ sane s1 ∧
        (s1.eofbit = true ∨ s1.buf.length ≤ s.buf.length) ∧
        (s.eofbit = false → 0 < n → s1.eofbit = true ∨ s1.buf.length < s.buf.length) := by
  intro n
  induction n with
  | zero =>
    intro s m hs
    exact ⟨s, m, rfl, hs, Or.inr (le_refl _), fun _ h => absurd h (by omega)⟩
  | succ n ih =>
    intro s m hs
    cases he : s.eofbit with
    | true =>
      exact ⟨s, m, by simp [read_chunk, he], hs, Or.inl he, fun h => by simp at h⟩
    | false =>
      have hf := hs he
      obtain ⟨g1, g2, g3⟩ := getline_sane s [] hs
      have hstep : read_chunk ops (n + 1) s m =
          if (getline s []).2.length > 0 then
            read_chunk ops n (getline s []).1 (lines_insert ops (ops.extract (getline s []).2) m)
          else read_chunk ops n (getline s []).1 m := by
        simp [read_chunk, he, hf]
      have key : ∀ m0, ∃ s1 m1, read_chunk ops n (getline s []).1 m0 = some (s1, m1) ∧ sane s1 ∧
          (s1.eofbit = true ∨ s1.buf.length ≤ s.buf.length) ∧
          (s1.eofbit = true ∨ s1.buf.length < s.buf.length) := by
        intro m0
        obtain ⟨s1, m1, h1, h2, h3, _⟩ := ih (getline s []).1 m0 g1
        refine ⟨s1, m1, h1, h2, ?_, ?_⟩
        · rcases h3 with h3 | h3
          · exact Or.inl h3
          · exact Or.inr (by omega)
        · rcases h3 with h3 | h3
          · exact Or.inl h3
          · cases hg : (getline s []).1.eofbit with
            | true =>
              have := read_chunk_at_end ops n (getline s []).1 m0 hg
              rw [this] at h1
              simp only [Option.some.injEq, Prod.mk.injEq] at h1
              exact Or.inl (by rw [← h1.1]; exact hg)
            | false => exact Or.inr (by have := g2 hg; omega)
      by_cases hlen : (getline s []).2.length > 0
      · obtain ⟨s1, m1, h1, h2, h3, h4⟩ := key (lines_insert ops (ops.extract (getline s []).2) m)
        exact ⟨s1, m1, by rw [hstep, if_pos hlen, h1], h2, h3, fun _ _ => h4⟩
      · obtain ⟨s1, m1, h1, h2, h3, h4⟩ := key m
        exact ⟨s1, m1, by rw [hstep, if_neg hlen, h1], h2, h3, fun _ _ => h4⟩

/-- The outer reading loop of `merge_sort` with `max_lines ≥ 1` on a sane stream, every run
file being writable: with enough fuel it ends normally, in a state that does not depend on
the fuel; the run files it names exist when it ends. -/
theorem read_loop_total {R : Type} (env : Env) (ops : RecordOps R) (tmp : Nat → Path)
    (max_lines : Nat) (hmax : 1 ≤ max_lines) (hw : ∀ k, env.writable (tmp k) = true) :
    ∀ (n : Nat) (s : ifstream), sane s → (if s.eofbit then 0 else s.buf.length + 1) ≤ n →
      ∀ st : SortState, ∃ st1,
        (∀ fuel, n ≤ fuel → read_loop env ops tmp max_lines fuel s st = (none, st1)) ∧
        ((∀ p ∈ st.temporary_files, st.world.disk p ≠ none) →
          ∀ p ∈ st1.temporary_files, st1.world.disk p ≠ none) ∧
        (∀ p ∈ st1.temporary_files, p ∈ st.temporary_files ∨ ∃ k, p = tmp k) := by
  intro n
  induction n with
  | zero =>
    intro s _ hb st
    have he : s.eofbit = true := by
      cases h : s.eofbit with
      | true => rfl
      | false => rw [h] at hb; simp at hb
    exact ⟨st, fun fuel _ => read_loop_at_end env ops tmp max_lines fuel s st he,
      fun h => h, fun p hp => Or.inl hp⟩
  | succ n ih =>
    intro s hs hb st
    cases he : s.eofbit with
    | true =>
      exact ⟨st, fun fuel _ => read_loop_at_end env ops tmp max_lines fuel s st he,
        fun h => h, fun p hp => Or.inl hp⟩
    | false =>
      rw [he] at hb
      simp only [Bool.false_eq_true, if_false] at hb
      obtain ⟨s1, m1, h1, h2, _, h4⟩ := read_chunk_progress ops max_lines s [] hs
      have hb1 : (if s1.eofbit then 0 else s1.buf.length + 1) ≤ n := by
        rcases h4 he (by omega) with h | h
        · simp [h]
        · split <;> omega
      obtain ⟨st1, i1, i2, i3⟩ := ih s1 h2 hb1
        ⟨⟨Function.update st.world.disk (tmp st.names) (some (run_content ops m1)),
          st.world.removes⟩, st.temporary_files ++ [tmp st.names], st.names + 1⟩
      refine ⟨st1, ?_, ?_, ?_⟩
      · intro fuel hfuel
        obtain ⟨f, rfl⟩ : ∃ f, fuel = f + 1 := ⟨fuel - 1, by omega⟩
        rw [read_loop_pass env ops tmp max_lines f s s1 st m1 he h1 (hw _)]
        exact i1 f (by omega)
      · intro hinv
        apply i2
        intro p hp
        simp only [List.mem_append, List.mem_singleton] at hp
        by_cases hpt : p = tmp st.names
        · simp [Function.update, hpt]
        · rcases hp with hp | hp
          · simp only [Function.update, hpt, dite_false]
            exact hinv p hp
          · exact absurd hp hpt
      · intro p hp
        rcases i3 p hp with h | h
        · simp only [List.mem_append, List.mem_singleton] at h
          rcases h with h | h
          · exact Or.inl h
          · exact Or.inr ⟨st.names, h⟩
        · exact Or.inr h

/-- With `max_lines = 0` a pass of the outer reading loop reads nothing, so that the loop
never reaches the end of the stream. -/
theorem read_loop_zero {R : Type} (env : Env) (ops : RecordOps R) (tmp : Nat → Path) :
    ∀ (fuel : Nat) (s : ifstream) (st : SortState), s.eofbit = false →
      (read_loop env ops tmp 0 fuel s st).1 = some .out_of_fuel := by
  intro fuel
  induction fuel with
  | zero => intro s st he; simp [read_loop, he]
  | succ fuel ih =>
    intro s st he
    rw [read_loop]
    simp only [he, Bool.false_eq_true, if_false, read_chunk, List.isEmpty_nil, Bool.not_true,
      Bool.and_false]
    exact ih s _ he

theorem do_file_merge_terminates (env : Env) (build : Build) (addr : Nat → Nat) (w : World)
    (files : List Path) (out : Path)
    (hopen : ∀ p ∈ files, (ifstream_open env w p).is_open = true) :
    ∀ fuel, merge_bound (ofstream_open env w out).2 files ≤ fuel →
      (do_file_merge env build addr fuel files out w).1 = .returned true ∨
      (do_file_merge env build addr fuel files out w).1 = .assertion_failed := by
  intro fuel hfuel
  have hopen1 : ∀ p ∈ files, (ifstream_open env (ofstream_open env w out).2 p).is_open = true := by
    intro p hp
    obtain ⟨h1, h2⟩ := (ifstream_open_is_open env w p).1 (hopen p hp)
    exact (ifstream_open_is_open env _ p).2 ⟨h1, ofstream_open_keeps env w out p h2⟩
  rw [do_file_merge_outcome]
  rcases (do_file_merge_loop_terminates env build addr _ fuel files 0 0 [] hopen1 hfuel).1
    with h | ⟨_, h⟩
  · exact Or.inl h
  · exact Or.inr h

/-- Claim C16: when the temporary files can be written and read, `merge_sort` with
`max_lines ≥ 1` ends for every input, every record type and every build once it has
enough fuel (each pass of the reading loop reaches the end of the stream or shortens what
is left of it); `do_file_merge` ends for every list of files that can be opened; and with
`max_lines = 0` on an input that can be opened, `merge_sort` runs out of any amount of
fuel, the reading loop never reaching the end of the stream. -/
theorem merge_sort_terminates {R : Type} (env : Env) (build : Build) (ops : RecordOps R)
    (tmp : Nat → Path) (addr : Nat → Nat) (inp out : Path) (w : World)
    (hw : ∀ k, env.writable (tmp k) = true) (hr : ∀ k, env.readable (tmp k) = true) :
    (∀ max_lines, 1 ≤ max_lines →
      (∃ N, ∀ fuel, N ≤ fuel →
        (merge_sort env build ops tmp addr fuel inp out max_lines w).1 ≠ .out_of_fuel) ∧
      (∀ s : ifstream, sane s → s.eofbit = false →
        ∃ s1 m, read_chunk ops max_lines s [] = some (s1, m) ∧
          (s1.eofbit = true ∨ s1.buf.length < s.buf.length))) ∧
    (∀ files, (∀ p ∈ files, (ifstream_open env w p).is_open = true) →
      ∃ N, ∀ fuel, N ≤ fuel →
        (do_file_merge env build addr fuel files out w).1 ≠ .out_of_fuel) ∧
    ((ifstream_open env w inp).is_open = true →
      ∀ fuel, (merge_sort env build ops tmp addr fuel inp out 0 w).1 = .out_of_fuel) := by
  refine ⟨fun max_lines hmax => ⟨?_, ?_⟩, ?_, ?_⟩
  · rcases ifstream_open_cases env w inp with ⟨hclosed, _⟩ | ⟨c, _, hopen⟩
    · refine ⟨0, fun fuel _ => ?_⟩
      rw [(merge_sort_eq env build ops tmp addr fuel inp out max_lines w).1,
        merge_sort_body_not_open env build ops tmp addr fuel inp out max_lines w hclosed]
      simp
    · have his : (ifstream_open env w inp).is_open = true := by rw [hopen]; rfl
      obtain ⟨st1, h1, h2, h3⟩ := read_loop_total env ops tmp max_lines hmax hw
        (c.length + 1) (opened c) (fun _ => rfl) (by simp)
        { world := w, temporary_files := [], names := 0 }
      have hfiles : ∀ p ∈ st1.temporary_files, (ifstream_open env st1.world p).is_open = true := by
        intro p hp
        refine (ifstream_open_is_open env _ p).2 ⟨?_, h2 (by simp) p hp⟩
        rcases h3 p hp with h | ⟨k, hk⟩
        · simp at h
        · rw [hk]; exact hr k
      refine ⟨max (c.length + 1) (merge_bound (ofstream_open env st1.world out).2
        st1.temporary_files), fun fuel hfuel => ?_⟩
      have hread := h1 fuel (le_trans (le_max_left _ _) hfuel)
      rw [← hopen] at hread
      rw [(merge_sort_eq env build ops tmp addr fuel inp out max_lines w).1]
      by_cases hlen : st1.temporary_files.length = 1
      · unfold merge_sort_body
        simp only [his, Bool.not_true, Bool.false_eq_true, if_false, hread, hlen, if_true]
        split <;> simp
      · have hm := do_file_merge_terminates env build addr st1.world st1.temporary_files out
          hfiles fuel (le_trans (le_max_right _ _) hfuel)
        unfold merge_sort_body
        simp only [his, Bool.not_true, Bool.false_eq_true, if_false, hread, hlen]
        rcases hm with hm | hm <;> simp [hm]
  · intro s hs he
    obtain ⟨s1, m1, h1, _, _, h4⟩ := read_chunk_progress ops max_lines s [] hs
    exact ⟨s1, m1, h1, h4 he (by omega)⟩
  · intro files hopen
    refine ⟨merge_bound (ofstream_open env w out).2 files, fun fuel hfuel => ?_⟩
    rcases do_file_merge_terminates env build addr w files out hopen fuel hfuel with h | h <;>
      simp [h]
  · intro his fuel
    obtain ⟨c, hopen⟩ : ∃ c, ifstream_open env w inp = opened c := by
      rcases ifstream_open_cases env w inp with ⟨hclosed, _⟩ | ⟨c, _, hopen⟩
      · rw [hclosed] at his; simp at his
      · exact ⟨c, hopen⟩
    have hz := read_loop_zero env ops tmp fuel (ifstream_open env w inp)
      { world := w, temporary_files := [], names := 0 } (by rw [hopen]; rfl)
    rw [(merge_sort_eq env build ops tmp addr fuel inp out 0 w).1]
    unfold merge_sort_body
    simp only [his, Bool.not_true, Bool.false_eq_true, if_false]
    generalize read_loop env ops tmp 0 fuel (ifstream_open env w inp)
      { world := w, temporary_files := [], names := 0 } = L at hz
    obtain ⟨o, st⟩ := L
    simp only at hz
    subst hz
    rfl

/-- An instance of claim C16: one-bit records in a release build without faults. -/
theorem merge_sort_terminates_witness :
    (∀ max_lines, 1 ≤ max_lines →
      (∃ N, ∀ fuel, N ≤ fuel →
        (merge_sort no_faults release bit_record run_name id fuel "in".toList "out".toList
          max_lines (disk_of [("in".toList, "1\r0\r".toList)])).1 ≠ .out_of_fuel) ∧
      (∀ s : ifstream, sane s → s.eofbit = false →
        ∃ s1 m, read_chunk bit_record max_lines s [] = some (s1, m) ∧
          (s1.eofbit = true ∨ s1.buf.length < s.buf.length))) ∧
    (∀ files, (∀ p ∈ files, (ifstream_open no_faults
        (disk_of [("in".toList, "1\r0\r".toList)]) p).is_open = true) →
      ∃ N, ∀ fuel, N ≤ fuel →
        (do_file_merge no_faults release id fuel files "out".toList
          (disk_of [("in".toList, "1\r0\r".toList)])).1 ≠ .out_of_fuel) ∧
    ((ifstream_open no_faults (disk_of [("in".toList, "1\r0\r".toList)])
        "in".toList).is_open = true →
      ∀ fuel, (merge_sort no_faults release bit_record run_name id fuel "in".toList
        "out".toList 0 (disk_of [("in".toList, "1\r0\r".toList)])).1 = .out_of_fuel) :=
  merge_sort_terminates no_faults release bit_record run_name id "in".toList "out".toList
    (disk_of [("in".toList, "1\r0\r".toList)]) (fun _ => rfl) (fun _ => rfl)


end MapReduce
